import Mathlib

/-!
Verification of the automata core of the SimuladorAutomato repository
(`src/core/automato.py`, `src/core/pilha.py`, `src/core/maquina_moore.py`)
against its natural-language specification.

The Python code is shallowly embedded:
* Python `set` values become `Finset String`;
* Python `dict`s (whose insertion order is observable through iteration)
  become association lists with the same insertion/update discipline;
* loops become fuelled iteration (`iterStep`) of the translated loop body,
  with the fuel chosen large enough and stabilisation proved where the
  Python loop terminates;
* methods that `raise` become functions into `Except String _`.

Set iteration order in Python is arbitrary; wherever the code iterates over
a set we use a fixed enumeration (`Finset.sort`, see `listOf`), which is one
faithful instantiation of that arbitrary order.  All order-sensitive claims
proved below are independent of this choice.
-/

/-- module-level constant `EPSILON = "&"` of `automato.py`. -/
def EPSILON : String := "&"

/-- Generic fuelled while-loop: `f` is the loop body, returning `none` when
the loop's guard fails (the loop exits) and `some s'` after one iteration. -/
def iterStep {σ : Type*} (f : σ → Option σ) : Nat → σ → σ
  | 0, s => s
  | n+1, s =>
    match f s with
    | none => s
    | some s2 => iterStep f n s2

/-- Boolean test that `p` is a leading segment of `l`
(Python `remaining_input.startswith(symbol)` on the character level). -/
def listPref : List Char → List Char → Bool
  | [], _ => true
  | _ :: _, [] => false
  | a :: as, b :: bs => a == b && listPref as bs

/-- `class Automato` of `automato.py`: states, optional start state, final
states, the transition dict keyed by `(src, symbol)` with a set of
destinations, and the alphabet. -/
structure Automato where
  states : Finset String
  start_state : Option String
  final_states : Finset String
  transitions : List ((String × String) × Finset String)
  alphabet : Finset String
deriving DecidableEq

/-- `Automato.__init__`. -/
def Automato.empty : Automato := ⟨∅, none, ∅, [], ∅⟩

/-- `self.transitions.get(k, set())` (also the `defaultdict` read used with
`.get(..., [])`): the destination set stored under key `k`, defaulting to the
empty set. -/
def Automato.transGet (A : Automato) (k : String × String) : Finset String :=
  (A.transitions.lookup k).getD ∅

/-- `self.transitions[(src, symbol)].add(dst)` on the association-list
representation of the dict: update the entry in place if the key is present,
otherwise append a new entry (dict insertion order). -/
def insertT (l : List ((String × String) × Finset String)) (k : String × String)
    (d : String) : List ((String × String) × Finset String) :=
  match l with
  | [] => [(k, {d})]
  | (k2, s) :: rest =>
    if k2 = k then (k2, insert d s) :: rest else (k2, s) :: insertT rest k d

/-- `Automato.add_state`. -/
def Automato.add_state (A : Automato) (state : String)
    (is_start : Bool := false) (is_final : Bool := false) : Automato :=
  { A with
    states := insert state A.states
    start_state := if is_start || A.start_state.isNone then some state else A.start_state
    final_states := if is_final then insert state A.final_states else A.final_states }

/-- `Automato.add_transition`: raises `ValueError("Estado inexistente.")`
when source or destination is missing; otherwise records the symbol in the
alphabet (unless it is epsilon) and adds the destination. -/
def Automato.add_transition (A : Automato) (src symbol dst : String) :
    Except String Automato :=
  if src ∈ A.states ∧ dst ∈ A.states then
    .ok { A with
      alphabet := if symbol ≠ EPSILON then insert symbol A.alphabet else A.alphabet
      transitions := insertT A.transitions (src, symbol) dst }
  else
    .error "Estado inexistente."

/-- `Automato.add_transition` viewed as Python's caller sees it: the object
after the call, together with the raised error if any.  The check precedes
every mutation in the source, so on error the automaton is returned as it
was. -/
def Automato.add_transition_run (A : Automato) (src symbol dst : String) :
    Except String Unit × Automato :=
  match A.add_transition src symbol dst with
  | .ok A2 => (.ok (), A2)
  | .error e => (.error e, A)

/-- `Automato.remove_state`. -/
def Automato.remove_state (A : Automato) (state_to_remove : String) : Automato :=
  if state_to_remove ∉ A.states then A
  else
    { states := A.states.erase state_to_remove
      start_state := if A.start_state = some state_to_remove then none else A.start_state
      final_states := A.final_states.erase state_to_remove
      transitions := A.transitions.filterMap (fun e =>
        if e.1.1 = state_to_remove then none
        else
          let nd := e.2.erase state_to_remove
          if nd = ∅ then none else some (e.1, nd))
      alphabet := A.alphabet }

/-- All epsilon destinations mentioned in the transition dict; the states the
worklist of `epsilon_closure` can ever add. -/
def Automato.epsDsts (A : Automato) : Finset String :=
  (A.transitions.filter (fun e => e.1.2 = EPSILON)).foldr (fun e acc => e.2 ∪ acc) ∅

/-- One round of epsilon saturation: add every epsilon successor of a member
of `S`. -/
def Automato.epsStep (A : Automato) (S : Finset String) : Finset String :=
  S ∪ S.biUnion (fun s => A.transGet (s, EPSILON))

/-- `n` rounds of epsilon saturation. -/
def Automato.epsIter (A : Automato) : Nat → Finset String → Finset String
  | 0, S => S
  | n+1, S => A.epsIter n (A.epsStep S)

/-- `Automato.epsilon_closure`: the source computes the epsilon-reachability
closure of `S` with a worklist stack; that loop's result is the least
epsilon-closed superset of `S`, reproduced here by saturating for
`(epsDsts A).card` rounds (enough to reach the fixpoint, proved below). -/
def Automato.epsilon_closure (A : Automato) (S : Finset String) : Finset String :=
  A.epsIter A.epsDsts.card S

/-- `Automato.move`. -/
def Automato.move (A : Automato) (S : Finset String) (symbol : String) : Finset String :=
  S.biUnion (fun s => A.transGet (s, symbol))

/-- The set `possible_symbols` of `simulate_history`, as a duplicate-free
list: every non-epsilon symbol labelling a transition out of a state of `S`
(first-occurrence order standing in for Python's set order). -/
def Automato.candidateSyms (A : Automato) (S : Finset String) : List String :=
  (((A.transitions.map (fun e => e.1)).filter
      (fun k => decide (k.1 ∈ S) && decide (k.2 ≠ EPSILON))).map (fun k => k.2)).dedup

/-- `sorted(list(possible_symbols), key=len, reverse=True)`: stable sort by
length descending. -/
def Automato.sortedSyms (A : Automato) (S : Finset String) : List String :=
  (A.candidateSyms S).mergeSort (fun a b => decide (b.length ≤ a.length))

/-- The inner `for symbol in sorted_symbols` loop of `simulate_history`:
the first symbol that is a prefix of the remaining input and whose
accumulated move-set `next_states_set` is non-empty is taken; symbols whose
match leaves the accumulator empty are passed over (the accumulator is not
reset in the source). -/
def Automato.scanSyms (A : Automato) (S : Finset String) (rem : List Char)
    (acc : Finset String) : List String → Option (String × Finset String)
  | [] => none
  | sym :: rest =>
    if listPref sym.data rem then
      let acc2 := acc ∪ A.move S sym
      if acc2 = ∅ then A.scanSyms S rem acc2 rest else some (sym, acc2)
    else A.scanSyms S rem acc rest

/-- One configuration of the `simulate_history` main loop: the active state
set, the input cursor, and the history accumulated so far. -/
structure SimCfg where
  cur : Finset String
  idx : Nat
  hist : List (Finset String × Nat)
deriving DecidableEq

/-- The body of the `while input_idx < len(input_str)` loop of
`simulate_history`.  `none` means the loop exits: either the guard fails or
no candidate symbol matched (`consumed_input` stayed false).  The source
also breaks right after appending to the history when the new closure is
empty; here the following iteration finds no candidate symbol out of `∅`
and exits with the same configuration, so the loop's result is unchanged. -/
def Automato.simStepF (A : Automato) (w : List Char) (c : SimCfg) : Option SimCfg :=
  if c.idx < w.length then
    match A.scanSyms c.cur (w.drop c.idx) ∅ (A.sortedSyms c.cur) with
    | none => none
    | some (sym, nxt) =>
      let S2 := A.epsilon_closure nxt
      let i2 := c.idx + sym.length
      some ⟨S2, i2, c.hist ++ [(S2, i2)]⟩
  else none

/-- `Automato.simulate_history`.  The guard `if not self.start_state` is a
truthiness test: both `None` and the empty-string state name count as no
start state.  Each loop iteration consumes at least one input character
whenever every transition symbol is non-empty, so fuel `w.length` reaches
the Python loop's exit whenever that loop terminates (stabilisation is
proved below). -/
def Automato.simulate_history (A : Automato) (w : List Char) :
    List (Finset String × Nat) × Bool :=
  match A.start_state with
  | none => ([], false)
  | some s0 =>
    if s0 = "" then ([], false)
    else
      let S0 := A.epsilon_closure {s0}
      let h0 : List (Finset String × Nat) := [(S0, 0)]
      if w = [] then (h0, decide (S0 ∩ A.final_states).Nonempty)
      else
        let c := iterStep (A.simStepF w) w.length ⟨S0, 0, h0⟩
        (c.hist, decide (c.idx = w.length) && decide (c.cur ∩ A.final_states).Nonempty)

/-- `Automato.simulate`. -/
def Automato.simulate (A : Automato) (w : List Char) : Bool :=
  (A.simulate_history w).2

/-- `Automato.is_dfa`: every entry has exactly one destination, a
non-epsilon symbol, and no multi-character symbol. -/
def Automato.is_dfa (A : Automato) : Bool :=
  A.transitions.all (fun e =>
    decide (e.2.card = 1) && decide (e.1.2 ≠ EPSILON) && decide (e.1.2.length ≤ 1))

/-- Comparison definition following the spec's words for C4: the candidate
symbols "sorted by length descending (ties broken by default string
ordering)". -/
def specSorted (l : List String) : List String :=
  l.mergeSort (fun a b =>
    decide (b.length < a.length) || (decide (a.length = b.length) && decide (a ≤ b)))

/-- Comparison definition following the spec's words for C4: the first
symbol, in the spec's order, whose literal text is a prefix of the
remaining input. -/
def Automato.specFirstMatch (A : Automato) (S : Finset String) (rem : List Char) :
    Option String :=
  (specSorted (A.candidateSyms S)).find? (fun sym => listPref sym.data rem)

/-- A two-state automaton built through the public operations: states
`q0` (start) and `q1` (final), one transition `(q0, "a") → q1`.  Used to
instantiate theorems with hypotheses. -/
def aut1 : Automato :=
  (((Automato.empty.add_state "q0" true false).add_state "q1" false true).add_transition
      "q0" "a" "q1").toOption.getD Automato.empty

/-- Python dict assignment `d[k] = v` on an association list: replace the
value in place if the key is present, otherwise append (dict insertion
order). -/
def dictSet {α β : Type*} [DecidableEq α] : List (α × β) → α → β → List (α × β)
  | [], k, v => [(k, v)]
  | (k2, v2) :: rest, k, v =>
    if k2 = k then (k2, v) :: rest else (k2, v2) :: dictSet rest k v

/-- `defaultdict(set)`-style `d[k].add(x)` for dict values that are sets of
pairs (the PDA transition dict). -/
def dictAdd {α β : Type*} [DecidableEq α] [DecidableEq β] :
    List (α × Finset β) → α → β → List (α × Finset β)
  | [], k, d => [(k, {d})]
  | (k2, s) :: rest, k, d =>
    if k2 = k then (k2, insert d s) :: rest else (k2, s) :: dictAdd rest k d

/-- `class MaquinaMoore` of `maquina_moore.py`. -/
structure MaquinaMoore where
  states : Finset String
  start_state : Option String
  input_alphabet : Finset String
  output_alphabet : Finset String
  output_function : List (String × String)
  transitions : List ((String × String) × String)
deriving DecidableEq

/-- `MaquinaMoore.__init__`. -/
def MaquinaMoore.empty : MaquinaMoore := ⟨∅, none, ∅, ∅, [], []⟩

/-- `MaquinaMoore.add_state`. -/
def MaquinaMoore.add_state (M : MaquinaMoore) (state output_symbol : String)
    (is_start : Bool := false) : MaquinaMoore :=
  { M with
    states := insert state M.states
    output_function := dictSet M.output_function state output_symbol
    output_alphabet := insert output_symbol M.output_alphabet
    start_state := if is_start || M.start_state.isNone then some state else M.start_state }

/-- `MaquinaMoore.add_transition`; the source's error message interpolates
the two state names, abbreviated here to a fixed string. -/
def MaquinaMoore.add_transition (M : MaquinaMoore) (src input_symbol dst : String) :
    Except String MaquinaMoore :=
  if src ∈ M.states ∧ dst ∈ M.states then
    .ok { M with
      input_alphabet := insert input_symbol M.input_alphabet
      transitions := dictSet M.transitions (src, input_symbol) dst }
  else
    .error "Estado de origem ou destino nao existe."

/-- `MaquinaMoore.add_transition` as the caller sees it: result state plus
raised error; the membership check precedes every mutation in the source. -/
def MaquinaMoore.add_transition_run (M : MaquinaMoore) (src input_symbol dst : String) :
    Except String Unit × MaquinaMoore :=
  match M.add_transition src input_symbol dst with
  | .ok M2 => (.ok (), M2)
  | .error e => (.error e, M)

/-- `self.output_function.get(state, '')`. -/
def MaquinaMoore.outGet (M : MaquinaMoore) (s : String) : String :=
  (M.output_function.lookup s).getD ""

/-- The symbols labelling transitions out of `cur`
(`possible_symbols` of `MaquinaMoore.simulate_history`). -/
def MaquinaMoore.candidateSyms (M : MaquinaMoore) (cur : String) : List String :=
  (((M.transitions.map (fun e => e.1)).filter
      (fun k => decide (k.1 = cur))).map (fun k => k.2)).dedup

/-- `sorted(list(possible_symbols), key=len, reverse=True)`. -/
def MaquinaMoore.sortedSyms (M : MaquinaMoore) (cur : String) : List String :=
  (M.candidateSyms cur).mergeSort (fun a b => decide (b.length ≤ a.length))

/-- One configuration of the Moore `simulate_history` loop: current state,
accumulated output, cursor, history. -/
structure MooreCfg where
  cur : String
  out : String
  idx : Nat
  hist : List (String × String × Nat)
deriving DecidableEq

/-- Body of the Moore `while input_idx < len(input_str)` loop: take the
first (longest) candidate symbol that is a prefix of the remainder, follow
its transition, append the new state's output.  `none` when the guard fails
or no symbol matches (the machine "trava"). -/
def MaquinaMoore.simStepF (M : MaquinaMoore) (w : List Char) (c : MooreCfg) :
    Option MooreCfg :=
  if c.idx < w.length then
    match (M.sortedSyms c.cur).find? (fun sym => listPref sym.data (w.drop c.idx)) with
    | none => none
    | some sym =>
      match M.transitions.lookup (c.cur, sym) with
      | none => none
      | some next_state =>
        let out2 := c.out ++ M.outGet next_state
        let i2 := c.idx + sym.length
        some ⟨next_state, out2, i2, c.hist ++ [(next_state, out2, i2)]⟩
  else none

/-- `MaquinaMoore.simulate_history`: the guard `if not self.start_state` is
a truthiness test — both `None` and the empty-string state name count as no
start state.  Otherwise the initial history entry carries the start state's
own output before any input is consumed; the loop then consumes the input
greedily.  The final output is `none` exactly when the loop stopped before
consuming the whole input (the source returns `history, None` at that
point). -/
def MaquinaMoore.simulate_history (M : MaquinaMoore) (w : List Char) :
    List (String × String × Nat) × Option String :=
  match M.start_state with
  | none => ([], none)
  | some s0 =>
    if s0 = "" then ([], none)
    else
      let out0 := M.outGet s0
      let c := iterStep (M.simStepF w) w.length ⟨s0, out0, 0, [(s0, out0, 0)]⟩
      (c.hist, if c.idx = w.length then some c.out else none)

/-- `class AutomatoPilha` of `pilha.py`. -/
structure AutomatoPilha where
  states : Finset String
  input_alphabet : Finset String
  stack_alphabet : Finset String
  start_state : Option String
  start_stack_symbol : String
  final_states : Finset String
  transitions : List ((String × String × String) × Finset (String × String))
deriving DecidableEq

/-- `AutomatoPilha.__init__`. -/
def AutomatoPilha.empty : AutomatoPilha := ⟨∅, ∅, ∅, none, "Z", ∅, []⟩

/-- `AutomatoPilha.add_state`: the auto-start condition tests
`self.start_state is None and not self.states` *after* the state has been
inserted, translated literally here. -/
def AutomatoPilha.add_state (P : AutomatoPilha) (state : String)
    (is_start : Bool := false) (is_final : Bool := false) : AutomatoPilha :=
  let states2 := insert state P.states
  { P with
    states := states2
    start_state :=
      if is_start || (P.start_state.isNone && decide (states2 = ∅)) then some state
      else P.start_state
    final_states := if is_final then insert state P.final_states else P.final_states }

/-- `AutomatoPilha.add_transition`: records the input symbol (unless
epsilon), the popped symbol (unless epsilon), every non-epsilon character
of the push string, and the start stack symbol in the respective alphabets,
then adds `(dst, push_syms)` under key `(src, input_sym, pop_sym)`. -/
def AutomatoPilha.add_transition (P : AutomatoPilha)
    (src input_sym pop_sym dst push_syms : String) : Except String AutomatoPilha :=
  if src ∈ P.states ∧ dst ∈ P.states then
    .ok { P with
      input_alphabet :=
        if input_sym ≠ EPSILON then insert input_sym P.input_alphabet else P.input_alphabet
      stack_alphabet :=
        insert P.start_stack_symbol
          (((push_syms.data.filter (fun ch => ch.toString ≠ EPSILON)).map
              Char.toString).foldr insert
            (if pop_sym ≠ EPSILON then insert pop_sym P.stack_alphabet
             else P.stack_alphabet))
      transitions := dictAdd P.transitions (src, input_sym, pop_sym) (dst, push_syms) }
  else
    .error "Estado de origem ou destino inválido."

/-- `AutomatoPilha.add_transition` as the caller sees it. -/
def AutomatoPilha.add_transition_run (P : AutomatoPilha)
    (src input_sym pop_sym dst push_syms : String) :
    Except String Unit × AutomatoPilha :=
  match P.add_transition src input_sym pop_sym dst push_syms with
  | .ok P2 => (.ok (), P2)
  | .error e => (.error e, P)

/-- A computable enumeration of a finite set of strings, standing in for
Python's arbitrary set iteration order. -/
def listOf (s : Finset String) : List String :=
  s.sort (fun a b => a ≤ b)

/-- Lexicographic order on string pairs, used only to enumerate finite
sets of pairs. -/
def pairLe (a b : String × String) : Prop :=
  a.1 < b.1 ∨ (a.1 = b.1 ∧ a.2 ≤ b.2)

instance : DecidableRel pairLe := fun a b => by
  unfold pairLe
  infer_instance

instance : IsTrans (String × String) pairLe := by
  constructor
  intro a b c hab hbc
  unfold pairLe at *
  rcases hab with h1 | ⟨h1, h2⟩ <;> rcases hbc with h3 | ⟨h3, h4⟩
  · exact Or.inl (lt_trans h1 h3)
  · exact Or.inl (h3 ▸ h1)
  · exact Or.inl (h1 ▸ h3)
  · exact Or.inr ⟨h1.trans h3, le_trans h2 h4⟩

instance : IsAntisymm (String × String) pairLe := by
  constructor
  intro a b hab hba
  unfold pairLe at *
  rcases hab with h1 | ⟨h1, h2⟩ <;> rcases hba with h3 | ⟨h3, h4⟩
  · exact absurd (lt_trans h1 h3) (lt_irrefl _)
  · exact absurd h1 (h3 ▸ lt_irrefl _)
  · exact absurd h3 (h1 ▸ lt_irrefl _)
  · exact Prod.ext h1 (le_antisymm h2 h4)

instance : IsTotal (String × String) pairLe := by
  constructor
  intro a b
  unfold pairLe
  rcases lt_trichotomy a.1 b.1 with h | h | h
  · exact Or.inl (Or.inl h)
  · rcases le_total a.2 b.2 with h2 | h2
    · exact Or.inl (Or.inr ⟨h, h2⟩)
    · exact Or.inr (Or.inr ⟨h.symm, h2⟩)
  · exact Or.inr (Or.inl h)

/-- A computable enumeration of a finite set of string pairs. -/
def pairListOf (s : Finset (String × String)) : List (String × String) :=
  s.sort pairLe

/-- The JSON object written by `Automato.to_json` / read by
`Automato.from_json`.  `json.dumps`/`json.loads` of this data is modelled
as the identity: lists, strings and null survive the wire format
unchanged. -/
structure AutomatoJson where
  states : List String
  start_state : Option String
  final_states : List String
  alphabet : List String
  transitions : List (String × String × List String)
deriving DecidableEq

/-- `Automato.to_json` (up to the textual JSON encoding). -/
def Automato.to_json (A : Automato) : AutomatoJson :=
  { states := listOf A.states
    start_state := A.start_state
    final_states := listOf A.final_states
    alphabet := listOf A.alphabet
    transitions := A.transitions.map (fun e => (e.1.1, e.1.2, listOf e.2)) }

/-- One transition entry of `Automato.from_json`:
`for dst in t["dsts"]: a.transitions[(src, symbol)].add(dst)`. -/
def nfaFromJsonStep (acc : List ((String × String) × Finset String))
    (t : String × String × List String) : List ((String × String) × Finset String) :=
  t.2.2.foldl (fun a dst => insertT a (t.1, t.2.1) dst) acc

/-- `Automato.from_json`. -/
def Automato.from_json (d : AutomatoJson) : Automato :=
  { states := d.states.toFinset
    start_state := d.start_state
    final_states := d.final_states.toFinset
    alphabet := d.alphabet.toFinset
    transitions := d.transitions.foldl nfaFromJsonStep [] }

/-- The JSON object written by `MaquinaMoore.to_json`. -/
structure MooreJson where
  states : List String
  start_state : Option String
  input_alphabet : List String
  output_alphabet : List String
  output_function : List (String × String)
  transitions : List (String × String × String)
deriving DecidableEq

/-- `MaquinaMoore.to_json`: `filter(None, ...)` drops falsy (empty-string)
alphabet members. -/
def MaquinaMoore.to_json (M : MaquinaMoore) : MooreJson :=
  { states := listOf M.states
    start_state := M.start_state
    input_alphabet := (listOf M.input_alphabet).filter (fun s => decide (s ≠ ""))
    output_alphabet := (listOf M.output_alphabet).filter (fun s => decide (s ≠ ""))
    output_function := M.output_function
    transitions := M.transitions.map (fun e => (e.1.1, e.1.2, e.2)) }

/-- The final start-state validity fixup of `MaquinaMoore.from_json`:
`None` (and any name outside the state set) is never a member of
`machine.states`, so it is replaced by an arbitrary state when one
exists. -/
def mooreStartFix (m : MaquinaMoore) : MaquinaMoore :=
  match m.start_state with
  | none => { m with start_state := (listOf m.states).head? }
  | some s =>
    if s ∉ m.states then { m with start_state := (listOf m.states).head? } else m

/-- One `output_function` entry of `MaquinaMoore.from_json`:
`add_state(state, output, is_start=(state == data.get("start_state")))`. -/
def mooreStateStep (d0 : Option String) (m : MaquinaMoore) (p : String × String) :
    MaquinaMoore :=
  m.add_state p.1 p.2 (decide (d0 = some p.1))

/-- One transition entry of `MaquinaMoore.from_json`: replayed through
`add_transition` inside `try/except`, leaving the machine unchanged when it
raises. -/
def mooreTransStep (m : MaquinaMoore) (t : String × String × String) : MaquinaMoore :=
  (m.add_transition t.1 t.2.1 t.2.2).toOption.getD m

/-- `MaquinaMoore.from_json`: rebuild states through `add_state` (with its
auto-start behaviour), reset the alphabets, replay the transitions through
`add_transition` skipping any that raise, then fix up the start state. -/
def MaquinaMoore.from_json (d : MooreJson) : MaquinaMoore :=
  let m1 := d.output_function.foldl (mooreStateStep d.start_state) MaquinaMoore.empty
  let m2 := { m1 with
    input_alphabet := ∅
    output_alphabet := (d.output_function.map (fun p => p.2)).toFinset }
  let m3 := d.transitions.foldl mooreTransStep m2
  mooreStartFix m3

/-- The JSON object written by `AutomatoPilha.to_json`; transition keys are
the strings `"src,input,pop"`. -/
structure PilhaJson where
  states : List String
  input_alphabet : List String
  stack_alphabet : List String
  start_state : Option String
  start_stack_symbol : String
  final_states : List String
  transitions : List (String × List (String × String))
deriving DecidableEq

/-- `AutomatoPilha.to_json`. -/
def AutomatoPilha.to_json (P : AutomatoPilha) : PilhaJson :=
  { states := listOf P.states
    input_alphabet := listOf P.input_alphabet
    stack_alphabet := listOf P.stack_alphabet
    start_state := P.start_state
    start_stack_symbol := P.start_stack_symbol
    final_states := listOf P.final_states
    transitions := P.transitions.map (fun e =>
      (e.1.1 ++ "," ++ e.1.2.1 ++ "," ++ e.1.2.2, pairListOf e.2)) }

/-- Split a character list at its first comma, or `none` when it has no
comma. -/
def splitAtComma : List Char → Option (List Char × List Char)
  | [] => none
  | c :: cs =>
    if c = ',' then some ([], cs)
    else (splitAtComma cs).map (fun p => (c :: p.1, p.2))

/-- Python `key.split(',', 2)` restricted to the three-part case that
`AutomatoPilha.from_json` accepts; `none` corresponds to
`len(parts) != 3` (the malformed-key warning branch). -/
def pdaKeyParts (s : String) : Option (String × String × String) :=
  match splitAtComma s.data with
  | none => none
  | some (a, rest) =>
    match splitAtComma rest with
    | none => none
    | some (b, c) => some (⟨a⟩, ⟨b⟩, ⟨c⟩)

/-- The start-state validity fixup at the end of
`AutomatoPilha.from_json`, identical in shape to the Moore one. -/
def pilhaStartFix (p : AutomatoPilha) : AutomatoPilha :=
  match p.start_state with
  | none => { p with start_state := (listOf p.states).head? }
  | some s =>
    if s ∉ p.states then { p with start_state := (listOf p.states).head? } else p

/-- One transition entry of `AutomatoPilha.from_json`: keys that do not
split into three parts are skipped with a warning; accepted entries assign
the destination set wholesale and record the symbols in the alphabets. -/
def pdaTransStep (p : AutomatoPilha) (kv : String × List (String × String)) :
    AutomatoPilha :=
  match pdaKeyParts kv.1 with
  | some (src, inp, pop) =>
    { p with
      transitions := dictSet p.transitions (src, inp, pop) kv.2.toFinset
      input_alphabet :=
        if inp ≠ EPSILON then insert inp p.input_alphabet else p.input_alphabet
      stack_alphabet :=
        (kv.2.foldr (fun dp acc =>
            (dp.2.data.filter (fun ch => ch.toString ≠ EPSILON)).foldr
              (fun ch a2 => insert ch.toString a2) acc)
          (if pop ≠ EPSILON then insert pop p.stack_alphabet
           else p.stack_alphabet)) }
  | none => p

/-- `AutomatoPilha.from_json`: read the plain fields, re-add the start
stack symbol when truthy, replay each transition entry whose key splits
into three parts (others are skipped with a warning), and fix up the start
state. -/
def AutomatoPilha.from_json (d : PilhaJson) : AutomatoPilha :=
  let p0 : AutomatoPilha :=
    { states := d.states.toFinset
      input_alphabet := d.input_alphabet.toFinset
      stack_alphabet :=
        if d.start_stack_symbol ≠ "" then
          insert d.start_stack_symbol d.stack_alphabet.toFinset
        else d.stack_alphabet.toFinset
      start_state := d.start_state
      start_stack_symbol := d.start_stack_symbol
      final_states := d.final_states.toFinset
      transitions := [] }
  let p1 := d.transitions.foldl pdaTransStep p0
  pilhaStartFix p1

/-- The keys of an association list, in order. -/
def keysOf {α β : Type*} (l : List (α × β)) : List α := l.map Prod.fst

/-- The numeric value of a decimal digit character. -/
def digitVal (ch : Char) : Nat := ch.toNat - 48

/-- Evaluate a decimal digit string. -/
def readNat (l : List Char) : Nat := l.foldl (fun a ch => a * 10 + digitVal ch) 0

/-- The subset name `f"q{count}"` used by `to_dfa`. -/
def mkName (i : Nat) : String := "q" ++ toString i

/-- Every destination state mentioned in the transition dict. -/
def Automato.allDsts (A : Automato) : Finset String :=
  A.transitions.foldr (fun e acc => e.2 ∪ acc) ∅

/-- The `single_char_alphabet` of `to_dfa` and `_make_complete`: the set of
individual characters of the alphabet's symbols, as a duplicate-free
list. -/
def Automato.scaList (A : Automato) : List Char :=
  ((listOf A.alphabet).foldr (fun s acc => s.data ++ acc) []).dedup

/-- One subset-construction step on a state set:
`epsilon_closure(move(T, c))`. -/
def Automato.nfaStepSet (A : Automato) (T : Finset String) (c : Char) : Finset String :=
  A.epsilon_closure (A.move T c.toString)

/-- The mutable state of the `to_dfa` worklist loop: the subset-to-name
dict `state_map`, the `unmarked` queue, the DFA under construction, and the
name counter. -/
structure DfaBuild where
  state_map : List (Finset String × String)
  unmarked : List (Finset String)
  dfa : Automato
  count : Nat
deriving DecidableEq

/-- The body of `for sym in single_char_alphabet` inside the `to_dfa`
worklist loop, for the popped subset `T` named `Tname`: skip epsilon,
compute `U = epsilon_closure(move(T, sym))`, skip empty `U`, name and
enqueue `U` when new, and always record the transition. -/
def Automato.toDfaChar (A : Automato) (Tname : String) (T : Finset String)
    (b : DfaBuild) (c : Char) : DfaBuild :=
  if c.toString = EPSILON then b
  else
    let U := A.epsilon_closure (A.move T c.toString)
    if U = ∅ then b
    else
      match b.state_map.lookup U with
      | some Uname =>
        { b with dfa := (b.dfa.add_transition Tname c.toString Uname).toOption.getD b.dfa }
      | none =>
        let Uname := mkName b.count
        let b2 : DfaBuild :=
          { state_map := b.state_map ++ [(U, Uname)]
            unmarked := b.unmarked ++ [U]
            dfa := b.dfa.add_state Uname false (decide (U ∩ A.final_states).Nonempty)
            count := b.count + 1 }
        { b2 with
          dfa := (b2.dfa.add_transition Tname c.toString Uname).toOption.getD b2.dfa }

/-- The body of the `while unmarked` loop of `to_dfa`: pop the front
subset, look up its name, and process every character of the
single-character alphabet. -/
def Automato.toDfaStep (A : Automato) (b : DfaBuild) : Option DfaBuild :=
  match b.unmarked with
  | [] => none
  | T :: rest =>
    let Tname := (b.state_map.lookup T).getD ""
    some (A.scaList.foldl (A.toDfaChar Tname T) { b with unmarked := rest })

/-- Fuel bound for the `to_dfa` worklist: every subset entering `state_map`
is a subset of the start state plus all transition destinations, so at most
`2 ^ card` distinct subsets are ever enqueued. -/
def Automato.toDfaFuel (A : Automato) (s0 : String) : Nat :=
  2 ^ (insert s0 A.allDsts).card

/-- `Automato.to_dfa`: `None` without a start state — the source's
`if not self.start_state` is a truthiness test, so both `None` and the
empty-string state name count as no start state — otherwise the subset
construction seeded with the epsilon-closure of the start state named
`"q0"`. -/
def Automato.to_dfa (A : Automato) : Option Automato :=
  match A.start_state with
  | none => none
  | some s0 =>
    if s0 = "" then none
    else
      let SC := A.epsilon_closure {s0}
      let dfa0 := Automato.empty.add_state "q0" true
        (decide (SC ∩ A.final_states).Nonempty)
      let b0 : DfaBuild := ⟨[(SC, "q0")], [SC], dfa0, 1⟩
      some (iterStep A.toDfaStep (A.toDfaFuel s0) b0).dfa

/-- The initial worklist state of `to_dfa`: the epsilon-closure of the start
state, named `"q0"`, unmarked, with the one-state DFA built so far. -/
def Automato.toDfaInit (A : Automato) (s0 : String) : DfaBuild :=
  ⟨[(A.epsilon_closure {s0}, "q0")], [A.epsilon_closure {s0}],
    Automato.empty.add_state "q0" true
      (decide ((A.epsilon_closure {s0}) ∩ A.final_states).Nonempty), 1⟩

/-- One block `Y` of the `for Y in P` refinement loop of `minimize`: split
`Y` against the distinguisher `X`, appending `inter` and `diff` (or `Y`
unchanged) to the new partition and updating the waiting list `W` exactly as
the source does: a waiting `Y` is replaced by both halves, otherwise the
smaller half is enqueued. -/
def splitStep (X Y : Finset String)
    (acc : List (Finset String) × List (Finset String)) :
    List (Finset String) × List (Finset String) :=
  let inter := Y ∩ X
  let diff := Y \ X
  if inter ≠ ∅ ∧ diff ≠ ∅ then
    (acc.1 ++ [inter, diff],
      if Y ∈ acc.2 then (acc.2.erase Y) ++ [inter, diff]
      else if inter.card ≤ diff.card then acc.2 ++ [inter] else acc.2 ++ [diff])
  else (acc.1 ++ [Y], acc.2)

/-- The distinguisher set `X` of `minimize` for symbol `c` and splitter
block `B`: the states with a non-empty destination set under `c` whose
`next(iter(...))` destination lies in `B`; the arbitrary set element is read
through the canonical order (exact on the one-destination entries of a
DFA). -/
def Automato.hopX (A : Automato) (c : String) (B : Finset String) : Finset String :=
  A.states.filter (fun q => (decide (A.transGet (q, c) ≠ ∅) &&
    (match (listOf (A.transGet (q, c))).head? with
     | some d => decide (d ∈ B)
     | none => false)) = true)

/-- The body of `while W` in `minimize`: pop the front splitter and, for
every alphabet symbol, split every block of `P` (rebuilding `P` from scratch
and mutating `W` in place). -/
def Automato.hopcroftStep (A : Automato)
    (st : List (Finset String) × List (Finset String)) :
    Option (List (Finset String) × List (Finset String)) :=
  match st.2 with
  | [] => none
  | B :: rest =>
    some ((listOf A.alphabet).foldl (fun acc c =>
      acc.1.foldl (fun acc2 Y => splitStep (A.hopX c B) Y acc2) ([], acc.2))
      (st.1, rest))

/-- Fuel bound for the `minimize` refinement loop; proved sufficient below:
every iteration strictly decreases `|W| + 2*(bound - |P|)`. -/
def Automato.hopFuel (A : Automato) : Nat :=
  2 * (A.final_states.card + (A.states \ A.final_states).card + 2)

/-- `Automato._make_complete`: when some (state, single character of an
alphabet symbol) pair has no destinations, add the `"_error"` sink and point
every missing pair at it. -/
def Automato.make_complete (A : Automato) : Automato :=
  let sca := A.scaList
  if (listOf A.states).any (fun s =>
      sca.any (fun c => decide (A.transGet (s, Char.toString c) = ∅))) then
    let A1 := A.add_state "_error" false false
    (listOf A1.states).foldl (fun acc s =>
      sca.foldl (fun acc2 c =>
        if acc2.transGet (s, Char.toString c) = ∅ then
          (acc2.add_transition s (Char.toString c) "_error").toOption.getD acc2
        else acc2) acc) A1
  else A

/-- `Automato.minimize`: refuse non-DFAs, complete the DFA, refine the
partition `[F, Q \ F]` until the waiting list empties, drop the `"_error"`
state and rebuild the partition without it, then assemble the quotient
automaton, naming multi-state blocks `\x7ba,b\x7d` and singleton blocks by
their member.  `next(iter(dsts))` on a transition's destination set is read
through the canonical order; the source would raise `StopIteration` on an
empty stored destination set, which no operation ever stores, and the
embedding skips such an entry. -/
def Automato.minimize (A : Automato) : Except String Automato :=
  if ¬ A.is_dfa then .error "A minimização requer um AFD válido."
  else
    let Ac := A.make_complete
    let P0 := [Ac.final_states, Ac.states \ Ac.final_states]
    let W0 := if Ac.final_states.card ≤ (Ac.states \ Ac.final_states).card
      then [Ac.final_states] else [Ac.states \ Ac.final_states]
    let res := iterStep Ac.hopcroftStep Ac.hopFuel (P0, W0)
    let Ac2 := if "_error" ∈ Ac.states then Ac.remove_state "_error" else Ac
    let P2 := if "_error" ∈ Ac.states then
        (res.1.map (fun p => p.erase "_error")).filter (fun p => p ≠ ∅)
      else res.1
    let P3 := P2.filter (fun g => g ≠ ∅)
    let built := P3.foldl (fun (acc : Automato × List (String × String)) group =>
      if group = ∅ then acc
      else
        let sortedG := listOf group
        let rep := (sortedG.head?).getD ""
        let nname := if 1 < group.card
          then "\x7b" ++ String.intercalate "," sortedG ++ "\x7d" else rep
        (acc.1.add_state nname
            (match Ac2.start_state with
             | some st => decide (st ∈ group)
             | none => false)
            (decide ((Ac2.final_states ∩ group) ≠ ∅)),
          sortedG.foldl (fun m s => dictSet m s nname) acc.2))
      (Automato.empty, [])
    let final := Ac2.transitions.foldl
      (fun (acc : Automato × List (String × String)) e =>
        match built.2.lookup e.1.1 with
        | none => acc
        | some nsrc =>
          if (nsrc, e.1.2) ∈ acc.2 then acc
          else
            match (listOf e.2).head? with
            | none => acc
            | some d =>
              match built.2.lookup d with
              | none => acc
              | some ndst =>
                ((acc.1.add_transition nsrc e.1.2 ndst).toOption.getD acc.1,
                  acc.2 ++ [(nsrc, e.1.2)]))
      (built.1, [])
    .ok final.1

/-- A startless one-state DFA reached through the public operations: add
`q0` as start, add final `q1`, then remove `q0` (which clears the start
state).  `is_dfa` holds and `simulate` rejects every word. -/
def autC3 : Automato :=
  ((Automato.empty.add_state "q0" true false).add_state "q1" false true).remove_state "q0"

/-- An automaton with an empty-string transition symbol, reached through the
public operations: the empty symbol passes the `add_transition` checks, is
distinct from epsilon, and matches every remaining input without consuming
anything. -/
def autC8 : Automato :=
  ((Automato.empty.add_state "q0" true false).add_transition
      "q0" "" "q0").toOption.getD Automato.empty

/-- A PDA with one state added without `is_start`: by C10 its start state
stays `none` although the state set is non-empty. -/
def pda0 : AutomatoPilha := AutomatoPilha.empty.add_state "q0" false false

/-- A PDA with one state added as start. -/
def pda1 : AutomatoPilha := AutomatoPilha.empty.add_state "p0" true false

/-- The `to_dfa` transition already recorded for subset-name `n` and
character `c`: the step set is named in `state_map` and the DFA maps
`(n, c)` to exactly that name. -/
def complAt (A : Automato) (b : DfaBuild) (T : Finset String) (n : String)
    (c : Char) : Prop :=
  Char.toString c ≠ EPSILON → A.nfaStepSet T c ≠ ∅ →
    ∃ Un, (A.nfaStepSet T c, Un) ∈ b.state_map ∧
      b.dfa.transGet (n, Char.toString c) = {Un}

/-- The structural part of the `to_dfa` worklist invariant. -/
structure DfaBase (A : Automato) (s0 : String) (b : DfaBuild) : Prop where
  keys_nd : (keysOf b.state_map).Nodup
  names_eq : b.state_map.map Prod.snd = (List.range b.count).map mkName
  nonempty : ∀ e ∈ b.state_map, e.1 ≠ (∅ : Finset String)
  sub_univ : ∀ e ∈ b.state_map, e.1 ⊆ insert s0 A.allDsts
  start_mem : (A.epsilon_closure {s0}, "q0") ∈ b.state_map
  unm_sub : ∀ T ∈ b.unmarked, T ∈ keysOf b.state_map
  unm_nd : b.unmarked.Nodup
  dfa_states : b.dfa.states = (b.state_map.map Prod.snd).toFinset
  dfa_start : b.dfa.start_state = some "q0"
  dfa_finals : ∀ e ∈ b.state_map,
    (e.2 ∈ b.dfa.final_states ↔ (e.1 ∩ A.final_states).Nonempty)
  finals_sub : b.dfa.final_states ⊆ (b.state_map.map Prod.snd).toFinset
  tr_char : ∀ e ∈ b.dfa.transitions, e.1.2 ≠ EPSILON ∧ e.1.2.length = 1
  tr_keys_nd : (keysOf b.dfa.transitions).Nodup
  tr_shape : ∀ e ∈ b.dfa.transitions, ∃ T c Un,
    (T, e.1.1) ∈ b.state_map ∧ T ∉ b.unmarked ∧ e.1.2 = Char.toString c ∧
    A.nfaStepSet T c ≠ ∅ ∧ (A.nfaStepSet T c, Un) ∈ b.state_map ∧ e.2 = {Un}

/-- The full `to_dfa` worklist invariant: the structural part together with
completeness of every already-processed subset. -/
def DfaInv (A : Automato) (s0 : String) (b : DfaBuild) : Prop :=
  DfaBase A s0 b ∧
    ∀ e ∈ b.state_map, e.1 ∉ b.unmarked →
      ∀ c ∈ A.scaList, complAt A b e.1 e.2 c

/-- The termination measure of the `to_dfa` worklist loop. -/
def dfaMeasure (A : Automato) (s0 : String) (b : DfaBuild) : Nat :=
  b.unmarked.length + (2 ^ (insert s0 A.allDsts).card - b.state_map.length)

section ClosureLemmas

variable (A : Automato)

theorem Automato.subset_epsStep (S : Finset String) : S ⊆ A.epsStep S :=
  Finset.subset_union_left

theorem Automato.epsStep_mono {S T : Finset String} (h : S ⊆ T) :
    A.epsStep S ⊆ A.epsStep T := by
  unfold Automato.epsStep
  intro x hx
  rcases Finset.mem_union.mp hx with hx | hx
  · exact Finset.mem_union_left _ (h hx)
  · rcases Finset.mem_biUnion.mp hx with ⟨s, hs, hmem⟩
    exact Finset.mem_union_right _ (Finset.mem_biUnion.mpr ⟨s, h hs, hmem⟩)

theorem Automato.lookup_mem {l : List ((String × String) × Finset String)}
    {k : String × String} {v : Finset String} (h : l.lookup k = some v) :
    (k, v) ∈ l := by
  induction l with
  | nil => simp [List.lookup] at h
  | cons e rest ih =>
    obtain ⟨k2, v2⟩ := e
    rw [List.lookup] at h
    by_cases hk : k = k2
    · subst hk
      simp at h
      subst h
      exact List.mem_cons_self _ _
    · have hbeq : (k == k2) = false := beq_false_of_ne hk
      rw [hbeq] at h
      simp at h
      exact List.mem_cons_of_mem _ (ih h)

theorem Automato.transGet_eps_subset_epsDsts (s : String) :
    A.transGet (s, EPSILON) ⊆ A.epsDsts := by
  unfold Automato.transGet
  cases hl : A.transitions.lookup (s, EPSILON) with
  | none => simp
  | some v =>
    simp only [Option.getD_some]
    have hmem : ((s, EPSILON), v) ∈ A.transitions := Automato.lookup_mem hl
    have hmem2 : ((s, EPSILON), v) ∈
        A.transitions.filter (fun e => e.1.2 = EPSILON) := by
      refine List.mem_filter.mpr ⟨hmem, by simp⟩
    unfold Automato.epsDsts
    generalize A.transitions.filter (fun e => e.1.2 = EPSILON) = L at hmem2 ⊢
    induction L with
    | nil => simp at hmem2
    | cons e rest ih =>
      rcases List.mem_cons.mp hmem2 with h | h
      · subst h
        intro x hx
        exact Finset.mem_union_left _ hx
      · intro x hx
        exact Finset.mem_union_right _ (ih h hx)

theorem Automato.epsStep_subset (S : Finset String) :
    A.epsStep S ⊆ S ∪ A.epsDsts := by
  unfold Automato.epsStep
  intro x hx
  rcases Finset.mem_union.mp hx with hx | hx
  · exact Finset.mem_union_left _ hx
  · rcases Finset.mem_biUnion.mp hx with ⟨s, _, hmem⟩
    exact Finset.mem_union_right _ (A.transGet_eps_subset_epsDsts s hmem)

theorem Automato.subset_epsIter (n : Nat) (S : Finset String) :
    S ⊆ A.epsIter n S := by
  induction n generalizing S with
  | zero => exact Finset.Subset.refl S
  | succ n ih =>
    exact Finset.Subset.trans (A.subset_epsStep S) (ih (A.epsStep S))

theorem Automato.epsIter_fixed {S : Finset String} (h : A.epsStep S = S) :
    ∀ n, A.epsIter n S = S := by
  intro n
  induction n with
  | zero => rfl
  | succ n ih =>
    show A.epsIter n (A.epsStep S) = S
    rw [h, ih]

theorem Automato.epsIter_saturates :
    ∀ (n : Nat) (S : Finset String), (A.epsDsts \ S).card ≤ n →
      A.epsStep (A.epsIter n S) = A.epsIter n S := by
  intro n
  induction n with
  | zero =>
    intro S h
    have hsub : A.epsDsts ⊆ S := by
      intro x hx
      by_contra hxS
      have : x ∈ A.epsDsts \ S := Finset.mem_sdiff.mpr ⟨hx, hxS⟩
      have : 0 < (A.epsDsts \ S).card := Finset.card_pos.mpr ⟨x, this⟩
      omega
    show A.epsStep S = S
    apply Finset.Subset.antisymm
    · exact Finset.Subset.trans (A.epsStep_subset S)
        (Finset.union_subset (Finset.Subset.refl S) hsub)
    · exact A.subset_epsStep S
  | succ n ih =>
    intro S h
    by_cases hfix : A.epsStep S = S
    · rw [show A.epsIter (n+1) S = A.epsIter n (A.epsStep S) from rfl, hfix,
        A.epsIter_fixed hfix]
      exact hfix
    · have hS : S ⊆ A.epsStep S := A.subset_epsStep S
      have hne : S ≠ A.epsStep S := fun hh => hfix hh.symm
      have hss : S ⊂ A.epsStep S := Finset.ssubset_iff_subset_ne.mpr ⟨hS, hne⟩
      obtain ⟨x, hxStep, hxS⟩ := Finset.exists_of_ssubset hss
      have hxD : x ∈ A.epsDsts := by
        rcases Finset.mem_union.mp (A.epsStep_subset S hxStep) with h1 | h1
        · exact absurd h1 hxS
        · exact h1
      have hmono : A.epsDsts \ A.epsStep S ⊆ A.epsDsts \ S := by
        intro y hy
        rcases Finset.mem_sdiff.mp hy with ⟨h1, h2⟩
        exact Finset.mem_sdiff.mpr ⟨h1, fun hyS => h2 (hS hyS)⟩
      have hstrict : (A.epsDsts \ A.epsStep S).card < (A.epsDsts \ S).card := by
        apply Finset.card_lt_card
        refine ⟨hmono, ?_⟩
        intro hsub2
        have : x ∈ A.epsDsts \ A.epsStep S :=
          hsub2 (Finset.mem_sdiff.mpr ⟨hxD, hxS⟩)
        exact (Finset.mem_sdiff.mp this).2 hxStep
      have : (A.epsDsts \ A.epsStep S).card ≤ n := by omega
      exact ih (A.epsStep S) this

theorem Automato.epsStep_closure (S : Finset String) :
    A.epsStep (A.epsilon_closure S) = A.epsilon_closure S := by
  apply A.epsIter_saturates
  exact Finset.card_le_card (Finset.sdiff_subset)

theorem Automato.subset_epsilon_closure (S : Finset String) :
    S ⊆ A.epsilon_closure S :=
  A.subset_epsIter _ S

theorem Automato.epsilon_closure_idem (S : Finset String) :
    A.epsilon_closure (A.epsilon_closure S) = A.epsilon_closure S :=
  A.epsIter_fixed (A.epsStep_closure S) _

end ClosureLemmas

/-- C5: epsilon-closure is extensive and idempotent: `S ⊆ epsilon_closure S`
and `epsilon_closure (epsilon_closure S) = epsilon_closure S`, for every
automaton and every state set. -/
theorem C5_epsilon_closure_extensive_idempotent (A : Automato) (S : Finset String) :
    S ⊆ A.epsilon_closure S ∧
      A.epsilon_closure (A.epsilon_closure S) = A.epsilon_closure S :=
  ⟨A.subset_epsilon_closure S, A.epsilon_closure_idem S⟩

section SimulateLemmas

variable (A : Automato)

theorem Automato.simStepF_hist {w : List Char} {c c2 : SimCfg}
    (h : A.simStepF w c = some c2) :
    c2.hist = c.hist ++ [(c2.cur, c2.idx)] := by
  unfold Automato.simStepF at h
  by_cases hidx : c.idx < w.length
  · rw [if_pos hidx] at h
    cases hscan : A.scanSyms c.cur (w.drop c.idx) ∅ (A.sortedSyms c.cur) with
    | none => rw [hscan] at h; simp at h
    | some p =>
      rw [hscan] at h
      obtain ⟨sym, nxt⟩ := p
      simp at h
      subst h
      rfl
  · rw [if_neg hidx] at h; simp at h

theorem Automato.iterStep_last (w : List Char) :
    ∀ (n : Nat) (c : SimCfg), c.hist.getLast? = some (c.cur, c.idx) →
      (iterStep (A.simStepF w) n c).hist.getLast? =
        some ((iterStep (A.simStepF w) n c).cur, (iterStep (A.simStepF w) n c).idx) := by
  intro n
  induction n with
  | zero => intro c hc; exact hc
  | succ n ih =>
    intro c hc
    show (iterStep (A.simStepF w) (n+1) c).hist.getLast? = _
    rw [iterStep]
    cases hstep : A.simStepF w c with
    | none => exact hc
    | some c2 =>
      apply ih
      rw [A.simStepF_hist hstep]
      simp

end SimulateLemmas

/-- C1: with a start state set — the source's truthiness guard counts both
`None` and the empty-string name as unset, so the start state is some
non-empty name — `simulate w` is true exactly when the simulation loop's
final configuration — the last history entry — has consumed the whole input
and its active state set meets the final-state set; and for empty input,
`simulate []` is true exactly when the epsilon-closure of the start state
meets the final-state set. -/
theorem C1_simulate_acceptance (A : Automato) (s0 : String) (w : List Char)
    (hstart : A.start_state = some s0) (hs0 : s0 ≠ "") :
    (A.simulate w = true ↔
      ∃ p : Finset String × Nat, (A.simulate_history w).1.getLast? = some p ∧
        p.2 = w.length ∧ (p.1 ∩ A.final_states).Nonempty) ∧
    (A.simulate [] = true ↔
      (A.epsilon_closure {s0} ∩ A.final_states).Nonempty) := by
  constructor
  · unfold Automato.simulate Automato.simulate_history
    rw [hstart]
    simp only [if_neg hs0]
    by_cases hw : w = []
    · subst hw
      simp
    · simp only [hw, if_neg]
      have hlast := A.iterStep_last w w.length
        ⟨A.epsilon_closure {s0}, 0, [(A.epsilon_closure {s0}, 0)]⟩ (by simp)
      simp only [hw, if_false]
      constructor
      · intro h
        simp only [Bool.and_eq_true, decide_eq_true_eq] at h
        exact ⟨_, hlast, h.1, h.2⟩
      · rintro ⟨p, hp, hlen, hne⟩
        rw [hlast] at hp
        injection hp with hp
        subst hp
        simp only [Bool.and_eq_true, decide_eq_true_eq]
        exact ⟨hlen, hne⟩
  · unfold Automato.simulate Automato.simulate_history
    rw [hstart]
    simp [hs0]

/-- Witness for C1 at the concrete automaton `aut1` and input "a". -/
theorem C1_witness :
    aut1.start_state = some "q0" ∧ ("q0" : String) ≠ "" ∧
    ((aut1.simulate ['a'] = true ↔
      ∃ p : Finset String × Nat, (aut1.simulate_history ['a']).1.getLast? = some p ∧
        p.2 = ['a'].length ∧ (p.1 ∩ aut1.final_states).Nonempty) ∧
    (aut1.simulate [] = true ↔
      (aut1.epsilon_closure {"q0"} ∩ aut1.final_states).Nonempty)) :=
  ⟨rfl, by decide, C1_simulate_acceptance aut1 "q0" ['a'] rfl (by decide)⟩

section GreedyMatchLemmas

variable (A : Automato)

theorem listPref_length {p l : List Char} (h : listPref p l = true) :
    p.length ≤ l.length := by
  induction p generalizing l with
  | nil => simp
  | cons a as ih =>
    cases l with
    | nil => simp [listPref] at h
    | cons b bs =>
      rw [listPref, Bool.and_eq_true] at h
      have := ih h.2
      simpa using this

theorem listPref_unique {p q l : List Char} (hp : listPref p l = true)
    (hq : listPref q l = true) (hlen : p.length = q.length) : p = q := by
  induction p generalizing q l with
  | nil =>
    cases q with
    | nil => rfl
    | cons _ _ => simp at hlen
  | cons a as ih =>
    cases q with
    | nil => simp at hlen
    | cons b bs =>
      cases l with
      | nil => simp [listPref] at hp
      | cons c cs =>
        rw [listPref, Bool.and_eq_true, beq_iff_eq] at hp hq
        simp only [List.length_cons, Nat.add_right_cancel_iff] at hlen
        rw [hp.1, hq.1, ih hp.2 hq.2 hlen]

theorem lookup_of_mem {α β : Type*} [BEq α] [LawfulBEq α]
    {l : List (α × β)} {k : α} {v : β} (h : (k, v) ∈ l) :
    ∃ v2, l.lookup k = some v2 := by
  induction l with
  | nil => simp at h
  | cons e rest ih =>
    rw [List.lookup]
    by_cases hk : k = e.1
    · subst hk
      simp
    · have hbeq : (k == e.1) = false := beq_false_of_ne hk
      rw [hbeq]
      rcases List.mem_cons.mp h with h1 | h1
      · exact absurd (congrArg Prod.fst h1) hk
      · exact ih h1

theorem Automato.mem_candidateSyms {S : Finset String} {sym : String} :
    sym ∈ A.candidateSyms S ↔
      sym ≠ EPSILON ∧ ∃ s v, s ∈ S ∧ ((s, sym), v) ∈ A.transitions := by
  unfold Automato.candidateSyms
  rw [List.mem_dedup]
  constructor
  · intro h
    rcases List.mem_map.mp h with ⟨k, hk, hk2⟩
    rcases List.mem_filter.mp hk with ⟨hk3, hk4⟩
    simp only [Bool.and_eq_true, decide_eq_true_eq] at hk4
    rcases List.mem_map.mp hk3 with ⟨e, he, he2⟩
    subst hk2
    refine ⟨hk4.2, k.1, e.2, hk4.1, ?_⟩
    show (k, e.2) ∈ A.transitions
    exact (Prod.ext he2 rfl : e = (k, e.2)) ▸ he
  · rintro ⟨hne, s, v, hs, hmem⟩
    refine List.mem_map.mpr ⟨(s, sym), ?_, rfl⟩
    refine List.mem_filter.mpr ⟨?_, ?_⟩
    · exact List.mem_map.mpr ⟨((s, sym), v), hmem, rfl⟩
    · simp only [Bool.and_eq_true, decide_eq_true_eq]
      exact ⟨hs, hne⟩

theorem Automato.transGet_subset_move {S : Finset String} {s sym : String}
    (hs : s ∈ S) : A.transGet (s, sym) ⊆ A.move S sym := by
  intro x hx
  exact Finset.mem_biUnion.mpr ⟨s, hs, hx⟩

theorem Automato.candidate_move_ne
    (hvals : ∀ e ∈ A.transitions, e.2 ≠ (∅ : Finset String))
    {S : Finset String} {sym : String} (hc : sym ∈ A.candidateSyms S) :
    A.move S sym ≠ ∅ := by
  rcases (A.mem_candidateSyms).mp hc with ⟨_, s, v, hs, hmem⟩
  obtain ⟨v2, hl⟩ := lookup_of_mem hmem
  have hv2 : ((s, sym), v2) ∈ A.transitions := Automato.lookup_mem hl
  have hne : v2 ≠ ∅ := hvals _ hv2
  have hsub : A.transGet (s, sym) ⊆ A.move S sym := A.transGet_subset_move hs
  have : A.transGet (s, sym) = v2 := by
    unfold Automato.transGet
    rw [hl]
    rfl
  intro hmove
  apply hne
  have hsub2 : v2 ⊆ A.move S sym := this ▸ hsub
  rw [hmove] at hsub2
  exact Finset.subset_empty.mp hsub2

theorem Automato.scanSyms_eq_find {S : Finset String} {rem : List Char}
    {l : List String} (hne : ∀ sym ∈ l, A.move S sym ≠ ∅) :
    A.scanSyms S rem ∅ l =
      (l.find? (fun sym => listPref sym.data rem)).map
        (fun sym => (sym, A.move S sym)) := by
  induction l with
  | nil => rfl
  | cons sym rest ih =>
    rw [Automato.scanSyms, List.find?]
    by_cases hm : listPref sym.data rem = true
    · rw [if_pos hm, hm]
      have h1 : (∅ : Finset String) ∪ A.move S sym = A.move S sym :=
        Finset.empty_union _
      rw [h1, if_neg (hne sym (List.mem_cons_self _ _))]
      rfl
    · rw [if_neg hm]
      have hm2 : listPref sym.data rem = false := by
        cases h : listPref sym.data rem
        · rfl
        · exact absurd h hm
      rw [hm2]
      exact ih (fun t ht => hne t (List.mem_cons_of_mem _ ht))

theorem find_sorted_max {l : List String}
    (h : l.Pairwise (fun a b => b.length ≤ a.length))
    {p : String → Bool} {sym : String} (hf : l.find? p = some sym) :
    ∀ t ∈ l, p t = true → t.length ≤ sym.length := by
  induction l with
  | nil => simp at hf
  | cons a rest ih =>
    rw [List.find?] at hf
    rcases List.pairwise_cons.mp h with ⟨hhead, htail⟩
    cases hp : p a with
    | true =>
      rw [hp] at hf
      simp at hf
      subst hf
      intro t ht _
      rcases List.mem_cons.mp ht with h1 | h1
      · exact h1 ▸ Nat.le.refl
      · exact hhead t h1
    | false =>
      rw [hp] at hf
      intro t ht hpt
      rcases List.mem_cons.mp ht with h1 | h1
      · subst h1; rw [hpt] at hp; cases hp
      · exact ih htail hf t h1 hpt

theorem Automato.sortedSyms_pairwise (S : Finset String) :
    (A.sortedSyms S).Pairwise (fun a b => b.length ≤ a.length) := by
  have := @List.sorted_mergeSort String
    (fun a b : String => decide (b.length ≤ a.length))
    (fun a b c hab hbc => by
      simp only [decide_eq_true_eq] at *
      omega)
    (fun a b => by
      simp only [Bool.or_eq_true, decide_eq_true_eq]
      omega)
    (A.candidateSyms S)
  refine this.imp ?_
  intro a b hab
  simpa using hab

theorem specSorted_pairwise (l : List String) :
    (specSorted l).Pairwise (fun a b => b.length ≤ a.length) := by
  have := @List.sorted_mergeSort String
    (fun a b : String =>
      decide (b.length < a.length) || (decide (a.length = b.length) && decide (a ≤ b)))
    (fun a b c hab hbc => by
      simp only [Bool.or_eq_true, Bool.and_eq_true, decide_eq_true_eq] at *
      rcases hab with h1 | h1 <;> rcases hbc with h2 | h2
      · exact Or.inl (by omega)
      · exact Or.inl (by omega)
      · exact Or.inl (by omega)
      · exact Or.inr ⟨by omega, le_trans h1.2 h2.2⟩)
    (fun a b => by
      simp only [Bool.or_eq_true, Bool.and_eq_true, decide_eq_true_eq]
      rcases Nat.lt_trichotomy a.length b.length with h | h | h
      · exact Or.inr (Or.inl (by omega))
      · rcases le_total a b with h2 | h2
        · exact Or.inl (Or.inr ⟨h, h2⟩)
        · exact Or.inr (Or.inr ⟨h.symm, h2⟩)
      · exact Or.inl (Or.inl (by omega)))
    l
  refine this.imp ?_
  intro a b hab
  simp only [Bool.or_eq_true, Bool.and_eq_true, decide_eq_true_eq] at hab
  rcases hab with h | h
  · omega
  · omega

theorem find_match_eq {l1 l2 : List String} {rem : List Char}
    (h1 : l1.Pairwise (fun a b => b.length ≤ a.length))
    (h2 : l2.Pairwise (fun a b => b.length ≤ a.length))
    (hmem : ∀ x, x ∈ l1 ↔ x ∈ l2) :
    l1.find? (fun sym => listPref sym.data rem) =
      l2.find? (fun sym => listPref sym.data rem) := by
  cases hf1 : l1.find? (fun sym => listPref sym.data rem) with
  | none =>
    rw [List.find?_eq_none] at hf1
    cases hf2 : l2.find? (fun sym => listPref sym.data rem) with
    | none => rfl
    | some s2 =>
      have hm := List.mem_of_find?_eq_some hf2
      have hp := List.find?_some hf2
      exact absurd hp (hf1 s2 ((hmem s2).mpr hm))
  | some s1 =>
    cases hf2 : l2.find? (fun sym => listPref sym.data rem) with
    | none =>
      rw [List.find?_eq_none] at hf2
      have hm := List.mem_of_find?_eq_some hf1
      have hp := List.find?_some hf1
      exact absurd hp (hf2 s1 ((hmem s1).mp hm))
    | some s2 =>
      have hm1 := List.mem_of_find?_eq_some hf1
      have hp1 := List.find?_some hf1
      have hm2 := List.mem_of_find?_eq_some hf2
      have hp2 := List.find?_some hf2
      have hle1 : s2.length ≤ s1.length :=
        find_sorted_max h1 hf1 s2 ((hmem s2).mpr hm2) hp2
      have hle2 : s1.length ≤ s2.length :=
        find_sorted_max h2 hf2 s1 ((hmem s1).mp hm1) hp1
      have hlen : s1.data.length = s2.data.length := by
        have e1 : s1.length = s1.data.length := rfl
        have e2 : s2.length = s2.data.length := rfl
        omega
      have : s1.data = s2.data := listPref_unique hp1 hp2 hlen
      rw [String.ext this]

theorem Automato.scan_eq_specFirstMatch
    (hvals : ∀ e ∈ A.transitions, e.2 ≠ (∅ : Finset String))
    (S : Finset String) (rem : List Char) :
    A.scanSyms S rem ∅ (A.sortedSyms S) =
      (A.specFirstMatch S rem).map (fun sym => (sym, A.move S sym)) := by
  have hmemS : ∀ x, x ∈ A.sortedSyms S ↔ x ∈ A.candidateSyms S := by
    intro x
    exact List.mem_mergeSort
  have hne : ∀ sym ∈ A.sortedSyms S, A.move S sym ≠ ∅ := by
    intro sym hs
    exact A.candidate_move_ne hvals ((hmemS sym).mp hs)
  rw [A.scanSyms_eq_find hne]
  unfold Automato.specFirstMatch
  congr 1
  apply find_match_eq (A.sortedSyms_pairwise S) (specSorted_pairwise _)
  intro x
  rw [hmemS x]
  unfold specSorted
  exact (List.mem_mergeSort).symm

end GreedyMatchLemmas

/-- C4: at each simulation step the consumed symbol is the first symbol, in
the order "length descending, ties by default string ordering", whose text
is a prefix of the unconsumed remainder; the cursor advances by its length
and the new active set is the move under that single symbol (no other
candidate is tried); the step is stuck exactly when no candidate matches. -/
theorem C4_greedy_longest_match (A : Automato) (w : List Char) (c : SimCfg)
    (hvals : ∀ e ∈ A.transitions, e.2 ≠ (∅ : Finset String))
    (hidx : c.idx < w.length) :
    (∀ c2 : SimCfg, A.simStepF w c = some c2 →
      ∃ sym, A.specFirstMatch c.cur (w.drop c.idx) = some sym ∧
        c2.cur = A.epsilon_closure (A.move c.cur sym) ∧
        c2.idx = c.idx + sym.length ∧
        c2.hist = c.hist ++ [(c2.cur, c2.idx)]) ∧
    (A.simStepF w c = none ↔ A.specFirstMatch c.cur (w.drop c.idx) = none) := by
  have hscan := A.scan_eq_specFirstMatch hvals c.cur (w.drop c.idx)
  constructor
  · intro c2 h
    unfold Automato.simStepF at h
    rw [if_pos hidx, hscan] at h
    cases hsfm : A.specFirstMatch c.cur (w.drop c.idx) with
    | none => rw [hsfm] at h; simp at h
    | some sym =>
      rw [hsfm] at h
      simp only [Option.map_some] at h
      injection h with h
      refine ⟨sym, rfl, ?_, ?_, ?_⟩ <;> rw [← h]
  · unfold Automato.simStepF
    rw [if_pos hidx, hscan]
    cases hsfm : A.specFirstMatch c.cur (w.drop c.idx) with
    | none => simp
    | some sym => simp

/-- Witness for C4 at `aut1`, input "a", the initial configuration. -/
theorem C4_witness :
    (∀ e ∈ aut1.transitions, e.2 ≠ (∅ : Finset String)) ∧ (0 < ['a'].length) ∧
    ((∀ c2 : SimCfg, aut1.simStepF ['a'] ⟨{"q0"}, 0, [({"q0"}, 0)]⟩ = some c2 →
      ∃ sym, aut1.specFirstMatch {"q0"} (['a'].drop 0) = some sym ∧
        c2.cur = aut1.epsilon_closure (aut1.move {"q0"} sym) ∧
        c2.idx = 0 + sym.length ∧
        c2.hist = [({"q0"}, 0)] ++ [(c2.cur, c2.idx)]) ∧
    (aut1.simStepF ['a'] ⟨{"q0"}, 0, [({"q0"}, 0)]⟩ = none ↔
      aut1.specFirstMatch {"q0"} (['a'].drop 0) = none)) :=
  ⟨by decide, by decide,
    C4_greedy_longest_match aut1 ['a'] ⟨{"q0"}, 0, [({"q0"}, 0)]⟩ (by decide) (by decide)⟩

section MooreLemmas

variable (M : MaquinaMoore)

theorem MaquinaMoore.mooreStepF_hist {w : List Char} {c c2 : MooreCfg}
    (h : M.simStepF w c = some c2) :
    c2.hist = c.hist ++ [(c2.cur, c2.out, c2.idx)] := by
  unfold MaquinaMoore.simStepF at h
  split at h
  · split at h
    · simp at h
    · split at h
      · simp at h
      · simp only [Option.some.injEq] at h
        subst h
        rfl
  · simp at h

theorem MaquinaMoore.iterStep_head (w : List Char) :
    ∀ (n : Nat) (c : MooreCfg), c.hist ≠ [] →
      (iterStep (M.simStepF w) n c).hist.head? = c.hist.head? ∧
        (iterStep (M.simStepF w) n c).hist ≠ [] := by
  intro n
  induction n with
  | zero => intro c hc; exact ⟨rfl, hc⟩
  | succ n ih =>
    intro c hc
    show ((iterStep (M.simStepF w) (n+1) c).hist.head? = _) ∧ _
    rw [iterStep]
    cases hstep : M.simStepF w c with
    | none => exact ⟨rfl, hc⟩
    | some c2 =>
      have hh := M.mooreStepF_hist hstep
      have hc2 : c2.hist ≠ [] := by
        rw [hh]
        simp
      obtain ⟨ih1, ih2⟩ := ih c2 hc2
      refine ⟨?_, ih2⟩
      rw [ih1, hh]
      cases hcl : c.hist with
      | nil => exact absurd hcl hc
      | cons a t => simp

end MooreLemmas

/-- C9: a Moore machine with a start state — the source's truthiness guard
counts both `None` and the empty-string name as unset, so the start state
is some non-empty name — begins its history with the start state's own
output before any input is consumed; on empty input the history is exactly
that single entry and the final output is the start state's output
symbol. -/
theorem C9_moore_initial_output (M : MaquinaMoore) (s0 o : String) (w : List Char)
    (hstart : M.start_state = some s0) (hs0 : s0 ≠ "")
    (hout : M.output_function.lookup s0 = some o) :
    (M.simulate_history w).1.head? = some (s0, o, 0) ∧
    M.simulate_history [] = ([(s0, o, 0)], some o) := by
  have houtget : M.outGet s0 = o := by
    unfold MaquinaMoore.outGet
    rw [hout]
    rfl
  constructor
  · unfold MaquinaMoore.simulate_history
    rw [hstart]
    simp only [if_neg hs0, houtget]
    have := M.iterStep_head w w.length ⟨s0, o, 0, [(s0, o, 0)]⟩ (by simp)
    rw [this.1]
    rfl
  · unfold MaquinaMoore.simulate_history
    rw [hstart]
    simp only [if_neg hs0, houtget]
    rfl

/-- The one-state Moore machine with start-state output "0", built through
the public operations. -/
def moore1 : MaquinaMoore := MaquinaMoore.empty.add_state "m0" "0" true

/-- Witness for C9 at `moore1` and input "x". -/
theorem C9_witness :
    moore1.start_state = some "m0" ∧ ("m0" : String) ≠ "" ∧
    moore1.output_function.lookup "m0" = some "0" ∧
    ((moore1.simulate_history ['x']).1.head? = some ("m0", "0", 0) ∧
      moore1.simulate_history [] = ([("m0", "0", 0)], some "0")) :=
  ⟨rfl, by decide, rfl,
    C9_moore_initial_output moore1 "m0" "0" ['x'] rfl (by decide) rfl⟩

/-- C10: `add_state` with `is_start=False` still auto-assigns the start
state for NFA/DFA and Moore machines whenever none is set, while the PDA's
`add_state` never touches the start state unless `is_start=True`, because
its auto-assignment condition tests emptiness of the state set after the
insertion. -/
theorem C10_add_state_auto_start (A : Automato) (M : MaquinaMoore)
    (P : AutomatoPilha) (s o : String) :
    (A.start_state = none → (A.add_state s false false).start_state = some s) ∧
    (M.start_state = none → (M.add_state s o false).start_state = some s) ∧
    ((P.add_state s false false).start_state = P.start_state) := by
  refine ⟨?_, ?_, ?_⟩
  · intro h
    unfold Automato.add_state
    rw [h]
    rfl
  · intro h
    unfold MaquinaMoore.add_state
    rw [h]
    rfl
  · unfold AutomatoPilha.add_state
    have hne : insert s P.states ≠ ∅ := Finset.insert_ne_empty s P.states
    simp [hne]

/-- Witness for C10 at the empty automata and state "q0". -/
theorem C10_witness :
    (Automato.empty.start_state = none →
      (Automato.empty.add_state "q0" false false).start_state = some "q0") ∧
    (MaquinaMoore.empty.start_state = none →
      (MaquinaMoore.empty.add_state "q0" "0" false).start_state = some "q0") ∧
    ((AutomatoPilha.empty.add_state "q0" false false).start_state =
      AutomatoPilha.empty.start_state) :=
  C10_add_state_auto_start Automato.empty MaquinaMoore.empty AutomatoPilha.empty "q0" "0"

/-- C7: for every automaton kind, `add_transition` with a missing source or
destination state raises and returns the structure unchanged (the check
precedes every mutation), and succeeds when both states are present. -/
theorem C7_add_transition_checks (A : Automato) (src sym dst : String)
    (M : MaquinaMoore) (m1 m2 m3 : String)
    (P : AutomatoPilha) (p1 p2 p3 p4 p5 : String) :
    ((src ∉ A.states ∨ dst ∉ A.states) →
      A.add_transition_run src sym dst = (.error "Estado inexistente.", A)) ∧
    (src ∈ A.states → dst ∈ A.states → (A.add_transition_run src sym dst).1 = .ok ()) ∧
    ((m1 ∉ M.states ∨ m3 ∉ M.states) →
      M.add_transition_run m1 m2 m3 =
        (.error "Estado de origem ou destino nao existe.", M)) ∧
    (m1 ∈ M.states → m3 ∈ M.states → (M.add_transition_run m1 m2 m3).1 = .ok ()) ∧
    ((p1 ∉ P.states ∨ p4 ∉ P.states) →
      P.add_transition_run p1 p2 p3 p4 p5 =
        (.error "Estado de origem ou destino inválido.", P)) ∧
    (p1 ∈ P.states → p4 ∈ P.states →
      (P.add_transition_run p1 p2 p3 p4 p5).1 = .ok ()) := by
  refine ⟨?_, ?_, ?_, ?_, ?_, ?_⟩
  · intro h
    have hnot : ¬ (src ∈ A.states ∧ dst ∈ A.states) := by tauto
    unfold Automato.add_transition_run Automato.add_transition
    rw [if_neg hnot]
  · intro h1 h2
    unfold Automato.add_transition_run Automato.add_transition
    rw [if_pos ⟨h1, h2⟩]
  · intro h
    have hnot : ¬ (m1 ∈ M.states ∧ m3 ∈ M.states) := by tauto
    unfold MaquinaMoore.add_transition_run MaquinaMoore.add_transition
    rw [if_neg hnot]
  · intro h1 h2
    unfold MaquinaMoore.add_transition_run MaquinaMoore.add_transition
    rw [if_pos ⟨h1, h2⟩]
  · intro h
    have hnot : ¬ (p1 ∈ P.states ∧ p4 ∈ P.states) := by tauto
    unfold AutomatoPilha.add_transition_run AutomatoPilha.add_transition
    rw [if_neg hnot]
  · intro h1 h2
    unfold AutomatoPilha.add_transition_run AutomatoPilha.add_transition
    rw [if_pos ⟨h1, h2⟩]

/-- Witness for C7: missing-state calls on one-state automata error and
leave the structure unchanged. -/
theorem C7_witness :
    (("zz" ∉ aut1.states ∨ "q1" ∉ aut1.states) →
      aut1.add_transition_run "zz" "a" "q1" = (.error "Estado inexistente.", aut1)) ∧
    ("zz" ∈ aut1.states → "q1" ∈ aut1.states →
      (aut1.add_transition_run "zz" "a" "q1").1 = .ok ()) ∧
    (("m0" ∉ moore1.states ∨ "zz" ∉ moore1.states) →
      moore1.add_transition_run "m0" "a" "zz" =
        (.error "Estado de origem ou destino nao existe.", moore1)) ∧
    ("m0" ∈ moore1.states → "zz" ∈ moore1.states →
      (moore1.add_transition_run "m0" "a" "zz").1 = .ok ()) ∧
    (("zz" ∉ (AutomatoPilha.empty.add_state "p0" false false).states ∨
        "p0" ∉ (AutomatoPilha.empty.add_state "p0" false false).states) →
      (AutomatoPilha.empty.add_state "p0" false false).add_transition_run
          "zz" "a" "&" "p0" "&" =
        (.error "Estado de origem ou destino inválido.",
          AutomatoPilha.empty.add_state "p0" false false)) ∧
    ("zz" ∈ (AutomatoPilha.empty.add_state "p0" false false).states →
      "p0" ∈ (AutomatoPilha.empty.add_state "p0" false false).states →
      ((AutomatoPilha.empty.add_state "p0" false false).add_transition_run
          "zz" "a" "&" "p0" "&").1 = .ok ()) :=
  C7_add_transition_checks aut1 "zz" "a" "q1" moore1 "m0" "a" "zz"
    (AutomatoPilha.empty.add_state "p0" false false) "zz" "a" "&" "p0" "&"

section DictLemmas

theorem listOf_toFinset (s : Finset String) : (listOf s).toFinset = s := by
  ext a
  simp [listOf, Finset.mem_sort]

theorem mem_listOf {s : Finset String} {a : String} : a ∈ listOf s ↔ a ∈ s := by
  simp [listOf, Finset.mem_sort]

theorem listOf_ne_nil {s : Finset String} (h : s ≠ ∅) : listOf s ≠ [] := by
  intro hnil
  apply h
  ext a
  simp only [Finset.not_mem_empty, iff_false]
  intro ha
  have hmem : a ∈ listOf s := mem_listOf.mpr ha
  rw [hnil] at hmem
  simp at hmem

theorem pairListOf_toFinset (s : Finset (String × String)) :
    (pairListOf s).toFinset = s := by
  ext a
  simp [pairListOf, Finset.mem_sort]

theorem keysOf_cons {α β : Type*} (e : α × β) (l : List (α × β)) :
    keysOf (e :: l) = e.1 :: keysOf l := rfl

theorem keysOf_append {α β : Type*} (l1 l2 : List (α × β)) :
    keysOf (l1 ++ l2) = keysOf l1 ++ keysOf l2 := List.map_append _ _ _

theorem dictAdd_of_not_mem {α β : Type*} [DecidableEq α] [DecidableEq β]
    {l : List (α × Finset β)} {k : α} (h : k ∉ keysOf l) (d : β) :
    dictAdd l k d = l ++ [(k, ({d} : Finset β))] := by
  induction l with
  | nil => rfl
  | cons e rest ih =>
    obtain ⟨k2, v2⟩ := e
    have hk : k2 ≠ k := by
      intro he
      exact h (by rw [keysOf_cons, he]; exact List.mem_cons_self _ _)
    show (if k2 = k then _ else _) = _
    rw [if_neg hk, ih (fun hmem => h (by rw [keysOf_cons]; exact List.mem_cons_of_mem _ hmem))]
    rfl

theorem dictAdd_append {α β : Type*} [DecidableEq α] [DecidableEq β]
    {acc : List (α × Finset β)} {k : α} (h : k ∉ keysOf acc) (s : Finset β) (d : β) :
    dictAdd (acc ++ [(k, s)]) k d = acc ++ [(k, insert d s)] := by
  induction acc with
  | nil => simp [dictAdd]
  | cons e rest ih =>
    obtain ⟨k2, v2⟩ := e
    have hk : k2 ≠ k := by
      intro he
      exact h (by rw [keysOf_cons, he]; exact List.mem_cons_self _ _)
    show (if k2 = k then _ else _) = _
    rw [if_neg hk]
    show (k2, v2) :: dictAdd (rest ++ [(k, s)]) k d = (k2, v2) :: rest ++ [(k, insert d s)]
    rw [ih (fun hmem => h (by rw [keysOf_cons]; exact List.mem_cons_of_mem _ hmem))]
    simp

theorem dictSet_of_not_mem {α β : Type*} [DecidableEq α]
    {l : List (α × β)} {k : α} (h : k ∉ keysOf l) (v : β) :
    dictSet l k v = l ++ [(k, v)] := by
  induction l with
  | nil => rfl
  | cons e rest ih =>
    obtain ⟨k2, v2⟩ := e
    have hk : k2 ≠ k := by
      intro he
      exact h (by rw [keysOf_cons, he]; exact List.mem_cons_self _ _)
    show (if k2 = k then _ else _) = _
    rw [if_neg hk, ih (fun hmem => h (by rw [keysOf_cons]; exact List.mem_cons_of_mem _ hmem))]
    rfl

theorem insertT_eq_dictAdd (l : List ((String × String) × Finset String))
    (k : String × String) (d : String) : insertT l k d = dictAdd l k d := by
  induction l with
  | nil => rfl
  | cons e rest ih =>
    obtain ⟨k2, v2⟩ := e
    show (if k2 = k then _ else _) = (if k2 = k then _ else _)
    by_cases hk : k2 = k
    · rw [if_pos hk, if_pos hk]
    · rw [if_neg hk, if_neg hk, ih]

theorem foldl_insert_eq {β : Type*} [DecidableEq β] :
    ∀ (ds : List β) (s : Finset β),
      ds.foldl (fun s2 d => insert d s2) s = ds.toFinset ∪ s := by
  intro ds
  induction ds with
  | nil => intro s; simp
  | cons d rest ih =>
    intro s
    rw [List.foldl_cons, ih]
    ext a
    simp only [Finset.mem_union, List.mem_toFinset, Finset.mem_insert, List.toFinset_cons,
      List.mem_cons]
    tauto

theorem dictAdd_foldl {α β : Type*} [DecidableEq α] [DecidableEq β]
    {acc : List (α × Finset β)} {k : α} (h : k ∉ keysOf acc) :
    ∀ (ds : List β) (s : Finset β),
      ds.foldl (fun a d => dictAdd a k d) (acc ++ [(k, s)]) =
        acc ++ [(k, ds.toFinset ∪ s)] := by
  intro ds
  induction ds with
  | nil => intro s; simp
  | cons d rest ih =>
    intro s
    rw [List.foldl_cons, dictAdd_append h, ih]
    have : rest.toFinset ∪ insert d s = (d :: rest).toFinset ∪ s := by
      ext a
      simp only [Finset.mem_union, List.mem_toFinset, Finset.mem_insert, List.toFinset_cons,
        List.mem_cons]
      tauto
    rw [this]

theorem dictAdd_foldl_full {α β : Type*} [DecidableEq α] [DecidableEq β]
    {acc : List (α × Finset β)} {k : α} (h : k ∉ keysOf acc)
    {ds : List β} (hds : ds ≠ []) :
    ds.foldl (fun a d => dictAdd a k d) acc = acc ++ [(k, ds.toFinset)] := by
  cases ds with
  | nil => exact absurd rfl hds
  | cons d rest =>
    rw [List.foldl_cons, dictAdd_of_not_mem h, dictAdd_foldl h]
    have : rest.toFinset ∪ ({d} : Finset β) = (d :: rest).toFinset := by
      ext a
      simp only [Finset.mem_union, List.mem_toFinset, Finset.mem_singleton,
        List.toFinset_cons, Finset.mem_insert, List.mem_cons]
      tauto
    rw [this]

end DictLemmas

section RoundTripNfa

theorem nfa_rebuild :
    ∀ (l acc : List ((String × String) × Finset String)),
      (keysOf l).Nodup → (∀ e ∈ l, e.2 ≠ (∅ : Finset String)) →
      (∀ kk ∈ keysOf l, kk ∉ keysOf acc) →
      (l.map (fun e => (e.1.1, e.1.2, listOf e.2))).foldl nfaFromJsonStep acc = acc ++ l := by
  intro l
  induction l with
  | nil => intro acc _ _ _; simp
  | cons e rest ih =>
    intro acc hnd hne hfresh
    rw [List.map_cons, List.foldl_cons]
    have hk_not : e.1 ∉ keysOf acc :=
      hfresh e.1 (by rw [keysOf_cons]; exact List.mem_cons_self _ _)
    have hds : listOf e.2 ≠ [] := listOf_ne_nil (hne e (List.mem_cons_self _ _))
    have hstep : nfaFromJsonStep acc (e.1.1, e.1.2, listOf e.2) = acc ++ [(e.1, e.2)] := by
      unfold nfaFromJsonStep
      have hfn : (fun a dst => insertT a ((e.1.1, e.1.2, listOf e.2).1,
          (e.1.1, e.1.2, listOf e.2).2.1) dst) = (fun a dst => dictAdd a e.1 dst) := by
        funext a dst
        exact insertT_eq_dictAdd a e.1 dst
      rw [hfn, dictAdd_foldl_full hk_not hds, listOf_toFinset]
    rw [hstep]
    rw [keysOf_cons] at hnd hfresh
    have hnd2 : (keysOf rest).Nodup := hnd.of_cons
    have hne2 : ∀ e2 ∈ rest, e2.2 ≠ (∅ : Finset String) :=
      fun e2 he2 => hne e2 (List.mem_cons_of_mem _ he2)
    have hfresh2 : ∀ kk ∈ keysOf rest, kk ∉ keysOf (acc ++ [(e.1, e.2)]) := by
      intro kk hkk
      rw [keysOf_append]
      intro hmem
      rcases List.mem_append.mp hmem with h1 | h1
      · exact hfresh kk (List.mem_cons_of_mem _ hkk) h1
      · have : kk = e.1 := by
          rcases List.mem_singleton.mp (by simpa [keysOf] using h1) with h2
          exact h2
        rw [this] at hkk
        exact (List.nodup_cons.mp hnd).1 hkk
    rw [ih (acc ++ [(e.1, e.2)]) hnd2 hne2 hfresh2]
    simp

theorem Automato.from_to_json (A : Automato)
    (hnd : (keysOf A.transitions).Nodup)
    (hne : ∀ e ∈ A.transitions, e.2 ≠ (∅ : Finset String)) :
    Automato.from_json A.to_json = A := by
  have hfold := nfa_rebuild A.transitions [] hnd hne (by intro kk _; simp [keysOf])
  show Automato.mk _ _ _ _ _ = A
  unfold Automato.from_json Automato.to_json at *
  simp only [List.nil_append] at hfold
  rw [hfold, listOf_toFinset, listOf_toFinset, listOf_toFinset]

end RoundTripNfa

section RoundTripMoore

theorem moore_fold_states (d0 : Option String) :
    ∀ (L : List (String × String)) (m : MaquinaMoore),
      (L.foldl (mooreStateStep d0) m).states = m.states ∪ (keysOf L).toFinset := by
  intro L
  induction L with
  | nil => intro m; simp [keysOf]
  | cons p rest ih =>
    intro m
    rw [List.foldl_cons, ih]
    show (insert p.1 m.states) ∪ (keysOf rest).toFinset = _
    ext a
    rw [keysOf_cons]
    simp only [Finset.mem_union, Finset.mem_insert, List.toFinset_cons, List.mem_toFinset,
      List.mem_cons]
    tauto

theorem moore_fold_transitions (d0 : Option String) :
    ∀ (L : List (String × String)) (m : MaquinaMoore),
      (L.foldl (mooreStateStep d0) m).transitions = m.transitions := by
  intro L
  induction L with
  | nil => intro m; rfl
  | cons p rest ih => intro m; rw [List.foldl_cons, ih]; rfl

theorem moore_fold_output (d0 : Option String) :
    ∀ (L : List (String × String)) (m : MaquinaMoore),
      (keysOf L).Nodup →
      (∀ kk ∈ keysOf L, kk ∉ keysOf m.output_function) →
      (L.foldl (mooreStateStep d0) m).output_function = m.output_function ++ L := by
  intro L
  induction L with
  | nil => intro m _ _; simp
  | cons p rest ih =>
    intro m hnd hfresh
    rw [List.foldl_cons]
    have hk_not : p.1 ∉ keysOf m.output_function :=
      hfresh p.1 (by rw [keysOf_cons]; exact List.mem_cons_self _ _)
    have hstep : (mooreStateStep d0 m p).output_function
        = m.output_function ++ [p] := by
      show dictSet m.output_function p.1 p.2 = _
      rw [dictSet_of_not_mem hk_not]
    rw [keysOf_cons] at hnd hfresh
    have hfresh2 : ∀ kk ∈ keysOf rest,
        kk ∉ keysOf (mooreStateStep d0 m p).output_function := by
      intro kk hkk
      rw [hstep, keysOf_append]
      intro hmem
      rcases List.mem_append.mp hmem with h1 | h1
      · exact hfresh kk (List.mem_cons_of_mem _ hkk) h1
      · have : kk = p.1 := by simpa [keysOf] using h1
        rw [this] at hkk
        exact (List.nodup_cons.mp hnd).1 hkk
    rw [ih (mooreStateStep d0 m p) hnd.of_cons hfresh2, hstep]
    simp

theorem moore_fold_start_preserved (s0 : String) :
    ∀ (L : List (String × String)) (m : MaquinaMoore),
      m.start_state = some s0 →
      (L.foldl (mooreStateStep (some s0)) m).start_state = some s0 := by
  intro L
  induction L with
  | nil => intro m h; exact h
  | cons p rest ih =>
    intro m h
    rw [List.foldl_cons]
    apply ih
    show (if decide (some s0 = some p.1) || m.start_state.isNone then some p.1
      else m.start_state) = some s0
    rw [h]
    by_cases he : s0 = p.1
    · subst he
      simp
    · have : decide (some s0 = some p.1) = false := by
        simp [he]
      rw [this]
      simp

theorem moore_fold_start_sets (s0 : String) :
    ∀ (L : List (String × String)) (m : MaquinaMoore),
      s0 ∈ keysOf L →
      (L.foldl (mooreStateStep (some s0)) m).start_state = some s0 := by
  intro L
  induction L with
  | nil => intro m h; simp [keysOf] at h
  | cons p rest ih =>
    intro m h
    rw [List.foldl_cons]
    by_cases he : p.1 = s0
    · apply moore_fold_start_preserved
      show (if decide (some s0 = some p.1) || m.start_state.isNone then some p.1
        else m.start_state) = some s0
      rw [he]
      simp
    · apply ih
      rw [keysOf_cons] at h
      rcases List.mem_cons.mp h with h1 | h1
      · exact absurd h1.symm he
      · exact h1

theorem moore_fold_trans :
    ∀ (ts : List (String × String × String)) (m : MaquinaMoore),
      (∀ t ∈ ts, t.1 ∈ m.states ∧ t.2.2 ∈ m.states) →
      (ts.map (fun t => (t.1, t.2.1))).Nodup →
      (∀ kk ∈ ts.map (fun t => ((t.1 : String), (t.2.1 : String))),
        kk ∉ keysOf m.transitions) →
      (ts.foldl mooreTransStep m).states = m.states ∧
      (ts.foldl mooreTransStep m).start_state = m.start_state ∧
      (ts.foldl mooreTransStep m).output_function = m.output_function ∧
      (ts.foldl mooreTransStep m).transitions
        = m.transitions ++ ts.map (fun t => ((t.1, t.2.1), t.2.2)) := by
  intro ts
  induction ts with
  | nil => intro m _ _ _; exact ⟨rfl, rfl, rfl, by simp⟩
  | cons t rest ih =>
    intro m hmem hnd hfresh
    obtain ⟨ht1, ht2⟩ := hmem t (List.mem_cons_self _ _)
    have hstep : mooreTransStep m t =
        { m with
          input_alphabet := insert t.2.1 m.input_alphabet
          transitions := dictSet m.transitions (t.1, t.2.1) t.2.2 } := by
      unfold mooreTransStep MaquinaMoore.add_transition
      rw [if_pos ⟨ht1, ht2⟩]
      rfl
    have hk_not : (t.1, t.2.1) ∉ keysOf m.transitions :=
      hfresh (t.1, t.2.1) (List.mem_map.mpr ⟨t, List.mem_cons_self _ _, rfl⟩)
    have htr : (mooreTransStep m t).transitions
        = m.transitions ++ [((t.1, t.2.1), t.2.2)] := by
      rw [hstep]
      exact dictSet_of_not_mem hk_not _
    rw [List.foldl_cons]
    have hmem2 : ∀ t2 ∈ rest, t2.1 ∈ (mooreTransStep m t).states ∧
        t2.2.2 ∈ (mooreTransStep m t).states := by
      intro t2 h2
      rw [hstep]
      exact hmem t2 (List.mem_cons_of_mem _ h2)
    have hnd2 : (rest.map (fun t2 => (t2.1, t2.2.1))).Nodup := by
      rw [List.map_cons] at hnd
      exact hnd.of_cons
    have hfresh2 : ∀ kk ∈ rest.map (fun t2 => ((t2.1 : String), (t2.2.1 : String))),
        kk ∉ keysOf (mooreTransStep m t).transitions := by
      intro kk hkk
      rw [htr, keysOf_append]
      intro hmem3
      rcases List.mem_append.mp hmem3 with h1 | h1
      · exact hfresh kk (List.mem_cons_of_mem _ hkk) h1
      · have heq : kk = (t.1, t.2.1) := by simpa [keysOf] using h1
        rw [List.map_cons] at hnd
        rw [heq] at hkk
        exact (List.nodup_cons.mp hnd).1 hkk
    obtain ⟨i1, i2, i3, i4⟩ := ih (mooreTransStep m t) hmem2 hnd2 hfresh2
    refine ⟨?_, ?_, ?_, ?_⟩
    · rw [i1, hstep]
    · rw [i2, hstep]
    · rw [i3, hstep]
    · rw [i4, htr]
      simp

theorem MaquinaMoore.moore_from_to_json (M : MaquinaMoore) (s0 : String)
    (hOFnd : (keysOf M.output_function).Nodup)
    (hstEq : M.states = (keysOf M.output_function).toFinset)
    (hstart : M.start_state = some s0)
    (hs0 : s0 ∈ M.states)
    (hTnd : (keysOf M.transitions).Nodup)
    (hTmem : ∀ e ∈ M.transitions, e.1.1 ∈ M.states ∧ e.2 ∈ M.states) :
    (MaquinaMoore.from_json M.to_json).states = M.states ∧
    (MaquinaMoore.from_json M.to_json).start_state = M.start_state ∧
    (MaquinaMoore.from_json M.to_json).transitions = M.transitions ∧
    (MaquinaMoore.from_json M.to_json).output_function = M.output_function := by
  have hdOF : (M.to_json).output_function = M.output_function := rfl
  have hdstart : (M.to_json).start_state = M.start_state := rfl
  have hdtrans : (M.to_json).transitions
      = M.transitions.map (fun e => (e.1.1, e.1.2, e.2)) := rfl
  unfold MaquinaMoore.from_json
  simp only [hdOF, hdstart, hdtrans, hstart]
  set m1 := M.output_function.foldl (mooreStateStep (some s0)) MaquinaMoore.empty with hm1
  have h1states : m1.states = M.states := by
    rw [hm1, moore_fold_states]
    show ∅ ∪ (keysOf M.output_function).toFinset = M.states
    rw [Finset.empty_union, hstEq]
  have h1of : m1.output_function = M.output_function := by
    rw [hm1, moore_fold_output]
    · show [] ++ M.output_function = M.output_function
      simp
    · exact hOFnd
    · intro kk _
      show kk ∉ keysOf ([] : List (String × String))
      simp [keysOf]
  have h1start : m1.start_state = some s0 := by
    rw [hm1]
    apply moore_fold_start_sets
    have : s0 ∈ (keysOf M.output_function).toFinset := hstEq ▸ hs0
    exact List.mem_toFinset.mp this
  have h1tr : m1.transitions = [] := by
    rw [hm1, moore_fold_transitions]
    rfl
  set m2 : MaquinaMoore := { m1 with
    input_alphabet := ∅
    output_alphabet := (M.output_function.map (fun p => p.2)).toFinset } with hm2
  have h2states : m2.states = M.states := h1states
  have h2of : m2.output_function = M.output_function := h1of
  have h2start : m2.start_state = some s0 := h1start
  have h2tr : m2.transitions = [] := h1tr
  set ts := M.transitions.map (fun e => (e.1.1, e.1.2, e.2)) with hts
  have htsnd : (ts.map (fun t => (t.1, t.2.1))).Nodup := by
    rw [hts, List.map_map]
    exact hTnd
  have htsmem : ∀ t ∈ ts, t.1 ∈ m2.states ∧ t.2.2 ∈ m2.states := by
    intro t ht
    rcases List.mem_map.mp ht with ⟨e, he, heq⟩
    subst heq
    rw [h2states]
    exact hTmem e he
  have htsfresh : ∀ kk ∈ ts.map (fun t => ((t.1 : String), (t.2.1 : String))),
      kk ∉ keysOf m2.transitions := by
    intro kk _
    rw [h2tr]
    simp [keysOf]
  obtain ⟨f1, f2, f3, f4⟩ := moore_fold_trans ts m2 htsmem htsnd htsfresh
  have h3states : (ts.foldl mooreTransStep m2).states = M.states := by rw [f1, h2states]
  have h3start : (ts.foldl mooreTransStep m2).start_state = some s0 := by
    rw [f2, h2start]
  have h3of : (ts.foldl mooreTransStep m2).output_function = M.output_function := by
    rw [f3, h2of]
  have h3tr : (ts.foldl mooreTransStep m2).transitions = M.transitions := by
    rw [f4, h2tr, hts, List.map_map]
    show [] ++ M.transitions.map (fun e => ((e.1.1, e.1.2), e.2)) = M.transitions
    simp only [List.nil_append]
    have : (fun (e : (String × String) × String) => ((e.1.1, e.1.2), e.2)) = id := by
      funext e
      rfl
    rw [this, List.map_id]
  have hfix : mooreStartFix (ts.foldl mooreTransStep m2) = ts.foldl mooreTransStep m2 := by
    unfold mooreStartFix
    rw [h3start]
    have : s0 ∈ (ts.foldl mooreTransStep m2).states := by
      rw [h3states]
      exact hs0
    simp only [this, not_true_eq_false, if_neg]
    simp [this]
  rw [hfix]
  exact ⟨h3states, by rw [h3start], h3tr, h3of⟩

end RoundTripMoore

section RoundTripPda

theorem splitAtComma_append {x y : List Char} (hx : ',' ∉ x) :
    splitAtComma (x ++ ',' :: y) = some (x, y) := by
  induction x with
  | nil => simp [splitAtComma]
  | cons c cs ih =>
    have hc : ¬ (c = ',') := by
      intro h
      exact hx (h ▸ List.mem_cons_self _ _)
    rw [List.cons_append, splitAtComma, if_neg hc,
      ih (fun h => hx (List.mem_cons_of_mem _ h))]
    rfl

theorem pdaKeyParts_join (s1 s2 s3 : String)
    (h1 : ',' ∉ s1.data) (h2 : ',' ∉ s2.data) :
    pdaKeyParts (s1 ++ "," ++ s2 ++ "," ++ s3) = some (s1, s2, s3) := by
  unfold pdaKeyParts
  have hdata : (s1 ++ "," ++ s2 ++ "," ++ s3).data
      = s1.data ++ ',' :: (s2.data ++ ',' :: s3.data) := by
    simp [String.data_append]
  rw [hdata]
  simp only [splitAtComma_append h1, splitAtComma_append h2]

theorem pda_rebuild :
    ∀ (l : List ((String × String × String) × Finset (String × String)))
      (p : AutomatoPilha),
      (keysOf l).Nodup →
      (∀ e ∈ l, ',' ∉ e.1.1.data ∧ ',' ∉ e.1.2.1.data) →
      (∀ kk ∈ keysOf l, kk ∉ keysOf p.transitions) →
      let r := (l.map (fun e =>
        (e.1.1 ++ "," ++ e.1.2.1 ++ "," ++ e.1.2.2, pairListOf e.2))).foldl pdaTransStep p
      r.states = p.states ∧ r.start_state = p.start_state ∧
        r.final_states = p.final_states ∧ r.transitions = p.transitions ++ l := by
  intro l
  induction l with
  | nil => intro p _ _ _; exact ⟨rfl, rfl, rfl, by simp⟩
  | cons e rest ih =>
    intro p hnd hcomma hfresh
    obtain ⟨hc1, hc2⟩ := hcomma e (List.mem_cons_self _ _)
    have hparts : pdaKeyParts (e.1.1 ++ "," ++ e.1.2.1 ++ "," ++ e.1.2.2)
        = some (e.1.1, e.1.2.1, e.1.2.2) := pdaKeyParts_join _ _ _ hc1 hc2
    have hk_not : e.1 ∉ keysOf p.transitions :=
      hfresh e.1 (by rw [keysOf_cons]; exact List.mem_cons_self _ _)
    have hstep_tr : (pdaTransStep p (e.1.1 ++ "," ++ e.1.2.1 ++ "," ++ e.1.2.2,
        pairListOf e.2)).transitions = p.transitions ++ [(e.1, e.2)] := by
      unfold pdaTransStep
      rw [hparts]
      show dictSet p.transitions (e.1.1, e.1.2.1, e.1.2.2) (pairListOf e.2).toFinset
        = _
      rw [pairListOf_toFinset]
      exact dictSet_of_not_mem hk_not _
    have hstep_st : (pdaTransStep p (e.1.1 ++ "," ++ e.1.2.1 ++ "," ++ e.1.2.2,
        pairListOf e.2)).states = p.states := by
      unfold pdaTransStep
      rw [hparts]
    have hstep_ss : (pdaTransStep p (e.1.1 ++ "," ++ e.1.2.1 ++ "," ++ e.1.2.2,
        pairListOf e.2)).start_state = p.start_state := by
      unfold pdaTransStep
      rw [hparts]
    have hstep_fs : (pdaTransStep p (e.1.1 ++ "," ++ e.1.2.1 ++ "," ++ e.1.2.2,
        pairListOf e.2)).final_states = p.final_states := by
      unfold pdaTransStep
      rw [hparts]
    rw [List.map_cons, List.foldl_cons]
    rw [keysOf_cons] at hnd hfresh
    set p2 := pdaTransStep p (e.1.1 ++ "," ++ e.1.2.1 ++ "," ++ e.1.2.2, pairListOf e.2)
    have hfresh2 : ∀ kk ∈ keysOf rest, kk ∉ keysOf p2.transitions := by
      intro kk hkk
      rw [hstep_tr, keysOf_append]
      intro hmem
      rcases List.mem_append.mp hmem with hA | hA
      · exact hfresh kk (List.mem_cons_of_mem _ hkk) hA
      · have heq : kk = e.1 := by simpa [keysOf] using hA
        rw [heq] at hkk
        exact (List.nodup_cons.mp hnd).1 hkk
    have hcomma2 : ∀ e2 ∈ rest, ',' ∉ e2.1.1.data ∧ ',' ∉ e2.1.2.1.data :=
      fun e2 h2 => hcomma e2 (List.mem_cons_of_mem _ h2)
    obtain ⟨i1, i2, i3, i4⟩ := ih p2 hnd.of_cons hcomma2 hfresh2
    refine ⟨?_, ?_, ?_, ?_⟩
    · rw [i1, hstep_st]
    · rw [i2, hstep_ss]
    · rw [i3, hstep_fs]
    · rw [i4, hstep_tr]
      simp

theorem AutomatoPilha.pilha_from_to_json (P : AutomatoPilha) (s0 : String)
    (hnd : (keysOf P.transitions).Nodup)
    (hcomma : ∀ e ∈ P.transitions, ',' ∉ e.1.1.data ∧ ',' ∉ e.1.2.1.data)
    (hstart : P.start_state = some s0)
    (hs0 : s0 ∈ P.states) :
    (AutomatoPilha.from_json P.to_json).states = P.states ∧
    (AutomatoPilha.from_json P.to_json).start_state = P.start_state ∧
    (AutomatoPilha.from_json P.to_json).transitions = P.transitions ∧
    (AutomatoPilha.from_json P.to_json).final_states = P.final_states := by
  unfold AutomatoPilha.from_json
  have hdtrans : (P.to_json).transitions
      = P.transitions.map (fun e =>
          (e.1.1 ++ "," ++ e.1.2.1 ++ "," ++ e.1.2.2, pairListOf e.2)) := rfl
  simp only [hdtrans]
  set p0 : AutomatoPilha :=
    { states := (P.to_json.states).toFinset
      input_alphabet := (P.to_json.input_alphabet).toFinset
      stack_alphabet :=
        if P.to_json.start_stack_symbol ≠ "" then
          insert P.to_json.start_stack_symbol (P.to_json.stack_alphabet).toFinset
        else (P.to_json.stack_alphabet).toFinset
      start_state := P.to_json.start_state
      start_stack_symbol := P.to_json.start_stack_symbol
      final_states := (P.to_json.final_states).toFinset
      transitions := [] } with hp0
  have hp0states : p0.states = P.states := by
    show (listOf P.states).toFinset = P.states
    exact listOf_toFinset _
  have hp0start : p0.start_state = P.start_state := rfl
  have hp0finals : p0.final_states = P.final_states := by
    show (listOf P.final_states).toFinset = P.final_states
    exact listOf_toFinset _
  have hp0trans : p0.transitions = [] := rfl
  have hfresh : ∀ kk ∈ keysOf P.transitions, kk ∉ keysOf p0.transitions := by
    intro kk _
    rw [hp0trans]
    simp [keysOf]
  obtain ⟨f1, f2, f3, f4⟩ := pda_rebuild P.transitions p0 hnd hcomma hfresh
  have hfix : pilhaStartFix ((P.transitions.map (fun e =>
      (e.1.1 ++ "," ++ e.1.2.1 ++ "," ++ e.1.2.2, pairListOf e.2))).foldl pdaTransStep p0)
      = (P.transitions.map (fun e =>
      (e.1.1 ++ "," ++ e.1.2.1 ++ "," ++ e.1.2.2, pairListOf e.2))).foldl pdaTransStep p0 := by
    unfold pilhaStartFix
    rw [f2, hp0start, hstart]
    have hmem : s0 ∈ ((P.transitions.map (fun e =>
        (e.1.1 ++ "," ++ e.1.2.1 ++ "," ++ e.1.2.2, pairListOf e.2))).foldl
          pdaTransStep p0).states := by
      rw [f1, hp0states]
      exact hs0
    simp [hmem]
  rw [hfix]
  refine ⟨?_, ?_, ?_, ?_⟩
  · rw [f1, hp0states]
  · rw [f2, hp0start]
  · rw [f4, hp0trans]
    simp
  · rw [f3, hp0finals]

end RoundTripPda

/-- C6 (amended): `from_json(to_json(A))` is structurally equal to `A` —
same state set, transitions, start state, final states (Moore: output
function) — for every constructible NFA/DFA unconditionally, and for PDAs
and Moore machines provided the start state is set to a member of the state
set (PDA additionally: state names and input symbols contain no comma).
The hypotheses on keys/values are invariants of every structure built
through the public operations. -/
theorem C6_roundtrip_amended :
    (∀ A : Automato, (keysOf A.transitions).Nodup →
      (∀ e ∈ A.transitions, e.2 ≠ (∅ : Finset String)) →
      Automato.from_json A.to_json = A) ∧
    (∀ (M : MaquinaMoore) (s0 : String),
      (keysOf M.output_function).Nodup →
      M.states = (keysOf M.output_function).toFinset →
      M.start_state = some s0 → s0 ∈ M.states →
      (keysOf M.transitions).Nodup →
      (∀ e ∈ M.transitions, e.1.1 ∈ M.states ∧ e.2 ∈ M.states) →
      (MaquinaMoore.from_json M.to_json).states = M.states ∧
      (MaquinaMoore.from_json M.to_json).start_state = M.start_state ∧
      (MaquinaMoore.from_json M.to_json).transitions = M.transitions ∧
      (MaquinaMoore.from_json M.to_json).output_function = M.output_function) ∧
    (∀ (P : AutomatoPilha) (s0 : String),
      (keysOf P.transitions).Nodup →
      (∀ e ∈ P.transitions, ',' ∉ e.1.1.data ∧ ',' ∉ e.1.2.1.data) →
      P.start_state = some s0 → s0 ∈ P.states →
      (AutomatoPilha.from_json P.to_json).states = P.states ∧
      (AutomatoPilha.from_json P.to_json).start_state = P.start_state ∧
      (AutomatoPilha.from_json P.to_json).transitions = P.transitions ∧
      (AutomatoPilha.from_json P.to_json).final_states = P.final_states) :=
  ⟨fun A h1 h2 => A.from_to_json h1 h2,
   fun M s0 h1 h2 h3 h4 h5 h6 => M.moore_from_to_json s0 h1 h2 h3 h4 h5 h6,
   fun P s0 h1 h2 h3 h4 => P.pilha_from_to_json s0 h1 h2 h3 h4⟩

/-- On a PDA with no transitions and no start state, `from_json ∘ to_json`
replaces the missing start state by an arbitrary member of the state
set. -/
theorem pilha_from_json_start_none (P : AutomatoPilha)
    (htr : P.transitions = []) (hs : P.start_state = none) :
    (AutomatoPilha.from_json P.to_json).start_state = (listOf P.states).head? := by
  have htr2 : P.to_json.transitions = [] := by
    show P.transitions.map _ = []
    rw [htr]
    rfl
  unfold AutomatoPilha.from_json
  simp only [htr2, List.foldl_nil]
  unfold pilhaStartFix
  split
  · show (listOf ((listOf P.states).toFinset)).head? = (listOf P.states).head?
    rw [listOf_toFinset]
  · next s h =>
    have h2 : P.start_state = some s := h
    rw [hs] at h2
    cases h2

/-- C6 counterexample: the PDA with a single state added through the public
`add_state` (no `is_start`) has `start_state = None`, but its JSON round
trip resurrects a start state, so `from_json(to_json(A))` is not
structurally equal to `A`. -/
theorem C6_counterexample :
    pda0.start_state = none ∧
    (AutomatoPilha.from_json pda0.to_json).start_state = some "q0" ∧
    AutomatoPilha.from_json pda0.to_json ≠ pda0 := by
  have h3 : (AutomatoPilha.from_json pda0.to_json).start_state = some "q0" := by
    rw [pilha_from_json_start_none pda0 rfl rfl,
      show pda0.states = {"q0"} from rfl, listOf,
      Finset.sort_singleton]
    rfl
  refine ⟨rfl, h3, ?_⟩
  intro h
  have h2 : (AutomatoPilha.from_json pda0.to_json).start_state = pda0.start_state := by
    rw [h]
  rw [show pda0.start_state = none from rfl, h3] at h2
  cases h2

/-- Witness for C6 at `aut1`, `moore1` and `pda1`. -/
theorem C6_witness :
    ((keysOf aut1.transitions).Nodup →
      (∀ e ∈ aut1.transitions, e.2 ≠ (∅ : Finset String)) →
      Automato.from_json aut1.to_json = aut1) ∧
    ((keysOf moore1.output_function).Nodup →
      moore1.states = (keysOf moore1.output_function).toFinset →
      moore1.start_state = some "m0" → "m0" ∈ moore1.states →
      (keysOf moore1.transitions).Nodup →
      (∀ e ∈ moore1.transitions, e.1.1 ∈ moore1.states ∧ e.2 ∈ moore1.states) →
      (MaquinaMoore.from_json moore1.to_json).states = moore1.states ∧
      (MaquinaMoore.from_json moore1.to_json).start_state = moore1.start_state ∧
      (MaquinaMoore.from_json moore1.to_json).transitions = moore1.transitions ∧
      (MaquinaMoore.from_json moore1.to_json).output_function
        = moore1.output_function) ∧
    ((keysOf pda1.transitions).Nodup →
      (∀ e ∈ pda1.transitions, ',' ∉ e.1.1.data ∧ ',' ∉ e.1.2.1.data) →
      pda1.start_state = some "p0" → "p0" ∈ pda1.states →
      (AutomatoPilha.from_json pda1.to_json).states = pda1.states ∧
      (AutomatoPilha.from_json pda1.to_json).start_state = pda1.start_state ∧
      (AutomatoPilha.from_json pda1.to_json).transitions = pda1.transitions ∧
      (AutomatoPilha.from_json pda1.to_json).final_states = pda1.final_states) :=
  ⟨fun h1 h2 => C6_roundtrip_amended.1 aut1 h1 h2,
   fun h1 h2 h3 h4 h5 h6 => C6_roundtrip_amended.2.1 moore1 "m0" h1 h2 h3 h4 h5 h6,
   fun h1 h2 h3 h4 => C6_roundtrip_amended.2.2 pda1 "p0" h1 h2 h3 h4⟩

section ReprLemmas

theorem toDigitsCore_append :
    ∀ (f n : Nat) (ds : List Char),
      Nat.toDigitsCore 10 f n ds = Nat.toDigitsCore 10 f n [] ++ ds := by
  intro f
  induction f with
  | zero => intro n ds; rfl
  | succ f ih =>
    intro n ds
    show (if n / 10 = 0 then _ else _) = (if n / 10 = 0 then _ else _) ++ ds
    by_cases h : n / 10 = 0
    · rw [if_pos h, if_pos h]
      rfl
    · rw [if_neg h, if_neg h, ih (n / 10) (Nat.digitChar (n % 10) :: ds),
        ih (n / 10) [Nat.digitChar (n % 10)]]
      simp

theorem digitVal_digitChar {k : Nat} (h : k < 10) :
    digitVal (Nat.digitChar k) = k := by
  interval_cases k <;> rfl

theorem readNat_append_single (l : List Char) (d : Char) :
    readNat (l ++ [d]) = readNat l * 10 + digitVal d := by
  unfold readNat
  rw [List.foldl_append]
  rfl

theorem readNat_toDigitsCore :
    ∀ (f n : Nat), n ≤ f → readNat (Nat.toDigitsCore 10 (f + 1) n []) = n := by
  intro f
  induction f with
  | zero =>
    intro n hn
    interval_cases n
    rfl
  | succ f ih =>
    intro n hn
    show readNat (if n / 10 = 0 then _ else _) = n
    by_cases h : n / 10 = 0
    · rw [if_pos h]
      have hlt : n < 10 := by omega
      show readNat [Nat.digitChar (n % 10)] = n
      have : n % 10 = n := Nat.mod_eq_of_lt hlt
      rw [this]
      show 0 * 10 + digitVal (Nat.digitChar n) = n
      rw [digitVal_digitChar hlt]
      omega
    · rw [if_neg h]
      rw [toDigitsCore_append (f + 1) (n / 10) [Nat.digitChar (n % 10)],
        readNat_append_single]
      have hdiv : n / 10 ≤ f := by
        have h1 : n / 10 < n := Nat.div_lt_self (by omega) (by omega)
        omega
      rw [ih (n / 10) hdiv]
      have hd : digitVal (Nat.digitChar (n % 10)) = n % 10 :=
        digitVal_digitChar (Nat.mod_lt n (by omega))
      rw [hd]
      omega

theorem readNat_repr (n : Nat) : readNat (Nat.repr n).data = n := by
  show readNat (Nat.toDigitsCore 10 (n + 1) n []).asString.data = n
  have : (Nat.toDigitsCore 10 (n + 1) n []).asString.data
      = Nat.toDigitsCore 10 (n + 1) n [] := rfl
  rw [this]
  exact readNat_toDigitsCore n n (Nat.le.refl)

theorem repr_inj {m n : Nat} (h : Nat.repr m = Nat.repr n) : m = n := by
  have := congrArg (fun s => readNat s.data) h
  simpa [readNat_repr] using this

theorem mkName_inj {i j : Nat} (h : mkName i = mkName j) : i = j := by
  unfold mkName at h
  have hdata := congrArg String.data h
  rw [String.data_append, String.data_append] at hdata
  have : (toString i : String).data = (toString j : String).data := by
    have hq : ("q" : String).data = ['q'] := rfl
    rw [hq] at hdata
    exact List.cons_injective.eq_iff.mp hdata
  apply repr_inj
  exact String.ext this

end ReprLemmas

section AssocLemmas

theorem lookup_none_iff {α β : Type*} [BEq α] [LawfulBEq α] {l : List (α × β)} {k : α} :
    l.lookup k = none ↔ k ∉ keysOf l := by
  induction l with
  | nil => simp [List.lookup, keysOf]
  | cons e rest ih =>
    rw [List.lookup, keysOf_cons]
    by_cases hk : k = e.1
    · subst hk
      simp
    · have hbeq : (k == e.1) = false := beq_false_of_ne hk
      rw [hbeq]
      simp only [List.mem_cons]
      constructor
      · intro h hmem
        rcases hmem with h1 | h1
        · exact hk h1
        · exact (ih.mp h) h1
      · intro h
        exact ih.mpr (fun h1 => h (Or.inr h1))

theorem lookup_of_mem_nodup {α β : Type*} [BEq α] [LawfulBEq α] {l : List (α × β)}
    (hnd : (keysOf l).Nodup) {k : α} {v : β} (h : (k, v) ∈ l) :
    l.lookup k = some v := by
  induction l with
  | nil => simp at h
  | cons e rest ih =>
    rw [keysOf_cons, List.nodup_cons] at hnd
    rw [List.lookup]
    rcases List.mem_cons.mp h with h1 | h1
    · rw [← h1]
      simp
    · have hk : k ≠ e.1 := by
        intro he
        apply hnd.1
        rw [← he]
        exact List.mem_map.mpr ⟨(k, v), h1, rfl⟩
      have hbeq : (k == e.1) = false := beq_false_of_ne hk
      rw [hbeq]
      exact ih hnd.2 h1

theorem lookup_append_left {α β : Type*} [BEq α] [LawfulBEq α] {l l2 : List (α × β)}
    {k : α} {v : β} (h : l.lookup k = some v) : (l ++ l2).lookup k = some v := by
  induction l with
  | nil => simp [List.lookup] at h
  | cons e rest ih =>
    rw [List.lookup] at h
    rw [List.cons_append, List.lookup]
    by_cases hk : (k == e.1) = true
    · rw [hk] at h ⊢
      exact h
    · have hbeq : (k == e.1) = false := by
        cases hh : (k == e.1)
        · rfl
        · exact absurd hh hk
      rw [hbeq] at h ⊢
      exact ih h

theorem lookup_append_right {α β : Type*} [BEq α] [LawfulBEq α] {l l2 : List (α × β)}
    {k : α} (h : k ∉ keysOf l) : (l ++ l2).lookup k = l2.lookup k := by
  induction l with
  | nil => rfl
  | cons e rest ih =>
    rw [keysOf_cons] at h
    rw [List.cons_append, List.lookup]
    have hk : k ≠ e.1 := fun he => h (he ▸ List.mem_cons_self _ _)
    have hbeq : (k == e.1) = false := beq_false_of_ne hk
    rw [hbeq]
    exact ih (fun h1 => h (List.mem_cons_of_mem _ h1))

theorem mem_foldr_union {α β : Type*} [DecidableEq β]
    {l : List (α × Finset β)} {e : α × Finset β} (h : e ∈ l) :
    e.2 ⊆ l.foldr (fun e2 acc => e2.2 ∪ acc) ∅ := by
  induction l with
  | nil => simp at h
  | cons e2 rest ih =>
    rcases List.mem_cons.mp h with h1 | h1
    · subst h1
      exact Finset.subset_union_left
    · exact Finset.Subset.trans (ih h1) Finset.subset_union_right

end AssocLemmas

section ClosureBounds

variable (A : Automato)

theorem Automato.transGet_subset_allDsts (k : String × String) :
    A.transGet k ⊆ A.allDsts := by
  unfold Automato.transGet
  cases hl : A.transitions.lookup k with
  | none => simp
  | some v =>
    show v ⊆ _
    have hmem : (k, v) ∈ A.transitions := Automato.lookup_mem hl
    exact mem_foldr_union hmem

theorem Automato.move_subset_allDsts (S : Finset String) (sym : String) :
    A.move S sym ⊆ A.allDsts := by
  intro x hx
  rcases Finset.mem_biUnion.mp hx with ⟨s, _, hmem⟩
  exact A.transGet_subset_allDsts (s, sym) hmem

theorem Automato.epsDsts_subset_allDsts : A.epsDsts ⊆ A.allDsts := by
  unfold Automato.epsDsts Automato.allDsts
  induction A.transitions with
  | nil => simp
  | cons e rest ih =>
    by_cases he : e.1.2 = EPSILON
    · rw [List.filter_cons_of_pos (by simpa using he)]
      show e.2 ∪ _ ⊆ e.2 ∪ _
      exact Finset.union_subset_union (Finset.Subset.refl _) ih
    · rw [List.filter_cons_of_neg (by simpa using he)]
      exact Finset.Subset.trans ih Finset.subset_union_right

theorem Automato.epsIter_subset (n : Nat) (S : Finset String) :
    A.epsIter n S ⊆ S ∪ A.epsDsts := by
  induction n generalizing S with
  | zero => exact Finset.subset_union_left
  | succ n ih =>
    show A.epsIter n (A.epsStep S) ⊆ _
    refine Finset.Subset.trans (ih (A.epsStep S)) ?_
    refine Finset.union_subset ?_ Finset.subset_union_right
    exact A.epsStep_subset S

theorem Automato.epsilon_closure_subset (S : Finset String) :
    A.epsilon_closure S ⊆ S ∪ A.allDsts := by
  refine Finset.Subset.trans (A.epsIter_subset _ S) ?_
  exact Finset.union_subset Finset.subset_union_left
    (Finset.Subset.trans A.epsDsts_subset_allDsts Finset.subset_union_right)

theorem Automato.epsilon_closure_empty : A.epsilon_closure ∅ = ∅ := by
  have h : A.epsStep ∅ = ∅ := by
    unfold Automato.epsStep
    simp
  exact A.epsIter_fixed h _

theorem Automato.epsilon_closure_nonempty {S : Finset String} (h : S ≠ ∅) :
    A.epsilon_closure S ≠ ∅ := by
  intro hc
  apply h
  have := A.subset_epsilon_closure S
  rw [hc] at this
  exact Finset.subset_empty.mp this

theorem Automato.no_eps_closure_id
    (h : ∀ e ∈ A.transitions, e.1.2 ≠ EPSILON) (S : Finset String) :
    A.epsilon_closure S = S := by
  have hfilter : A.transitions.filter (fun e => e.1.2 = EPSILON) = [] := by
    rw [List.filter_eq_nil_iff]
    intro e he
    simpa using h e he
  have hd : A.epsDsts = ∅ := by
    unfold Automato.epsDsts
    rw [hfilter]
    rfl
  unfold Automato.epsilon_closure
  rw [hd]
  rfl

end ClosureBounds

section ScanLemmas

variable (A : Automato)

theorem Automato.scanSyms_eq_find2 (S : Finset String) (rem : List Char) :
    ∀ l : List String,
      A.scanSyms S rem ∅ l =
        (l.find? (fun sym => listPref sym.data rem && decide (A.move S sym ≠ ∅))).map
          (fun sym => (sym, A.move S sym)) := by
  intro l
  induction l with
  | nil => rfl
  | cons sym rest ih =>
    by_cases hm : listPref sym.data rem = true
    · by_cases hmv : A.move S sym = ∅
      · rw [List.find?_cons_of_neg _ (by simp [hmv])]
        rw [Automato.scanSyms, if_pos hm]
        show (if (∅ ∪ A.move S sym : Finset String) = ∅ then
            A.scanSyms S rem (∅ ∪ A.move S sym) rest
          else some (sym, ∅ ∪ A.move S sym)) = _
        rw [Finset.empty_union, if_pos hmv, hmv]
        exact ih
      · rw [List.find?_cons_of_pos _ (by simp [hm, hmv])]
        rw [Automato.scanSyms, if_pos hm]
        show (if (∅ ∪ A.move S sym : Finset String) = ∅ then
            A.scanSyms S rem (∅ ∪ A.move S sym) rest
          else some (sym, ∅ ∪ A.move S sym)) = _
        rw [Finset.empty_union, if_neg hmv]
        rfl
    · have hm2 : listPref sym.data rem = false := by
        cases hh : listPref sym.data rem
        · rfl
        · exact absurd hh hm
      rw [List.find?_cons_of_neg _ (by simp [hm2])]
      rw [Automato.scanSyms, if_neg hm]
      exact ih

theorem listPref_single {d ch : Char} {rest : List Char} :
    listPref [d] (ch :: rest) = true ↔ d = ch := by
  show (d == ch && listPref [] rest) = true ↔ _
  simp [listPref]

theorem char_toString_data (c : Char) : (Char.toString c).data = [c] := rfl

theorem char_toString_inj {c d : Char} (h : Char.toString c = Char.toString d) :
    c = d := by
  have h2 := congrArg String.data h
  rw [char_toString_data, char_toString_data] at h2
  simpa using h2

theorem Automato.move_ne_imp_candidate {S : Finset String} {sym : String}
    (hsym : sym ≠ EPSILON) (h : A.move S sym ≠ ∅) :
    sym ∈ A.candidateSyms S := by
  rw [A.mem_candidateSyms]
  refine ⟨hsym, ?_⟩
  have : ∃ s ∈ S, A.transGet (s, sym) ≠ ∅ := by
    by_contra hc
    push_neg at hc
    apply h
    ext x
    simp only [Finset.not_mem_empty, iff_false]
    intro hx
    rcases Finset.mem_biUnion.mp hx with ⟨s, hs, hmem⟩
    have := hc s hs
    rw [this] at hmem
    simp at hmem
  obtain ⟨s, hs, hne⟩ := this
  unfold Automato.transGet at hne
  cases hl : A.transitions.lookup (s, sym) with
  | none => rw [hl] at hne; simp at hne
  | some v =>
    exact ⟨s, v, hs, Automato.lookup_mem hl⟩

theorem Automato.simStepF_single_char {w : List Char}
    (h2 : ∀ e ∈ A.transitions, e.1.2 = EPSILON ∨ e.1.2.length = 1)
    {c : SimCfg} {ch : Char} {rest : List Char}
    (hch : Char.toString ch ≠ EPSILON)
    (hidx : c.idx < w.length) (hdrop : w.drop c.idx = ch :: rest) :
    A.simStepF w c =
      (if A.move c.cur ch.toString = ∅ then none
       else some ⟨A.nfaStepSet c.cur ch, c.idx + 1,
         c.hist ++ [(A.nfaStepSet c.cur ch, c.idx + 1)]⟩) := by
  have hcand : ∀ sym ∈ A.sortedSyms c.cur, sym ≠ EPSILON ∧ sym.data.length = 1 := by
    intro sym hsym
    have hc2 : sym ∈ A.candidateSyms c.cur := List.mem_mergeSort.mp hsym
    rcases (A.mem_candidateSyms).mp hc2 with ⟨hne, s, v, _, hmem⟩
    rcases h2 ((s, sym), v) hmem with h1 | h1
    · exact absurd h1 hne
    · exact ⟨hne, h1⟩
  have hmatch : ∀ sym ∈ A.sortedSyms c.cur,
      (listPref sym.data (ch :: rest) = true ↔ sym = Char.toString ch) := by
    intro sym hsym
    obtain ⟨_, hlen⟩ := hcand sym hsym
    obtain ⟨d, hdat⟩ : ∃ d, sym.data = [d] := by
      cases hd : sym.data with
      | nil => rw [hd] at hlen; simp at hlen
      | cons d ds =>
        rw [hd] at hlen
        simp only [List.length_cons] at hlen
        have hds : ds = [] := List.length_eq_zero.mp (by omega)
        exact ⟨d, by rw [hds]⟩
    constructor
    · intro hp
      rw [hdat] at hp
      have hd : d = ch := listPref_single.mp hp
      apply String.ext
      rw [hdat, char_toString_data, hd]
    · intro he
      rw [he, char_toString_data]
      exact listPref_single.mpr rfl
  unfold Automato.simStepF
  rw [if_pos hidx, hdrop, A.scanSyms_eq_find2]
  by_cases hmv : A.move c.cur ch.toString = ∅
  · rw [if_pos hmv]
    have hnone : (A.sortedSyms c.cur).find?
        (fun sym => listPref sym.data (ch :: rest) && decide (A.move c.cur sym ≠ ∅))
        = none := by
      rw [List.find?_eq_none]
      intro sym hsym
      simp only [Bool.and_eq_true, decide_eq_true_eq, not_and]
      intro hp hne
      rw [(hmatch sym hsym).mp hp] at hne
      exact hne hmv
    rw [hnone]
    rfl
  · rw [if_neg hmv]
    have hcmem : Char.toString ch ∈ A.sortedSyms c.cur :=
      List.mem_mergeSort.mpr (A.move_ne_imp_candidate hch hmv)
    have hex : ∃ sym, (A.sortedSyms c.cur).find?
        (fun sym => listPref sym.data (ch :: rest) && decide (A.move c.cur sym ≠ ∅))
        = some sym := by
      cases hf : (A.sortedSyms c.cur).find?
          (fun sym => listPref sym.data (ch :: rest) && decide (A.move c.cur sym ≠ ∅)) with
      | none =>
        rw [List.find?_eq_none] at hf
        have hcontra := hf _ hcmem
        simp only [Bool.and_eq_true, decide_eq_true_eq, not_and] at hcontra
        exact absurd hmv (by
          intro _
          exact hcontra ((hmatch _ hcmem).mpr rfl) hmv)
      | some sym => exact ⟨sym, rfl⟩
    obtain ⟨sym, hf⟩ := hex
    have hsymmem := List.mem_of_find?_eq_some hf
    have hsympred := List.find?_some hf
    simp only [Bool.and_eq_true, decide_eq_true_eq] at hsympred
    have hsymeq : sym = Char.toString ch := (hmatch sym hsymmem).mp hsympred.1
    rw [hf]
    simp only [Option.map_some]
    rw [hsymeq]
    rfl

end ScanLemmas

section AddTransitionFields

theorem Automato.add_transition_getD {A : Automato} {src sym dst : String}
    (h1 : src ∈ A.states) (h2 : dst ∈ A.states) :
    (A.add_transition src sym dst).toOption.getD A =
      { A with
        alphabet := if sym ≠ EPSILON then insert sym A.alphabet else A.alphabet
        transitions := insertT A.transitions (src, sym) dst } := by
  unfold Automato.add_transition
  rw [if_pos ⟨h1, h2⟩]
  rfl

theorem insertT_fresh {l : List ((String × String) × Finset String)}
    {k : String × String} (h : k ∉ keysOf l) (d : String) :
    insertT l k d = l ++ [(k, {d})] := by
  rw [insertT_eq_dictAdd]
  exact dictAdd_of_not_mem h d

theorem transGet_append_new {l : List ((String × String) × Finset String)}
    {k : String × String} (h : k ∉ keysOf l) (v : Finset String) :
    (Automato.mk ∅ none ∅ (l ++ [(k, v)]) ∅).transGet k = v := by
  unfold Automato.transGet
  show ((l ++ [(k, v)]).lookup k).getD ∅ = v
  rw [lookup_append_right h]
  simp [List.lookup]

theorem lookup_append_single_other {β : Type*}
    {l : List ((String × String) × β)} {k k2 : String × String} (h : k2 ≠ k)
    (v : β) : ((l ++ [(k, v)]).lookup k2) = l.lookup k2 := by
  induction l with
  | nil =>
    show ([(k, v)].lookup k2) = none
    rw [List.lookup]
    have hbeq : (k2 == k) = false := beq_false_of_ne h
    rw [hbeq]
    rfl
  | cons e rest ih =>
    rw [List.cons_append, List.lookup, List.lookup]
    by_cases hk : (k2 == e.1) = true
    · rw [hk]
    · have hbeq : (k2 == e.1) = false := by
        cases hh : (k2 == e.1)
        · rfl
        · exact absurd hh hk
      rw [hbeq]
      exact ih

end AddTransitionFields

section DfaBaseLemmas

variable {A : Automato} {s0 : String}

theorem DfaBase.names_nd {b : DfaBuild} (h : DfaBase A s0 b) :
    (b.state_map.map Prod.snd).Nodup := by
  rw [h.names_eq]
  refine List.Nodup.map ?_ (List.nodup_range _)
  intro i j hij
  exact mkName_inj hij

theorem DfaBase.entry_unique_name {b : DfaBuild} (h : DfaBase A s0 b)
    {T T2 : Finset String} {n : String}
    (h1 : (T, n) ∈ b.state_map) (h2 : (T2, n) ∈ b.state_map) : T = T2 := by
  have := List.inj_on_of_nodup_map h.names_nd h1 h2 rfl
  exact congrArg Prod.fst this

theorem DfaBase.entry_unique_key {b : DfaBuild} (h : DfaBase A s0 b)
    {T : Finset String} {n n2 : String}
    (h1 : (T, n) ∈ b.state_map) (h2 : (T, n2) ∈ b.state_map) : n = n2 := by
  have hk : (keysOf b.state_map).Nodup := h.keys_nd
  have := List.inj_on_of_nodup_map hk h1 h2 rfl
  exact congrArg Prod.snd this

theorem DfaBase.mkName_fresh {b : DfaBuild} (h : DfaBase A s0 b) :
    mkName b.count ∉ b.state_map.map Prod.snd := by
  rw [h.names_eq]
  intro hmem
  rcases List.mem_map.mp hmem with ⟨i, hi, heq⟩
  have := mkName_inj heq
  rw [List.mem_range] at hi
  omega

theorem DfaBase.smap_card_le {b : DfaBuild} (h : DfaBase A s0 b) :
    b.state_map.length ≤ 2 ^ (insert s0 A.allDsts).card := by
  have h1 : b.state_map.length = (keysOf b.state_map).length := by
    simp [keysOf]
  have h2 : (keysOf b.state_map).length = (keysOf b.state_map).toFinset.card :=
    (List.toFinset_card_of_nodup h.keys_nd).symm
  have h3 : (keysOf b.state_map).toFinset ⊆ (insert s0 A.allDsts).powerset := by
    intro T hT
    rw [List.mem_toFinset] at hT
    rcases List.mem_map.mp hT with ⟨e, he, heq⟩
    rw [Finset.mem_powerset]
    exact heq ▸ h.sub_univ e he
  have h4 := Finset.card_le_card h3
  rw [Finset.card_powerset] at h4
  omega

end DfaBaseLemmas

section DfaCharStep

theorem lookup_mem_gen {α β : Type*} [BEq α] [LawfulBEq α]
    {l : List (α × β)} {k : α} {v : β} (h : l.lookup k = some v) :
    (k, v) ∈ l := by
  induction l with
  | nil => simp [List.lookup] at h
  | cons e rest ih =>
    obtain ⟨k2, v2⟩ := e
    rw [List.lookup] at h
    by_cases hk : (k == k2) = true
    · rw [hk] at h
      simp at h
      rw [eq_of_beq hk, h]
      exact List.mem_cons_self _ _
    · have hbeq : (k == k2) = false := by
        cases hh : (k == k2)
        · rfl
        · exact absurd hh hk
      rw [hbeq] at h
      simp at h
      exact List.mem_cons_of_mem _ (ih h)

theorem lookup_append_fresh {β : Type*} {l : List ((String × String) × β)}
    {k : String × String} (h : k ∉ keysOf l) (v : β) :
    (l ++ [(k, v)]).lookup k = some v := by
  rw [lookup_append_right h, List.lookup]
  simp

theorem toFinset_append_single {α : Type*} [DecidableEq α] (l : List α) (x : α) :
    (l ++ [x]).toFinset = insert x l.toFinset := by
  ext a
  simp [or_comm]

theorem nodup_append_single {α : Type*} (l : List α) (x : α)
    (h : l.Nodup) (hx : x ∉ l) : (l ++ [x]).Nodup := by
  rw [List.nodup_append]
  exact ⟨h, List.nodup_singleton x, by simpa using hx⟩

theorem Automato.toDfaChar_spec (A : Automato) (s0 : String)
    {b : DfaBuild} {T : Finset String} {Tname : String} (c : Char)
    (hB : DfaBase A s0 b)
    (hT : (T, Tname) ∈ b.state_map)
    (hTun : T ∉ b.unmarked)
    (hTfresh : (Tname, Char.toString c) ∉ keysOf b.dfa.transitions) :
    DfaBase A s0 (A.toDfaChar Tname T b c) ∧
    (∃ app : List (Finset String × String),
      (A.toDfaChar Tname T b c).state_map = b.state_map ++ app ∧
      (A.toDfaChar Tname T b c).unmarked = b.unmarked ++ app.map Prod.fst) ∧
    (∀ k : String × String, k ≠ (Tname, Char.toString c) →
      (A.toDfaChar Tname T b c).dfa.transGet k = b.dfa.transGet k) ∧
    complAt A (A.toDfaChar Tname T b c) T Tname c ∧
    (∀ k ∈ keysOf (A.toDfaChar Tname T b c).dfa.transitions,
      k ∈ keysOf b.dfa.transitions ∨ k = (Tname, Char.toString c)) := by
  have hTnameStates : Tname ∈ b.dfa.states := by
    rw [hB.dfa_states, List.mem_toFinset]
    exact List.mem_map.mpr ⟨(T, Tname), hT, rfl⟩
  by_cases heps : Char.toString c = EPSILON
  · rw [show A.toDfaChar Tname T b c = b by unfold Automato.toDfaChar; rw [if_pos heps]]
    refine ⟨hB, ⟨[], by simp, by simp⟩, fun k _ => rfl, ?_, fun k hk => Or.inl hk⟩
    intro hne _
    exact absurd heps hne
  · by_cases hU : A.epsilon_closure (A.move T (Char.toString c)) = ∅
    · rw [show A.toDfaChar Tname T b c = b by
        unfold Automato.toDfaChar; rw [if_neg heps, if_pos hU]]
      refine ⟨hB, ⟨[], by simp, by simp⟩, fun k _ => rfl, ?_, fun k hk => Or.inl hk⟩
      intro _ hne
      exact absurd hU hne
    · cases hlk : b.state_map.lookup (A.epsilon_closure (A.move T (Char.toString c))) with
      | some Uname =>
        have hUmem : (A.epsilon_closure (A.move T (Char.toString c)), Uname)
            ∈ b.state_map := lookup_mem_gen hlk
        have hUnameStates : Uname ∈ b.dfa.states := by
          rw [hB.dfa_states, List.mem_toFinset]
          exact List.mem_map.mpr ⟨_, hUmem, rfl⟩
        have hb2 : A.toDfaChar Tname T b c =
            { b with dfa := (b.dfa.add_transition Tname (Char.toString c)
                Uname).toOption.getD b.dfa } := by
          unfold Automato.toDfaChar
          rw [if_neg heps, if_neg hU, hlk]
        have hdfa2 := @Automato.add_transition_getD b.dfa Tname (Char.toString c)
          Uname hTnameStates hUnameStates
        have htr2 : ((A.toDfaChar Tname T b c).dfa).transitions
            = b.dfa.transitions ++ [((Tname, Char.toString c), {Uname})] := by
          rw [hb2]
          show ((b.dfa.add_transition Tname (Char.toString c)
            Uname).toOption.getD b.dfa).transitions = _
          rw [hdfa2]
          show insertT b.dfa.transitions (Tname, Char.toString c) Uname = _
          exact insertT_fresh hTfresh Uname
        have hst2 : ((A.toDfaChar Tname T b c).dfa).states = b.dfa.states := by
          rw [hb2]
          show ((b.dfa.add_transition Tname (Char.toString c)
            Uname).toOption.getD b.dfa).states = _
          rw [hdfa2]
        have hss2 : ((A.toDfaChar Tname T b c).dfa).start_state
            = b.dfa.start_state := by
          rw [hb2]
          show ((b.dfa.add_transition Tname (Char.toString c)
            Uname).toOption.getD b.dfa).start_state = _
          rw [hdfa2]
        have hfs2 : ((A.toDfaChar Tname T b c).dfa).final_states
            = b.dfa.final_states := by
          rw [hb2]
          show ((b.dfa.add_transition Tname (Char.toString c)
            Uname).toOption.getD b.dfa).final_states = _
          rw [hdfa2]
        have hsm2 : (A.toDfaChar Tname T b c).state_map = b.state_map := by
          rw [hb2]
        have hun2 : (A.toDfaChar Tname T b c).unmarked = b.unmarked := by
          rw [hb2]
        have hget2 : ∀ k : String × String, k ≠ (Tname, Char.toString c) →
            ((A.toDfaChar Tname T b c).dfa).transGet k = b.dfa.transGet k := by
          intro k hk
          unfold Automato.transGet
          rw [htr2, lookup_append_single_other hk]
        have hgetc : ((A.toDfaChar Tname T b c).dfa).transGet
            (Tname, Char.toString c) = {Uname} := by
          unfold Automato.transGet
          rw [htr2, lookup_append_fresh hTfresh]
          rfl
        refine ⟨?_, ⟨[], by rw [hsm2]; simp, by rw [hun2]; simp⟩, hget2, ?_, ?_⟩
        · exact {
            keys_nd := by rw [hsm2]; exact hB.keys_nd
            names_eq := by rw [hsm2]; rw [show (A.toDfaChar Tname T b c).count
              = b.count by rw [hb2]]; exact hB.names_eq
            nonempty := by rw [hsm2]; exact hB.nonempty
            sub_univ := by rw [hsm2]; exact hB.sub_univ
            start_mem := by rw [hsm2]; exact hB.start_mem
            unm_sub := by rw [hun2, hsm2]; exact hB.unm_sub
            unm_nd := by rw [hun2]; exact hB.unm_nd
            dfa_states := by rw [hst2, hsm2]; exact hB.dfa_states
            dfa_start := by rw [hss2]; exact hB.dfa_start
            dfa_finals := by rw [hfs2, hsm2]; exact hB.dfa_finals
            finals_sub := by rw [hfs2, hsm2]; exact hB.finals_sub
            tr_char := by
              rw [htr2]
              intro e he
              rcases List.mem_append.mp he with h1 | h1
              · exact hB.tr_char e h1
              · rw [List.mem_singleton.mp h1]
                exact ⟨heps, rfl⟩
            tr_keys_nd := by
              rw [htr2, keysOf_append]
              exact nodup_append_single _ _ hB.tr_keys_nd hTfresh
            tr_shape := by
              rw [htr2, hsm2, hun2]
              intro e he
              rcases List.mem_append.mp he with h1 | h1
              · exact hB.tr_shape e h1
              · rw [List.mem_singleton.mp h1]
                exact ⟨T, c, Uname, hT, hTun, rfl, hU, hUmem, rfl⟩ }
        · intro _ _
          exact ⟨Uname, by rw [hsm2]; exact hUmem, hgetc⟩
        · intro k hk
          rw [htr2, keysOf_append] at hk
          rcases List.mem_append.mp hk with h1 | h1
          · exact Or.inl h1
          · exact Or.inr (by simpa [keysOf] using h1)
      | none =>
        have hUfreshKey : A.epsilon_closure (A.move T (Char.toString c))
            ∉ keysOf b.state_map := lookup_none_iff.mp hlk
        have hUnameFresh : mkName b.count ∉ b.state_map.map Prod.snd :=
          hB.mkName_fresh
        have hb2 : A.toDfaChar Tname T b c =
            { state_map := b.state_map ++
                [(A.epsilon_closure (A.move T (Char.toString c)), mkName b.count)]
              unmarked := b.unmarked ++ [A.epsilon_closure (A.move T (Char.toString c))]
              dfa := ((b.dfa.add_state (mkName b.count) false
                  (decide (A.epsilon_closure (A.move T (Char.toString c))
                    ∩ A.final_states).Nonempty)).add_transition Tname
                  (Char.toString c) (mkName b.count)).toOption.getD
                  (b.dfa.add_state (mkName b.count) false
                  (decide (A.epsilon_closure (A.move T (Char.toString c))
                    ∩ A.final_states).Nonempty))
              count := b.count + 1 } := by
          unfold Automato.toDfaChar
          rw [if_neg heps, if_neg hU, hlk]
        have hd1states : (b.dfa.add_state (mkName b.count) false
            (decide (A.epsilon_closure (A.move T (Char.toString c))
              ∩ A.final_states).Nonempty)).states
            = insert (mkName b.count) b.dfa.states := rfl
        have hd1start : (b.dfa.add_state (mkName b.count) false
            (decide (A.epsilon_closure (A.move T (Char.toString c))
              ∩ A.final_states).Nonempty)).start_state = b.dfa.start_state := by
          show (if false || b.dfa.start_state.isNone then _ else _) = _
          rw [hB.dfa_start]
          rfl
        have hd1trans : (b.dfa.add_state (mkName b.count) false
            (decide (A.epsilon_closure (A.move T (Char.toString c))
              ∩ A.final_states).Nonempty)).transitions = b.dfa.transitions := rfl
        have hdfa2 := @Automato.add_transition_getD
          (b.dfa.add_state (mkName b.count) false
            (decide (A.epsilon_closure (A.move T (Char.toString c))
              ∩ A.final_states).Nonempty))
          Tname (Char.toString c) (mkName b.count)
          (by rw [hd1states]; exact Finset.mem_insert_of_mem hTnameStates)
          (by rw [hd1states]; exact Finset.mem_insert_self _ _)
        have htr2 : ((A.toDfaChar Tname T b c).dfa).transitions
            = b.dfa.transitions ++ [((Tname, Char.toString c), {mkName b.count})] := by
          rw [hb2]
          show (((b.dfa.add_state (mkName b.count) false
              (decide (A.epsilon_closure (A.move T (Char.toString c))
                ∩ A.final_states).Nonempty)).add_transition Tname
              (Char.toString c) (mkName b.count)).toOption.getD _).transitions = _
          rw [hdfa2]
          show insertT (b.dfa.add_state (mkName b.count) false
              (decide (A.epsilon_closure (A.move T (Char.toString c))
                ∩ A.final_states).Nonempty)).transitions
            (Tname, Char.toString c) (mkName b.count) = _
          rw [hd1trans]
          exact insertT_fresh hTfresh (mkName b.count)
        have hst2 : ((A.toDfaChar Tname T b c).dfa).states
            = insert (mkName b.count) b.dfa.states := by
          rw [hb2]
          show (((b.dfa.add_state (mkName b.count) false
              (decide (A.epsilon_closure (A.move T (Char.toString c))
                ∩ A.final_states).Nonempty)).add_transition Tname
              (Char.toString c) (mkName b.count)).toOption.getD _).states = _
          rw [hdfa2]
          exact hd1states
        have hss2 : ((A.toDfaChar Tname T b c).dfa).start_state
            = b.dfa.start_state := by
          rw [hb2]
          show (((b.dfa.add_state (mkName b.count) false
              (decide (A.epsilon_closure (A.move T (Char.toString c))
                ∩ A.final_states).Nonempty)).add_transition Tname
              (Char.toString c) (mkName b.count)).toOption.getD _).start_state = _
          rw [hdfa2]
          exact hd1start
        have hfs2 : ((A.toDfaChar Tname T b c).dfa).final_states
            = (if decide (A.epsilon_closure (A.move T (Char.toString c))
                ∩ A.final_states).Nonempty then
                insert (mkName b.count) b.dfa.final_states
              else b.dfa.final_states) := by
          rw [hb2]
          show (((b.dfa.add_state (mkName b.count) false
              (decide (A.epsilon_closure (A.move T (Char.toString c))
                ∩ A.final_states).Nonempty)).add_transition Tname
              (Char.toString c) (mkName b.count)).toOption.getD _).final_states = _
          rw [hdfa2]
          rfl
        have hsm2 : (A.toDfaChar Tname T b c).state_map = b.state_map ++
            [(A.epsilon_closure (A.move T (Char.toString c)), mkName b.count)] := by
          rw [hb2]
        have hun2 : (A.toDfaChar Tname T b c).unmarked
            = b.unmarked ++ [A.epsilon_closure (A.move T (Char.toString c))] := by
          rw [hb2]
        have hcnt2 : (A.toDfaChar Tname T b c).count = b.count + 1 := by
          rw [hb2]
        have hget2 : ∀ k : String × String, k ≠ (Tname, Char.toString c) →
            ((A.toDfaChar Tname T b c).dfa).transGet k = b.dfa.transGet k := by
          intro k hk
          unfold Automato.transGet
          rw [htr2, lookup_append_single_other hk]
        have hgetc : ((A.toDfaChar Tname T b c).dfa).transGet
            (Tname, Char.toString c) = {mkName b.count} := by
          unfold Automato.transGet
          rw [htr2, lookup_append_fresh hTfresh]
          rfl
        have hUmem2 : (A.epsilon_closure (A.move T (Char.toString c)), mkName b.count)
            ∈ (A.toDfaChar Tname T b c).state_map := by
          rw [hsm2]
          exact List.mem_append_right _ (List.mem_singleton_self _)
        refine ⟨?_, ⟨[(A.epsilon_closure (A.move T (Char.toString c)), mkName b.count)],
          hsm2, by rw [hun2]; rfl⟩, hget2, ?_, ?_⟩
        · exact {
            keys_nd := by
              rw [hsm2, keysOf_append]
              exact nodup_append_single _ _ hB.keys_nd hUfreshKey
            names_eq := by
              rw [hsm2, hcnt2, List.map_append, hB.names_eq, List.range_succ,
                List.map_append]
              rfl
            nonempty := by
              rw [hsm2]
              intro e he
              rcases List.mem_append.mp he with h1 | h1
              · exact hB.nonempty e h1
              · rw [List.mem_singleton.mp h1]
                exact hU
            sub_univ := by
              rw [hsm2]
              intro e he
              rcases List.mem_append.mp he with h1 | h1
              · exact hB.sub_univ e h1
              · rw [List.mem_singleton.mp h1]
                show A.epsilon_closure (A.move T (Char.toString c)) ⊆ _
                refine Finset.Subset.trans (A.epsilon_closure_subset _) ?_
                refine Finset.union_subset ?_ ?_
                · exact Finset.Subset.trans (A.move_subset_allDsts T _)
                    (Finset.subset_insert _ _)
                · exact Finset.subset_insert _ _
            start_mem := by
              rw [hsm2]
              exact List.mem_append_left _ hB.start_mem
            unm_sub := by
              rw [hun2, hsm2, keysOf_append]
              intro T2 hT2
              rcases List.mem_append.mp hT2 with h1 | h1
              · exact List.mem_append_left _ (hB.unm_sub T2 h1)
              · rw [List.mem_singleton.mp h1]
                refine List.mem_append_right _ ?_
                show _ ∈ keysOf [(A.epsilon_closure (A.move T (Char.toString c)),
                  mkName b.count)]
                simp [keysOf]
            unm_nd := by
              rw [hun2]
              refine nodup_append_single _ _ hB.unm_nd ?_
              intro hmem
              exact hUfreshKey (hB.unm_sub _ hmem)
            dfa_states := by
              rw [hst2, hsm2, List.map_append, hB.dfa_states]
              rw [show List.map Prod.snd [(A.epsilon_closure
                (A.move T (Char.toString c)), mkName b.count)]
                = [mkName b.count] from rfl]
              rw [toFinset_append_single]
            dfa_start := by rw [hss2]; exact hB.dfa_start
            dfa_finals := by
              rw [hfs2, hsm2]
              intro e he
              rcases List.mem_append.mp he with h1 | h1
              · have hne : e.2 ≠ mkName b.count := by
                  intro heq
                  exact hUnameFresh (heq ▸ List.mem_map.mpr ⟨e, h1, rfl⟩)
                by_cases hflag : (A.epsilon_closure (A.move T (Char.toString c))
                    ∩ A.final_states).Nonempty
                · rw [if_pos (by simpa using hflag)]
                  rw [Finset.mem_insert]
                  constructor
                  · intro hmem
                    rcases hmem with h2 | h2
                    · exact absurd h2 hne
                    · exact (hB.dfa_finals e h1).mp h2
                  · intro h2
                    exact Or.inr ((hB.dfa_finals e h1).mpr h2)
                · rw [if_neg (by simpa using hflag)]
                  exact hB.dfa_finals e h1
              · rw [List.mem_singleton.mp h1]
                by_cases hflag : (A.epsilon_closure (A.move T (Char.toString c))
                    ∩ A.final_states).Nonempty
                · rw [if_pos (by simpa using hflag)]
                  simp [hflag]
                · rw [if_neg (by simpa using hflag)]
                  constructor
                  · intro hmem
                    have : mkName b.count ∈ (b.state_map.map Prod.snd).toFinset :=
                      hB.finals_sub hmem
                    rw [List.mem_toFinset] at this
                    exact absurd this hUnameFresh
                  · intro h2
                    exact absurd h2 hflag
            finals_sub := by
              rw [hfs2, hsm2, List.map_append]
              by_cases hflag : (A.epsilon_closure (A.move T (Char.toString c))
                  ∩ A.final_states).Nonempty
              · rw [if_pos (by simpa using hflag)]
                intro x hx
                rcases Finset.mem_insert.mp hx with h1 | h1
                · rw [List.mem_toFinset, h1]
                  exact List.mem_append_right _ (by simp)
                · have := hB.finals_sub h1
                  rw [List.mem_toFinset] at this ⊢
                  exact List.mem_append_left _ this
              · rw [if_neg (by simpa using hflag)]
                intro x hx
                have := hB.finals_sub hx
                rw [List.mem_toFinset] at this ⊢
                exact List.mem_append_left _ this
            tr_char := by
              rw [htr2]
              intro e he
              rcases List.mem_append.mp he with h1 | h1
              · exact hB.tr_char e h1
              · rw [List.mem_singleton.mp h1]
                exact ⟨heps, rfl⟩
            tr_keys_nd := by
              rw [htr2, keysOf_append]
              exact nodup_append_single _ _ hB.tr_keys_nd hTfresh
            tr_shape := by
              rw [htr2, hsm2, hun2]
              intro e he
              rcases List.mem_append.mp he with h1 | h1
              · obtain ⟨T3, c3, Un3, hm3, hu3, he3, hne3, hm4, hv3⟩ :=
                  hB.tr_shape e h1
                refine ⟨T3, c3, Un3, List.mem_append_left _ hm3, ?_, he3, hne3,
                  List.mem_append_left _ hm4, hv3⟩
                intro hmem
                rcases List.mem_append.mp hmem with h2 | h2
                · exact hu3 h2
                · rw [List.mem_singleton.mp h2] at hm3
                  exact hUfreshKey (List.mem_map.mpr ⟨_, hm3, rfl⟩)
              · rw [List.mem_singleton.mp h1]
                refine ⟨T, c, mkName b.count, List.mem_append_left _ hT, ?_, rfl,
                  hU, List.mem_append_right _ (List.mem_singleton_self _), rfl⟩
                intro hmem
                rcases List.mem_append.mp hmem with h2 | h2
                · exact hTun h2
                · rw [List.mem_singleton.mp h2] at hT
                  exact hUfreshKey (List.mem_map.mpr ⟨_, hT, rfl⟩) }
        · intro _ _
          exact ⟨mkName b.count, hUmem2, hgetc⟩
        · intro k hk
          rw [htr2, keysOf_append] at hk
          rcases List.mem_append.mp hk with h1 | h1
          · exact Or.inl h1
          · exact Or.inr (by simpa [keysOf] using h1)

theorem complAt_lift {A : Automato} {b b2 : DfaBuild} {T : Finset String}
    {n : String} {c : Char} (app : List (Finset String × String))
    (hsm : b2.state_map = b.state_map ++ app)
    (hget : b2.dfa.transGet (n, Char.toString c)
      = b.dfa.transGet (n, Char.toString c))
    (h : complAt A b T n c) : complAt A b2 T n c := by
  intro h1 h2
  obtain ⟨Un, hmem, hgetc⟩ := h h1 h2
  exact ⟨Un, by rw [hsm]; exact List.mem_append_left _ hmem,
    by rw [hget]; exact hgetc⟩

theorem Automato.toDfaFold_spec (A : Automato) (s0 : String) (cs : List Char)
    {b : DfaBuild} {T : Finset String} {Tname : String}
    (hnd : cs.Nodup)
    (hB : DfaBase A s0 b)
    (hT : (T, Tname) ∈ b.state_map)
    (hTun : T ∉ b.unmarked)
    (hTfresh : ∀ c2 ∈ cs, (Tname, Char.toString c2) ∉ keysOf b.dfa.transitions) :
    DfaBase A s0 (cs.foldl (A.toDfaChar Tname T) b) ∧
    (∃ app : List (Finset String × String),
      (cs.foldl (A.toDfaChar Tname T) b).state_map = b.state_map ++ app ∧
      (cs.foldl (A.toDfaChar Tname T) b).unmarked
        = b.unmarked ++ app.map Prod.fst) ∧
    (∀ k : String × String, (∀ c2 ∈ cs, k ≠ (Tname, Char.toString c2)) →
      (cs.foldl (A.toDfaChar Tname T) b).dfa.transGet k = b.dfa.transGet k) ∧
    (∀ c2 ∈ cs, complAt A (cs.foldl (A.toDfaChar Tname T) b) T Tname c2) ∧
    (∀ k ∈ keysOf (cs.foldl (A.toDfaChar Tname T) b).dfa.transitions,
      k ∈ keysOf b.dfa.transitions ∨
        ∃ c2 ∈ cs, k = (Tname, Char.toString c2)) := by
  induction cs generalizing b with
  | nil =>
    refine ⟨hB, ⟨[], by simp, by simp⟩, fun k _ => rfl, by simp,
      fun k hk => Or.inl hk⟩
  | cons c cs' ih =>
    obtain ⟨hB1, ⟨app1, hsm1, hun1⟩, hget1, hcompl1, hkeys1⟩ :=
      A.toDfaChar_spec s0 c hB hT hTun
        (hTfresh c (List.mem_cons_self _ _))
    have hT1 : (T, Tname) ∈ (A.toDfaChar Tname T b c).state_map := by
      rw [hsm1]; exact List.mem_append_left _ hT
    have hTkey : T ∈ keysOf b.state_map := List.mem_map.mpr ⟨_, hT, rfl⟩
    have hTun1 : T ∉ (A.toDfaChar Tname T b c).unmarked := by
      rw [hun1]
      intro hmem
      rcases List.mem_append.mp hmem with h1 | h1
      · exact hTun h1
      · have hnd1 : (keysOf ((A.toDfaChar Tname T b c).state_map)).Nodup :=
          hB1.keys_nd
        rw [hsm1, keysOf_append] at hnd1
        exact (List.nodup_append.mp hnd1).2.2 hTkey h1
    have hcnotin : c ∉ cs' := (List.nodup_cons.mp hnd).1
    have hnd' : cs'.Nodup := (List.nodup_cons.mp hnd).2
    have hTfresh1 : ∀ c2 ∈ cs',
        (Tname, Char.toString c2) ∉ keysOf (A.toDfaChar Tname T b c).dfa.transitions := by
      intro c2 hc2 hmem
      rcases hkeys1 _ hmem with h1 | h1
      · exact hTfresh c2 (List.mem_cons_of_mem _ hc2) h1
      · have : c2 = c := char_toString_inj (congrArg Prod.snd h1)
        exact hcnotin (this ▸ hc2)
    obtain ⟨hBf, ⟨app2, hsm2, hun2⟩, hget2, hcompl2, hkeys2⟩ :=
      ih hnd' hB1 hT1 hTun1 hTfresh1
    have hfold : (c :: cs').foldl (A.toDfaChar Tname T) b
        = cs'.foldl (A.toDfaChar Tname T) (A.toDfaChar Tname T b c) := rfl
    rw [hfold]
    refine ⟨hBf, ⟨app1 ++ app2, ?_, ?_⟩, ?_, ?_, ?_⟩
    · rw [hsm2, hsm1, List.append_assoc]
    · rw [hun2, hun1, List.map_append, List.append_assoc]
    · intro k hk
      rw [hget2 k (fun c2 hc2 => hk c2 (List.mem_cons_of_mem _ hc2))]
      exact hget1 k (hk c (List.mem_cons_self _ _))
    · intro c2 hc2
      rcases List.mem_cons.mp hc2 with h1 | h1
      · subst h1
        refine complAt_lift app2 hsm2 ?_ hcompl1
        refine hget2 _ ?_
        intro c3 hc3 heq
        have : c2 = c3 := char_toString_inj (congrArg Prod.snd heq)
        exact hcnotin (this ▸ hc3)
      · exact hcompl2 c2 h1
    · intro k hk
      rcases hkeys2 k hk with h1 | h1
      · rcases hkeys1 k h1 with h2 | h2
        · exact Or.inl h2
        · exact Or.inr ⟨c, List.mem_cons_self _ _, h2⟩
      · obtain ⟨c2, hc2, heq⟩ := h1
        exact Or.inr ⟨c2, List.mem_cons_of_mem _ hc2, heq⟩

end DfaCharStep

section DfaStepLemmas

theorem Automato.scaList_nodup (A : Automato) : A.scaList.Nodup :=
  List.nodup_dedup _

theorem Automato.toDfaStep_spec (A : Automato) (s0 : String) {b b2 : DfaBuild}
    (hI : DfaInv A s0 b) (hstep : A.toDfaStep b = some b2) :
    DfaInv A s0 b2 ∧ dfaMeasure A s0 b2 < dfaMeasure A s0 b := by
  obtain ⟨hB, hC⟩ := hI
  cases hum : b.unmarked with
  | nil =>
    unfold Automato.toDfaStep at hstep
    rw [hum] at hstep
    exact absurd hstep (by simp)
  | cons T rest =>
    have hTmem : T ∈ keysOf b.state_map := hB.unm_sub T (by rw [hum]; simp)
    obtain ⟨e, he, heq⟩ := List.mem_map.mp hTmem
    obtain ⟨T0, n0⟩ := e
    have hTn : (T, n0) ∈ b.state_map := by
      rw [show T = T0 from heq.symm]
      exact he
    have hlkT : b.state_map.lookup T = some n0 :=
      lookup_of_mem_nodup hB.keys_nd hTn
    have hb2 : b2 = A.scaList.foldl (A.toDfaChar n0 T)
        { b with unmarked := rest } := by
      unfold Automato.toDfaStep at hstep
      rw [hum] at hstep
      simp only [Option.some_inj] at hstep
      rw [← hstep, hlkT]
      rfl
    have hndT : T ∉ rest := by
      have := hB.unm_nd
      rw [hum] at this
      exact (List.nodup_cons.mp this).1
    have hB' : DfaBase A s0 { b with unmarked := rest } :=
      { keys_nd := hB.keys_nd
        names_eq := hB.names_eq
        nonempty := hB.nonempty
        sub_univ := hB.sub_univ
        start_mem := hB.start_mem
        unm_sub := fun T2 h2 => hB.unm_sub T2 (by rw [hum]; exact List.mem_cons_of_mem _ h2)
        unm_nd := by
          have := hB.unm_nd
          rw [hum] at this
          exact (List.nodup_cons.mp this).2
        dfa_states := hB.dfa_states
        dfa_start := hB.dfa_start
        dfa_finals := hB.dfa_finals
        finals_sub := hB.finals_sub
        tr_char := hB.tr_char
        tr_keys_nd := hB.tr_keys_nd
        tr_shape := by
          intro e he
          obtain ⟨T3, c3, Un3, hm3, hu3, he3, hne3, hm4, hv3⟩ := hB.tr_shape e he
          refine ⟨T3, c3, Un3, hm3, ?_, he3, hne3, hm4, hv3⟩
          intro hmem
          exact hu3 (by rw [hum]; exact List.mem_cons_of_mem _ hmem) }
    have hTfresh : ∀ c2 ∈ A.scaList,
        (n0, Char.toString c2) ∉ keysOf ({ b with unmarked := rest } : DfaBuild).dfa.transitions := by
      intro c2 _ hmem
      obtain ⟨e, he, heq⟩ := List.mem_map.mp hmem
      obtain ⟨T3, c3, Un3, hm3, hu3, he3, hne3, hm4, hv3⟩ := hB.tr_shape e he
      have hsrc : e.1.1 = n0 := congrArg Prod.fst heq
      rw [hsrc] at hm3
      have : T3 = T := hB.entry_unique_name hm3 hTn
      rw [this] at hu3
      exact hu3 (by rw [hum]; exact List.mem_cons_self _ _)
    obtain ⟨hBf, ⟨app, hsm, hun⟩, hget, hcompl, _⟩ :=
      A.toDfaFold_spec s0 A.scaList A.scaList_nodup hB'
        (show (T, n0) ∈ ({ b with unmarked := rest } : DfaBuild).state_map from hTn)
        hndT hTfresh
    rw [← hb2] at hBf hsm hun hget hcompl
    constructor
    · refine ⟨hBf, ?_⟩
      intro e he hemk c2 hc2
      rw [hsm] at he
      rcases List.mem_append.mp he with h1 | h1
      · by_cases hTe : e.1 = T
        · have hn : e.2 = n0 := by
            obtain ⟨e1, e2⟩ := e
            simp only at hTe ⊢
            rw [hTe] at h1
            exact hB.entry_unique_key h1 hTn
          have := hcompl c2 hc2
          rw [← hTe] at this
          rw [← hn] at this
          exact this
        · have hrest : e.1 ∉ rest := by
            intro hmem
            refine hemk ?_
            rw [hun]
            exact List.mem_append_left _ hmem
          have hold : e.1 ∉ b.unmarked := by
            rw [hum]
            intro hmem
            rcases List.mem_cons.mp hmem with h2 | h2
            · exact hTe h2
            · exact hrest h2
          have hcold := hC e h1 hold c2 hc2
          have hn0 : e.2 ≠ n0 := by
            intro heq
            obtain ⟨e1, e2⟩ := e
            simp only at heq
            rw [heq] at h1
            exact hTe (hB.entry_unique_name h1 hTn)
          refine complAt_lift app hsm ?_ hcold
          refine hget _ ?_
          intro c3 _ heq
          exact hn0 (congrArg Prod.fst heq)
      · exfalso
        refine hemk ?_
        rw [hun]
        exact List.mem_append_right _ (List.mem_map.mpr ⟨e, h1, rfl⟩)
    · have hlen1 : b2.state_map.length = b.state_map.length + app.length := by
        rw [hsm]
        simp
      have hlen2 : b2.unmarked.length = rest.length + app.length := by
        rw [hun]
        simp
      have hlen3 : b.unmarked.length = rest.length + 1 := by
        rw [hum]
        simp
      have hle : b2.state_map.length ≤ 2 ^ (insert s0 A.allDsts).card :=
        hBf.smap_card_le
      unfold dfaMeasure
      omega

end DfaStepLemmas

section IterStabilize

theorem iterStep_stabilize {σ : Type*} (f : σ → Option σ) (P : σ → Prop)
    (m : σ → Nat)
    (hstep : ∀ s s2, P s → f s = some s2 → P s2 ∧ m s2 < m s) :
    ∀ (fuel : Nat) (s : σ), P s → m s < fuel →
      P (iterStep f fuel s) ∧ f (iterStep f fuel s) = none := by
  intro fuel
  induction fuel with
  | zero =>
    intro s _ hm
    exact absurd hm (by omega)
  | succ n ih =>
    intro s hP hm
    show P (match f s with | none => s | some s2 => iterStep f n s2) ∧
      f (match f s with | none => s | some s2 => iterStep f n s2) = none
    cases hf : f s with
    | none => exact ⟨hP, hf⟩
    | some s2 =>
      obtain ⟨hP2, hm2⟩ := hstep s s2 hP hf
      exact ih s2 hP2 (by omega)

end IterStabilize

section ToDfaEnd

theorem iterStep_measure {σ : Type*} (f : σ → Option σ) (P : σ → Prop)
    (m : σ → Nat)
    (hstep : ∀ s s2, P s → f s = some s2 → P s2 ∧ m s2 < m s) :
    ∀ (fuel : Nat) (s : σ), P s →
      P (iterStep f fuel s) ∧
        (f (iterStep f fuel s) = none ∨ m (iterStep f fuel s) + fuel ≤ m s) := by
  intro fuel
  induction fuel with
  | zero =>
    intro s hP
    refine ⟨hP, Or.inr ?_⟩
    show m s + 0 ≤ m s
    omega
  | succ n ih =>
    intro s hP
    show P (match f s with | none => s | some s2 => iterStep f n s2) ∧
      (f (match f s with | none => s | some s2 => iterStep f n s2) = none ∨
        m (match f s with | none => s | some s2 => iterStep f n s2) + (n+1) ≤ m s)
    cases hf : f s with
    | none => exact ⟨hP, Or.inl hf⟩
    | some s2 =>
      obtain ⟨hP2, hm2⟩ := hstep s s2 hP hf
      obtain ⟨hP3, hd3⟩ := ih s2 hP2
      refine ⟨hP3, ?_⟩
      rcases hd3 with h1 | h1
      · exact Or.inl h1
      · refine Or.inr ?_
        show m (iterStep f n s2) + (n+1) ≤ m s
        omega

theorem Automato.toDfaInit_inv (A : Automato) (s0 : String) :
    DfaInv A s0 (A.toDfaInit s0) := by
  constructor
  · exact {
      keys_nd := by simp [Automato.toDfaInit, keysOf]
      names_eq := rfl
      nonempty := by
        intro e he
        rw [show (A.toDfaInit s0).state_map
          = [(A.epsilon_closure {s0}, "q0")] from rfl] at he
        rw [List.mem_singleton.mp he]
        exact A.epsilon_closure_nonempty (by simp)
      sub_univ := by
        intro e he
        rw [show (A.toDfaInit s0).state_map
          = [(A.epsilon_closure {s0}, "q0")] from rfl] at he
        rw [List.mem_singleton.mp he]
        show A.epsilon_closure {s0} ⊆ _
        refine Finset.Subset.trans (A.epsilon_closure_subset _) ?_
        refine Finset.union_subset ?_ (Finset.subset_insert _ _)
        simp
      start_mem := List.mem_singleton_self _
      unm_sub := by
        intro T hT
        rw [show (A.toDfaInit s0).unmarked = [A.epsilon_closure {s0}] from rfl] at hT
        rw [List.mem_singleton.mp hT]
        show _ ∈ keysOf [(A.epsilon_closure {s0}, "q0")]
        simp [keysOf]
      unm_nd := List.nodup_singleton _
      dfa_states := by
        show insert "q0" ∅ = _
        rfl
      dfa_start := rfl
      dfa_finals := by
        intro e he
        rw [show (A.toDfaInit s0).state_map
          = [(A.epsilon_closure {s0}, "q0")] from rfl] at he
        rw [List.mem_singleton.mp he]
        show "q0" ∈ (if decide ((A.epsilon_closure {s0}) ∩ A.final_states).Nonempty
          then insert "q0" ∅ else ∅) ↔ _
        by_cases hfl : ((A.epsilon_closure {s0}) ∩ A.final_states).Nonempty
        · rw [if_pos (by simpa using hfl)]
          simp [hfl]
        · rw [if_neg (by simpa using hfl)]
          simp [hfl]
      finals_sub := by
        show (if decide ((A.epsilon_closure {s0}) ∩ A.final_states).Nonempty
          then insert "q0" ∅ else ∅) ⊆ _
        by_cases hfl : ((A.epsilon_closure {s0}) ∩ A.final_states).Nonempty
        · rw [if_pos (by simpa using hfl)]
          intro x hx
          rcases Finset.mem_insert.mp hx with h1 | h1
          · rw [h1]
            exact List.mem_toFinset.mpr (List.mem_map.mpr
              ⟨(A.epsilon_closure {s0}, "q0"), List.mem_singleton_self _, rfl⟩)
          · exact absurd h1 (Finset.not_mem_empty x)
        · rw [if_neg (by simpa using hfl)]
          exact Finset.empty_subset _
      tr_char := by
        intro e he
        exact absurd he (List.not_mem_nil e)
      tr_keys_nd := List.nodup_nil
      tr_shape := by
        intro e he
        exact absurd he (List.not_mem_nil e) }
  · intro e he hemk
    rw [show (A.toDfaInit s0).state_map
      = [(A.epsilon_closure {s0}, "q0")] from rfl] at he
    exfalso
    refine hemk ?_
    rw [List.mem_singleton.mp he]
    show _ ∈ [A.epsilon_closure {s0}]
    exact List.mem_singleton_self _

theorem Automato.toDfaStep_none {A : Automato} {b : DfaBuild}
    (h : A.toDfaStep b = none) : b.unmarked = [] := by
  cases hum : b.unmarked with
  | nil => rfl
  | cons T rest =>
    unfold Automato.toDfaStep at h
    rw [hum] at h
    simp at h

theorem Automato.to_dfa_final (A : Automato) (s0 : String) :
    DfaInv A s0 (iterStep A.toDfaStep (A.toDfaFuel s0) (A.toDfaInit s0)) ∧
    (iterStep A.toDfaStep (A.toDfaFuel s0) (A.toDfaInit s0)).unmarked = [] := by
  obtain ⟨hI, hdisj⟩ := iterStep_measure A.toDfaStep (DfaInv A s0)
    (dfaMeasure A s0)
    (fun b b2 hIb hstep => A.toDfaStep_spec s0 hIb hstep)
    (A.toDfaFuel s0) (A.toDfaInit s0) (A.toDfaInit_inv s0)
  refine ⟨hI, ?_⟩
  rcases hdisj with h1 | h1
  · exact Automato.toDfaStep_none h1
  · have hone : 1 ≤ 2 ^ (insert s0 A.allDsts).card := Nat.one_le_two_pow
    have hm0 : dfaMeasure A s0 (A.toDfaInit s0)
        = 2 ^ (insert s0 A.allDsts).card := by
      show 1 + (2 ^ (insert s0 A.allDsts).card - 1) = _
      omega
    have hfz : A.toDfaFuel s0 = 2 ^ (insert s0 A.allDsts).card := rfl
    have hz : dfaMeasure A s0
        (iterStep A.toDfaStep (A.toDfaFuel s0) (A.toDfaInit s0)) = 0 := by
      omega
    have hlen : (iterStep A.toDfaStep (A.toDfaFuel s0)
        (A.toDfaInit s0)).unmarked.length = 0 := by
      unfold dfaMeasure at hz
      omega
    exact List.length_eq_zero.mp hlen

end ToDfaEnd

section Lockstep

theorem iterStep_succ_none {σ : Type*} {f : σ → Option σ} (F : Nat) {s : σ}
    (h : f s = none) : iterStep f (F+1) s = s := by
  show (match f s with | none => s | some s2 => iterStep f F s2) = s
  rw [h]

theorem iterStep_succ_some {σ : Type*} {f : σ → Option σ} (F : Nat) {s s2 : σ}
    (h : f s = some s2) : iterStep f (F+1) s = iterStep f F s2 := by
  show (match f s with | none => s | some s2 => iterStep f F s2) = _
  rw [h]

theorem mem_foldr_data {sym : String} {ch : Char} :
    ∀ (l : List String), sym ∈ l → ch ∈ sym.data →
      ch ∈ l.foldr (fun s acc => s.data ++ acc) [] := by
  intro l
  induction l with
  | nil =>
    intro h _
    exact absurd h (List.not_mem_nil _)
  | cons s rest ih =>
    intro h hch
    show ch ∈ s.data ++ rest.foldr (fun s acc => s.data ++ acc) []
    rcases List.mem_cons.mp h with h1 | h1
    · exact List.mem_append_left _ (h1 ▸ hch)
    · exact List.mem_append_right _ (ih h1 hch)

theorem Automato.mem_scaList_of_alphabet {A : Automato} {sym : String}
    (hmem : sym ∈ A.alphabet) {ch : Char} (hch : ch ∈ sym.data) :
    ch ∈ A.scaList := by
  unfold Automato.scaList
  rw [List.mem_dedup]
  refine mem_foldr_data _ ?_ hch
  unfold listOf
  rw [Finset.mem_sort]
  exact hmem

theorem Automato.move_char_scaList {A : Automato}
    (halph : ∀ e ∈ A.transitions, e.1.2 ≠ EPSILON → e.1.2 ∈ A.alphabet)
    {T : Finset String} {ch : Char} (hch : Char.toString ch ≠ EPSILON)
    (hmv : A.move T (Char.toString ch) ≠ ∅) : ch ∈ A.scaList := by
  obtain ⟨x, hx⟩ := Finset.nonempty_iff_ne_empty.mpr hmv
  rcases Finset.mem_biUnion.mp hx with ⟨s, hs, hxt⟩
  unfold Automato.transGet at hxt
  cases hl : A.transitions.lookup (s, Char.toString ch) with
  | none =>
    rw [hl] at hxt
    simp at hxt
  | some v =>
    have hment := lookup_mem_gen hl
    have halpha := halph _ hment hch
    exact Automato.mem_scaList_of_alphabet halpha
      (by rw [char_toString_data]; exact List.mem_singleton_self _)

theorem dfa_move_singleton (D : Automato) (n : String) (s : String) :
    D.move {n} s = D.transGet (n, s) := by
  unfold Automato.move
  exact Finset.singleton_biUnion

theorem dfa_transGet_dead {A : Automato} {s0 : String} {b : DfaBuild}
    (hB : DfaBase A s0 b) {T : Finset String} {n : String}
    (hmem : (T, n) ∈ b.state_map) {ch : Char}
    (hdead : A.nfaStepSet T ch = ∅) :
    b.dfa.transGet (n, Char.toString ch) = ∅ := by
  unfold Automato.transGet
  cases hl : b.dfa.transitions.lookup (n, Char.toString ch) with
  | none => rfl
  | some v =>
    exfalso
    have hment := lookup_mem_gen hl
    obtain ⟨T3, c3, Un3, hm3, _, he3, hne3, _, _⟩ := hB.tr_shape _ hment
    have hT3 : T3 = T := hB.entry_unique_name hm3 hmem
    have hc3 : ch = c3 := char_toString_inj he3
    rw [hT3, ← hc3] at hne3
    exact hne3 hdead

theorem Automato.lockstep (A : Automato) {s0 : String} {b : DfaBuild}
    (hB : DfaBase A s0 b)
    (hfull : ∀ e ∈ b.state_map, ∀ c ∈ A.scaList, complAt A b e.1 e.2 c)
    (hsyms : ∀ e ∈ A.transitions, e.1.2 = EPSILON ∨ e.1.2.length = 1)
    (halph : ∀ e ∈ A.transitions, e.1.2 ≠ EPSILON → e.1.2 ∈ A.alphabet)
    (w : List Char) (hw : ∀ ch ∈ w, Char.toString ch ≠ EPSILON) :
    ∀ (F : Nat) (T : Finset String) (n : String) (i : Nat)
      (hN hD : List (Finset String × Nat)),
      (T, n) ∈ b.state_map →
      ∃ T2 n2, (T2, n2) ∈ b.state_map ∧
        (iterStep (A.simStepF w) F ⟨T, i, hN⟩).cur = T2 ∧
        (iterStep (b.dfa.simStepF w) F ⟨{n}, i, hD⟩).cur = {n2} ∧
        (iterStep (A.simStepF w) F ⟨T, i, hN⟩).idx
          = (iterStep (b.dfa.simStepF w) F ⟨{n}, i, hD⟩).idx := by
  have hD2 : ∀ e ∈ b.dfa.transitions, e.1.2 = EPSILON ∨ e.1.2.length = 1 :=
    fun e he => Or.inr (hB.tr_char e he).2
  have hDnoeps : ∀ e ∈ b.dfa.transitions, e.1.2 ≠ EPSILON :=
    fun e he => (hB.tr_char e he).1
  intro F
  induction F with
  | zero =>
    intro T n i hN hD hmem
    exact ⟨T, n, hmem, rfl, rfl, rfl⟩
  | succ F ih =>
    intro T n i hN hD hmem
    by_cases hidx : i < w.length
    · have hdrop : w.drop i = w[i] :: w.drop (i+1) :=
        List.drop_eq_getElem_cons hidx
      have hch : Char.toString w[i] ≠ EPSILON := hw w[i] (List.getElem_mem hidx)
      have hNstep := @Automato.simStepF_single_char A w hsyms ⟨T, i, hN⟩ w[i]
        (w.drop (i+1)) hch hidx hdrop
      have hDstep := @Automato.simStepF_single_char b.dfa w hD2 ⟨{n}, i, hD⟩ w[i]
        (w.drop (i+1)) hch hidx hdrop
      by_cases hmv : A.move T (Char.toString w[i]) = ∅
      · have hdead : A.nfaStepSet T w[i] = ∅ := by
          unfold Automato.nfaStepSet
          rw [hmv]
          exact A.epsilon_closure_empty
        have hfN : A.simStepF w ⟨T, i, hN⟩ = none := by
          rw [hNstep, if_pos hmv]
        have hfD : b.dfa.simStepF w ⟨{n}, i, hD⟩ = none := by
          rw [hDstep, if_pos (by
            rw [dfa_move_singleton]
            exact dfa_transGet_dead hB hmem hdead)]
        rw [iterStep_succ_none F hfN, iterStep_succ_none F hfD]
        exact ⟨T, n, hmem, rfl, rfl, rfl⟩
      · have hsca : w[i] ∈ A.scaList := A.move_char_scaList halph hch hmv
        have hUne : A.nfaStepSet T w[i] ≠ ∅ := by
          unfold Automato.nfaStepSet
          exact A.epsilon_closure_nonempty hmv
        obtain ⟨Un, hUnmem, hUnget⟩ := hfull (T, n) hmem w[i] hsca hch hUne
        have hmvD : b.dfa.move {n} (Char.toString w[i]) = {Un} := by
          rw [dfa_move_singleton]
          exact hUnget
        have hnsD : b.dfa.nfaStepSet {n} w[i] = {Un} := by
          unfold Automato.nfaStepSet
          rw [hmvD]
          exact b.dfa.no_eps_closure_id hDnoeps {Un}
        have hfN : A.simStepF w ⟨T, i, hN⟩ = some ⟨A.nfaStepSet T w[i], i + 1,
            hN ++ [(A.nfaStepSet T w[i], i + 1)]⟩ := by
          rw [hNstep, if_neg hmv]
        have hfD : b.dfa.simStepF w ⟨{n}, i, hD⟩ = some ⟨{Un}, i + 1,
            hD ++ [({Un}, i + 1)]⟩ := by
          rw [hDstep, hnsD, if_neg (by rw [hmvD]; exact Finset.singleton_ne_empty Un)]
        rw [iterStep_succ_some F hfN, iterStep_succ_some F hfD]
        exact ih (A.nfaStepSet T w[i]) Un (i + 1) _ _ hUnmem
    · have hfN : A.simStepF w ⟨T, i, hN⟩ = none := by
        unfold Automato.simStepF
        rw [if_neg hidx]
      have hfD : b.dfa.simStepF w ⟨{n}, i, hD⟩ = none := by
        unfold Automato.simStepF
        rw [if_neg hidx]
      rw [iterStep_succ_none F hfN, iterStep_succ_none F hfD]
      exact ⟨T, n, hmem, rfl, rfl, rfl⟩

end Lockstep

theorem singleton_inter_nonempty_iff {a : String} {s : Finset String} :
    (({a} : Finset String) ∩ s).Nonempty ↔ a ∈ s := by
  constructor
  · rintro ⟨x, hx⟩
    rw [Finset.mem_inter, Finset.mem_singleton] at hx
    rw [← hx.1]
    exact hx.2
  · intro h
    exact ⟨a, Finset.mem_inter.mpr ⟨Finset.mem_singleton_self a, h⟩⟩

/-- C2: for an NFA whose every transition symbol is epsilon or a single
character, whose start state is set — the source's truthiness guard counts
both `None` and the empty-string name as unset, so the start state is some
non-empty name — whose non-epsilon transition symbols are all recorded in
the alphabet, and for an input word over that alphabet (no character spells
the epsilon marker), `to_dfa` succeeds and the resulting automaton accepts
the word under `simulate` exactly when the original automaton does. -/
theorem C2_to_dfa_preserves_language (A : Automato) (s0 : String) (w : List Char)
    (hstart : A.start_state = some s0) (hs0 : s0 ≠ "")
    (hsyms : ∀ e ∈ A.transitions, e.1.2 = EPSILON ∨ e.1.2.length = 1)
    (halph : ∀ e ∈ A.transitions, e.1.2 ≠ EPSILON → e.1.2 ∈ A.alphabet)
    (hw : ∀ ch ∈ w, Char.toString ch ≠ EPSILON) :
    ∃ D, A.to_dfa = some D ∧ D.simulate w = A.simulate w := by
  obtain ⟨⟨hB, hCmpl⟩, hUnm⟩ := A.to_dfa_final s0
  have hfull : ∀ e ∈ (iterStep A.toDfaStep (A.toDfaFuel s0) (A.toDfaInit s0)).state_map,
      ∀ c ∈ A.scaList,
        complAt A (iterStep A.toDfaStep (A.toDfaFuel s0) (A.toDfaInit s0)) e.1 e.2 c := by
    intro e he c hc
    refine hCmpl e he ?_ c hc
    rw [hUnm]
    exact List.not_mem_nil _
  refine ⟨(iterStep A.toDfaStep (A.toDfaFuel s0) (A.toDfaInit s0)).dfa, ?_, ?_⟩
  · unfold Automato.to_dfa
    rw [hstart]
    simp only [if_neg hs0]
    rfl
  · have hDnoeps2 : ∀ e ∈ (iterStep A.toDfaStep (A.toDfaFuel s0)
        (A.toDfaInit s0)).dfa.transitions, e.1.2 ≠ EPSILON :=
      fun e he => (hB.tr_char e he).1
    have hDclos : ∀ S, (iterStep A.toDfaStep (A.toDfaFuel s0)
        (A.toDfaInit s0)).dfa.epsilon_closure S = S :=
      fun S => (iterStep A.toDfaStep (A.toDfaFuel s0)
        (A.toDfaInit s0)).dfa.no_eps_closure_id hDnoeps2 S
    by_cases hw0 : w = []
    · subst hw0
      unfold Automato.simulate Automato.simulate_history
      rw [hstart, hB.dfa_start]
      simp only [if_neg hs0, if_neg (show ("q0" : String) ≠ "" from by decide),
        hDclos]
      show decide ((({"q0"} : Finset String) ∩ (iterStep A.toDfaStep (A.toDfaFuel s0)
          (A.toDfaInit s0)).dfa.final_states)).Nonempty
        = decide (((A.epsilon_closure {s0}) ∩ A.final_states)).Nonempty
      rw [decide_eq_decide, singleton_inter_nonempty_iff]
      exact hB.dfa_finals _ hB.start_mem
    · obtain ⟨T2, n2, hmem2, hcurN, hcurD, hidx⟩ :=
        A.lockstep hB hfull hsyms halph w hw w.length (A.epsilon_closure {s0})
          "q0" 0 [(A.epsilon_closure {s0}, 0)] [({"q0"}, 0)] hB.start_mem
      unfold Automato.simulate Automato.simulate_history
      rw [hstart, hB.dfa_start]
      simp only [if_neg hw0, if_neg hs0,
        if_neg (show ("q0" : String) ≠ "" from by decide), hDclos]
      rw [hcurN, hcurD, hidx]
      have hfin : (({n2} : Finset String) ∩ (iterStep A.toDfaStep (A.toDfaFuel s0)
          (A.toDfaInit s0)).dfa.final_states).Nonempty ↔
          (T2 ∩ A.final_states).Nonempty := by
        rw [singleton_inter_nonempty_iff]
        exact hB.dfa_finals _ hmem2
      rw [decide_eq_decide.mpr hfin]

/-- Witness for C2 at the concrete automaton `aut1` and input "a". -/
theorem C2_witness :
    aut1.start_state = some "q0" ∧ ("q0" : String) ≠ "" ∧
    (∀ e ∈ aut1.transitions, e.1.2 = EPSILON ∨ e.1.2.length = 1) ∧
    (∀ e ∈ aut1.transitions, e.1.2 ≠ EPSILON → e.1.2 ∈ aut1.alphabet) ∧
    (∀ ch ∈ ['a'], Char.toString ch ≠ EPSILON) ∧
    ∃ D, aut1.to_dfa = some D ∧ D.simulate ['a'] = aut1.simulate ['a'] :=
  ⟨rfl, by decide, by decide, by decide, by decide,
    C2_to_dfa_preserves_language aut1 "q0" ['a'] rfl (by decide) (by decide)
      (by decide) (by decide)⟩

section C3Minimize

theorem hst_c3 : autC3.states = {"q1"} := by decide

theorem hfs_c3 : autC3.final_states = {"q1"} := by decide

theorem hsd_c3 : autC3.states \ autC3.final_states = ∅ := by decide

theorem halph_c3 : autC3.alphabet = ∅ := by decide

theorem hisdfa_c3 : autC3.is_dfa = true := rfl

theorem hsca_c3 : autC3.scaList = [] := by
  unfold Automato.scaList listOf
  rw [halph_c3, Finset.sort_empty]
  rfl

theorem hmc_c3 : autC3.make_complete = autC3 := by
  unfold Automato.make_complete
  rw [hsca_c3]
  simp

theorem hstep1_c3 : autC3.hopcroftStep ([{"q1"}, ∅], [∅]) = some ([{"q1"}, ∅], []) := by
  unfold Automato.hopcroftStep listOf
  rw [halph_c3, Finset.sort_empty]
  rfl

theorem hstep2_c3 : autC3.hopcroftStep ([{"q1"}, ∅], []) = none := rfl

theorem hfuel_c3 : autC3.hopFuel = 6 := by decide

theorem hiter_c3 : iterStep autC3.hopcroftStep 6 ([{"q1"}, ∅], [∅]) = ([{"q1"}, ∅], []) := by
  rw [iterStep_succ_some 5 hstep1_c3]
  exact iterStep_succ_none 4 hstep2_c3

theorem hsort1_c3 : listOf {"q1"} = ["q1"] := by
  unfold listOf
  exact Finset.sort_singleton _ "q1"

theorem hmin_c3 : autC3.minimize = .ok ⟨{"q1"}, some "q1", {"q1"}, [], ∅⟩ := by
  unfold Automato.minimize
  rw [hmc_c3, hisdfa_c3]
  rw [if_neg (by simp : ¬(¬true = true))]
  simp only [hfs_c3, hsd_c3, hst_c3]
  rw [hfuel_c3]
  norm_num
  rw [hiter_c3]
  simp +decide [hsort1_c3, List.foldl_cons, List.foldl_nil, List.filter]

/-- C3: the claimed equivalence fails in the code.  `autC3` is a startless
one-state DFA (built by removing the start state), on which `is_dfa` holds
and `simulate` rejects everything; `minimize` rebuilds the quotient with
`add_state`, whose auto-start assignment silently installs the block of
`q1` as the new start state, so the minimized automaton accepts the empty
word that the input rejects. -/
theorem C3_minimize_divergence :
    autC3.is_dfa = true ∧
    autC3.simulate [] = false ∧
    autC3.minimize.toOption.map (fun M => M.simulate []) = some true := by
  refine ⟨rfl, by decide, ?_⟩
  rw [hmin_c3]
  decide

end C3Minimize

section C8Termination

theorem Automato.toDfaStep_nil {A : Automato} {b : DfaBuild}
    (h : b.unmarked = []) : A.toDfaStep b = none := by
  unfold Automato.toDfaStep
  rw [h]

theorem Automato.simStep_decrease (A : Automato) (w : List Char)
    (hne : ∀ e ∈ A.transitions, e.1.2 ≠ "") :
    ∀ c c2 : SimCfg, c.idx ≤ w.length → A.simStepF w c = some c2 →
      c2.idx ≤ w.length ∧ w.length + 1 - c2.idx < w.length + 1 - c.idx := by
  intro c c2 _ h
  unfold Automato.simStepF at h
  by_cases hidx : c.idx < w.length
  · rw [if_pos hidx] at h
    cases hscan : A.scanSyms c.cur (w.drop c.idx) ∅ (A.sortedSyms c.cur) with
    | none =>
      rw [hscan] at h
      exact absurd h (by simp)
    | some p =>
      rw [hscan] at h
      obtain ⟨sym, nxt⟩ := p
      simp only [Option.some_inj] at h
      rw [A.scanSyms_eq_find2] at hscan
      cases hf : (A.sortedSyms c.cur).find?
          (fun s2 => listPref s2.data (w.drop c.idx) && decide (A.move c.cur s2 ≠ ∅)) with
      | none =>
        rw [hf] at hscan
        simp at hscan
      | some sym2 =>
        rw [hf] at hscan
        simp at hscan
        obtain ⟨hsym, hnxt⟩ := hscan
        have hpred := List.find?_some hf
        have hmem := List.mem_of_find?_eq_some hf
        simp only [Bool.and_eq_true] at hpred
        have hpref : listPref sym2.data (w.drop c.idx) = true := hpred.1
        have hlen1 : sym2.data.length ≤ (w.drop c.idx).length := listPref_length hpref
        rw [List.length_drop] at hlen1
        have hc2 : sym2 ∈ A.candidateSyms c.cur := List.mem_mergeSort.mp hmem
        rcases (A.mem_candidateSyms).mp hc2 with ⟨_, s, v, _, hmemt⟩
        have hne2 : sym2 ≠ "" := hne ((s, sym2), v) hmemt
        have hpos : 1 ≤ sym2.data.length := by
          cases hd : sym2.data with
          | nil =>
            exact absurd (String.ext (show sym2.data = String.data "" from by
              rw [hd])) hne2
          | cons _ _ => simp [hd]
        have hlen2 : String.length sym2 = sym2.data.length := rfl
        rw [← h]
        show c.idx + sym.length ≤ w.length ∧
          w.length + 1 - (c.idx + sym.length) < w.length + 1 - c.idx
        rw [← hsym]
        omega
  · rw [if_neg hidx] at h
    exact absurd h (by simp)

theorem Automato.simulate_terminates (A : Automato) (w : List Char)
    (hne : ∀ e ∈ A.transitions, e.1.2 ≠ "") (c0 : SimCfg) (h0 : c0.idx = 0) :
    A.simStepF w (iterStep (A.simStepF w) w.length c0) = none := by
  obtain ⟨hP, hd⟩ := iterStep_measure (A.simStepF w) (fun c => c.idx ≤ w.length)
    (fun c => w.length + 1 - c.idx)
    (fun c c2 hc h => A.simStep_decrease w hne c c2 hc h)
    w.length c0 (by omega)
  rcases hd with h | h
  · exact h
  · have hnone : ∀ c : SimCfg, ¬ c.idx < w.length → A.simStepF w c = none := by
      intro c hc
      unfold Automato.simStepF
      rw [if_neg hc]
    exact hnone _ (by omega)

theorem len_le_sum_empt : ∀ l : List (Finset String),
    l.length ≤ (l.map Finset.card).sum + (l.filter (fun Y => Y = ∅)).length := by
  intro l
  induction l with
  | nil => simp
  | cons Y t ih =>
    rw [List.filter_cons]
    by_cases hY : Y = ∅
    · rw [if_pos (decide_eq_true hY)]
      simp only [List.length_cons, List.map_cons, List.sum_cons]
      omega
    · rw [if_neg (by simpa using hY)]
      have hc : 1 ≤ Y.card := Finset.card_pos.mpr (Finset.nonempty_iff_ne_empty.mpr hY)
      simp only [List.length_cons, List.map_cons, List.sum_cons]
      omega

theorem splitStep_spec (X Y : Finset String)
    (acc : List (Finset String) × List (Finset String)) :
    ∃ k, (splitStep X Y acc).1.length = acc.1.length + 1 + k ∧
      (splitStep X Y acc).2.length = acc.2.length + k ∧
      ((splitStep X Y acc).1.map Finset.card).sum
        = (acc.1.map Finset.card).sum + Y.card ∧
      ((splitStep X Y acc).1.filter (fun Z => Z = ∅)).length
        = (acc.1.filter (fun Z => Z = ∅)).length
          + (if Y = ∅ then 1 else 0) := by
  unfold splitStep
  by_cases hs : Y ∩ X ≠ ∅ ∧ Y \ X ≠ ∅
  · rw [if_pos hs]
    have hYne : Y ≠ ∅ := by
      intro hY
      exact hs.1 (by rw [hY]; simp)
    refine ⟨1, by simp, ?_, ?_, ?_⟩
    · by_cases hw : Y ∈ acc.2
      · rw [if_pos hw]
        have hlen := List.length_erase_of_mem hw
        have hpos : 0 < acc.2.length := List.length_pos.mpr (List.ne_nil_of_mem hw)
        simp only [List.length_append, hlen]
        simp only [List.length_cons, List.length_nil]
        omega
      · rw [if_neg hw]
        by_cases hc : (Y ∩ X).card ≤ (Y \ X).card
        · rw [if_pos hc]
          simp
        · rw [if_neg hc]
          simp
    · simp only [List.map_append, List.sum_append]
      have hcsum : Finset.card (Y ∩ X) + Finset.card (Y \ X) = Y.card :=
        Finset.card_inter_add_card_sdiff Y X
      simp only [List.map_cons, List.map_nil, List.sum_cons, List.sum_nil]
      omega
    · rw [if_neg hYne]
      simp only [List.filter_append, List.length_append]
      have h1 : List.filter (fun Z => decide (Z = ∅)) [Y ∩ X, Y \ X] = [] := by
        simp only [List.filter]
        rw [decide_eq_false hs.1, decide_eq_false hs.2]
      rw [h1]
      simp
  · rw [if_neg hs]
    refine ⟨0, by simp, by simp, ?_, ?_⟩
    · simp
    · simp only [List.filter_append, List.length_append]
      by_cases hY : Y = ∅
      · rw [if_pos hY]
        have h1 : List.filter (fun Z => decide (Z = ∅)) [Y] = [Y] := by
          simp only [List.filter]
          rw [decide_eq_true hY]
        rw [h1]
        simp
      · rw [if_neg hY]
        have h1 : List.filter (fun Z => decide (Z = ∅)) [Y] = [] := by
          simp only [List.filter]
          rw [decide_eq_false hY]
        rw [h1]
        simp

theorem splitFold_spec (X : Finset String) :
    ∀ (Pl : List (Finset String))
      (acc : List (Finset String) × List (Finset String)),
      ∃ k,
        (Pl.foldl (fun acc2 Y => splitStep X Y acc2) acc).1.length
          = acc.1.length + Pl.length + k ∧
        (Pl.foldl (fun acc2 Y => splitStep X Y acc2) acc).2.length
          = acc.2.length + k ∧
        ((Pl.foldl (fun acc2 Y => splitStep X Y acc2) acc).1.map Finset.card).sum
          = (acc.1.map Finset.card).sum + (Pl.map Finset.card).sum ∧
        ((Pl.foldl (fun acc2 Y => splitStep X Y acc2) acc).1.filter
            (fun Z => Z = ∅)).length
          = (acc.1.filter (fun Z => Z = ∅)).length
            + (Pl.filter (fun Z => Z = ∅)).length := by
  intro Pl
  induction Pl with
  | nil =>
    intro acc
    exact ⟨0, by simp, by simp, by simp, by simp⟩
  | cons Y t ih =>
    intro acc
    obtain ⟨k1, h1, h2, h3, h4⟩ := splitStep_spec X Y acc
    obtain ⟨k2, g1, g2, g3, g4⟩ := ih (splitStep X Y acc)
    rw [List.foldl_cons]
    refine ⟨k1 + k2, ?_, ?_, ?_, ?_⟩
    · rw [g1, h1]
      simp
      omega
    · rw [g2, h2]
      omega
    · rw [g3, h3]
      simp
      omega
    · rw [g4, h4]
      simp only [List.filter_cons]
      by_cases hY : Y = ∅
      · rw [if_pos hY, if_pos (decide_eq_true hY)]
        simp
        omega
      · rw [if_neg hY, if_neg (by simpa using hY)]
        omega

theorem hopCharFold_spec (A : Automato) (B : Finset String) :
    ∀ (syms : List String)
      (st : List (Finset String) × List (Finset String)),
      ∃ K,
        (syms.foldl (fun acc c =>
            acc.1.foldl (fun acc2 Y => splitStep (A.hopX c B) Y acc2)
              ([], acc.2)) st).1.length = st.1.length + K ∧
        (syms.foldl (fun acc c =>
            acc.1.foldl (fun acc2 Y => splitStep (A.hopX c B) Y acc2)
              ([], acc.2)) st).2.length = st.2.length + K ∧
        ((syms.foldl (fun acc c =>
            acc.1.foldl (fun acc2 Y => splitStep (A.hopX c B) Y acc2)
              ([], acc.2)) st).1.map Finset.card).sum
          = (st.1.map Finset.card).sum ∧
        ((syms.foldl (fun acc c =>
            acc.1.foldl (fun acc2 Y => splitStep (A.hopX c B) Y acc2)
              ([], acc.2)) st).1.filter (fun Z => Z = ∅)).length
          = (st.1.filter (fun Z => Z = ∅)).length := by
  intro syms
  induction syms with
  | nil =>
    intro st
    exact ⟨0, by simp, by simp, rfl, rfl⟩
  | cons c t ih =>
    intro st
    obtain ⟨k1, h1, h2, h3, h4⟩ := splitFold_spec (A.hopX c B) st.1 ([], st.2)
    obtain ⟨k2, g1, g2, g3, g4⟩ := ih (st.1.foldl
      (fun acc2 Y => splitStep (A.hopX c B) Y acc2) ([], st.2))
    rw [List.foldl_cons]
    refine ⟨k1 + k2, ?_, ?_, ?_, ?_⟩
    · rw [g1, h1]
      simp
      omega
    · rw [g2, h2]
      simp
      omega
    · rw [g3, h3]
      simp
    · rw [g4, h4]
      simp

theorem Automato.hopcroftStep_spec (A : Automato)
    {st st2 : List (Finset String) × List (Finset String)}
    (h : A.hopcroftStep st = some st2) :
    ∃ K, st2.1.length = st.1.length + K ∧
      st2.2.length + 1 = st.2.length + K ∧
      (st2.1.map Finset.card).sum = (st.1.map Finset.card).sum ∧
      (st2.1.filter (fun Z => Z = ∅)).length
        = (st.1.filter (fun Z => Z = ∅)).length := by
  unfold Automato.hopcroftStep at h
  cases hw : st.2 with
  | nil =>
    rw [hw] at h
    exact absurd h (by simp)
  | cons B rest =>
    rw [hw] at h
    simp only [Option.some_inj] at h
    obtain ⟨K, h1, h2, h3, h4⟩ := hopCharFold_spec A B (listOf A.alphabet) (st.1, rest)
    rw [h] at h1 h2 h3 h4
    refine ⟨K, by simpa using h1, ?_, by simpa using h3, by simpa using h4⟩
    simp only [List.length_cons]
    simp at h2
    omega

theorem Automato.hopcroft_terminates (A : Automato) :
    A.hopcroftStep (iterStep A.hopcroftStep A.hopFuel
      ([A.final_states, A.states \ A.final_states],
        if A.final_states.card ≤ (A.states \ A.final_states).card
          then [A.final_states] else [A.states \ A.final_states])) = none := by
  have hstep : ∀ st st2, ((st.1.map Finset.card).sum
        + (st.1.filter (fun Z => Z = ∅)).length
        ≤ A.final_states.card + (A.states \ A.final_states).card + 2) →
      A.hopcroftStep st = some st2 →
      ((st2.1.map Finset.card).sum + (st2.1.filter (fun Z => Z = ∅)).length
        ≤ A.final_states.card + (A.states \ A.final_states).card + 2) ∧
      (st2.2.length + 2 * ((A.final_states.card
          + (A.states \ A.final_states).card + 2) - st2.1.length))
        < st.2.length + 2 * ((A.final_states.card
          + (A.states \ A.final_states).card + 2) - st.1.length) := by
    intro st st2 hP h
    obtain ⟨K, h1, h2, h3, h4⟩ := A.hopcroftStep_spec h
    have hinv : (st2.1.map Finset.card).sum
        + (st2.1.filter (fun Z => Z = ∅)).length
        ≤ A.final_states.card + (A.states \ A.final_states).card + 2 := by
      rw [h3, h4]
      exact hP
    refine ⟨hinv, ?_⟩
    have hb2 := len_le_sum_empt st2.1
    have hb1 := len_le_sum_empt st.1
    have hq : st.2.length ≥ 1 := by
      cases hw : st.2 with
      | nil =>
        unfold Automato.hopcroftStep at h
        rw [hw] at h
        exact absurd h (by simp)
      | cons _ _ => simp
    rw [h3, h4] at hb2
    omega
  have h0 : ((([A.final_states, A.states \ A.final_states] :
        List (Finset String)).map Finset.card).sum
      + (([A.final_states, A.states \ A.final_states] :
        List (Finset String)).filter (fun Z => Z = ∅)).length
      ≤ A.final_states.card + (A.states \ A.final_states).card + 2) := by
    have : (([A.final_states, A.states \ A.final_states] :
        List (Finset String)).filter (fun Z => Z = ∅)).length ≤ 2 := by
      have := List.length_filter_le (fun Z => decide (Z = ∅))
        [A.final_states, A.states \ A.final_states]
      simpa using this
    simp only [List.map_cons, List.map_nil, List.sum_cons, List.sum_nil]
    omega
  have hm0 : (if A.final_states.card ≤ (A.states \ A.final_states).card
      then [A.final_states] else [A.states \ A.final_states]).length = 1 := by
    by_cases hc : A.final_states.card ≤ (A.states \ A.final_states).card
    · rw [if_pos hc]
      rfl
    · rw [if_neg hc]
      rfl
  refine (iterStep_stabilize A.hopcroftStep
    (fun st => (st.1.map Finset.card).sum
      + (st.1.filter (fun Z => Z = ∅)).length
      ≤ A.final_states.card + (A.states \ A.final_states).card + 2)
    (fun st => st.2.length + 2 * ((A.final_states.card
      + (A.states \ A.final_states).card + 2) - st.1.length))
    hstep A.hopFuel _ h0 ?_).2
  show (if A.final_states.card ≤ (A.states \ A.final_states).card
      then [A.final_states] else [A.states \ A.final_states]).length
    + 2 * ((A.final_states.card + (A.states \ A.final_states).card + 2) - 2)
    < A.hopFuel
  rw [hm0]
  unfold Automato.hopFuel
  omega

end C8Termination

section C8Claims

theorem hsorted_c8 : autC8.sortedSyms {"q0"} = [""] := by
  have hc : autC8.candidateSyms {"q0"} = [""] := by decide
  unfold Automato.sortedSyms
  rw [hc]
  exact List.perm_singleton.mp (List.mergeSort_perm [""] _)

theorem hstep_c8 : ∀ h : List (Finset String × Nat),
    autC8.simStepF ['a'] ⟨{"q0"}, 0, h⟩ = some ⟨{"q0"}, 0, h ++ [({"q0"}, 0)]⟩ := by
  intro h
  unfold Automato.simStepF
  have hidx : ((⟨{"q0"}, 0, h⟩ : SimCfg).idx < (['a'] : List Char).length) := by
    show (0 : Nat) < 1
    omega
  rw [if_pos hidx]
  rw [hsorted_c8]
  rfl

theorem iter_c8 : ∀ (F : Nat) (h : List (Finset String × Nat)),
    (iterStep (autC8.simStepF ['a']) F ⟨{"q0"}, 0, h⟩).cur = {"q0"} ∧
    (iterStep (autC8.simStepF ['a']) F ⟨{"q0"}, 0, h⟩).idx = 0 ∧
    (iterStep (autC8.simStepF ['a']) F ⟨{"q0"}, 0, h⟩).hist.length = h.length + F := by
  intro F
  induction F with
  | zero =>
    intro h
    refine ⟨rfl, rfl, ?_⟩
    show h.length = h.length + 0
    omega
  | succ F ih =>
    intro h
    rw [iterStep_succ_some F (hstep_c8 h)]
    obtain ⟨h1, h2, h3⟩ := ih (h ++ [({"q0"}, 0)])
    refine ⟨h1, h2, ?_⟩
    rw [h3]
    simp only [List.length_append, List.length_cons, List.length_nil]
    omega

/-- C8 counterexample: the empty transition symbol `""` passes the
`add_transition` checks, is a prefix of every remaining input, and advances
the cursor by its length 0; so on `autC8` with input "a" the body of the
`while input_idx < len(input_str)` loop of `simulate_history` succeeds at
every iteration — the history grows by one entry per iteration and the loop
step never returns the exit value — and the source loop never terminates,
refuting the unconditional termination claim for `simulate_history`. -/
theorem C8_counterexample :
    autC8.start_state = some "q0" ∧
    autC8.epsilon_closure {"q0"} = {"q0"} ∧
    (∀ F : Nat,
      (iterStep (autC8.simStepF ['a']) F ⟨{"q0"}, 0, [({"q0"}, 0)]⟩).hist.length
        = F + 1 ∧
      autC8.simStepF ['a']
        (iterStep (autC8.simStepF ['a']) F ⟨{"q0"}, 0, [({"q0"}, 0)]⟩) ≠ none) := by
  refine ⟨rfl, by decide, ?_⟩
  intro F
  obtain ⟨h1, h2, h3⟩ := iter_c8 F [({"q0"}, 0)]
  constructor
  · rw [h3]
    simp only [List.length_cons, List.length_nil]
    omega
  · cases hE : iterStep (autC8.simStepF ['a']) F ⟨{"q0"}, 0, [({"q0"}, 0)]⟩ with
    | mk cur idx hist =>
      rw [hE] at h1 h2
      have h1b : cur = {"q0"} := h1
      have h2b : idx = 0 := h2
      subst h1b
      subst h2b
      rw [hstep_c8]
      simp

/-- C8 (amended): each loop of the four operations reaches its exit after
the stated amount of fuel — the epsilon-closure saturation reaches a
fixpoint (its worklist empties), the `simulate_history` loop exits within
`|w|` iterations provided no transition symbol is the empty string (the
restriction the counterexample shows necessary), the `to_dfa` worklist
empties within `2^(|Q|+1)` iterations, and the `minimize` partition
refinement empties its waiting list within `2(|F| + |Q \ F| + 2)`
iterations. -/
theorem C8_termination_amended (A : Automato) (s0 : String) (w : List Char)
    (hne : ∀ e ∈ A.transitions, e.1.2 ≠ "") :
    (∀ S : Finset String, A.epsStep (A.epsilon_closure S) = A.epsilon_closure S) ∧
    A.simStepF w (iterStep (A.simStepF w) w.length
      ⟨A.epsilon_closure {s0}, 0, [(A.epsilon_closure {s0}, 0)]⟩) = none ∧
    A.toDfaStep (iterStep A.toDfaStep (A.toDfaFuel s0) (A.toDfaInit s0)) = none ∧
    A.make_complete.hopcroftStep (iterStep A.make_complete.hopcroftStep
      A.make_complete.hopFuel
      ([A.make_complete.final_states,
          A.make_complete.states \ A.make_complete.final_states],
        if A.make_complete.final_states.card
            ≤ (A.make_complete.states \ A.make_complete.final_states).card
          then [A.make_complete.final_states]
          else [A.make_complete.states \ A.make_complete.final_states])) = none :=
  ⟨A.epsStep_closure,
   A.simulate_terminates w hne _ rfl,
   Automato.toDfaStep_nil (A.to_dfa_final s0).2,
   A.make_complete.hopcroft_terminates⟩

/-- Witness for C8 (amended) at `aut1`, seed state "q0" and input "a". -/
theorem C8_witness :
    (∀ e ∈ aut1.transitions, e.1.2 ≠ "") ∧
    ((∀ S : Finset String,
        aut1.epsStep (aut1.epsilon_closure S) = aut1.epsilon_closure S) ∧
     aut1.simStepF ['a'] (iterStep (aut1.simStepF ['a']) ['a'].length
       ⟨aut1.epsilon_closure {"q0"}, 0, [(aut1.epsilon_closure {"q0"}, 0)]⟩) = none ∧
     aut1.toDfaStep (iterStep aut1.toDfaStep (aut1.toDfaFuel "q0")
       (aut1.toDfaInit "q0")) = none ∧
     aut1.make_complete.hopcroftStep (iterStep aut1.make_complete.hopcroftStep
       aut1.make_complete.hopFuel
       ([aut1.make_complete.final_states,
           aut1.make_complete.states \ aut1.make_complete.final_states],
         if aut1.make_complete.final_states.card
             ≤ (aut1.make_complete.states \ aut1.make_complete.final_states).card
           then [aut1.make_complete.final_states]
           else [aut1.make_complete.states \ aut1.make_complete.final_states]))
       = none) :=
  ⟨by decide, C8_termination_amended aut1 "q0" ['a'] (by decide)⟩

end C8Claims
